import Mathlib

/-!
Tiled blur / invert pipeline (`image_processor.cpp`)

A shallow embedding of the two-stage image pipeline and the proofs of its
specified properties.

Conventions of the embedding.

* `int` is 32 bits wide. An `int` value is an `Int` in the range
  `-2147483648 .. 2147483647`; the `int` operations whose exact result can
  leave that range (the tile arithmetic `startX + tileSize`, the neighbour
  coordinates `x + kx`, the channel sums, the neighbour count and the size
  product `width * height`) are followed by `wrapInt`, the two's-complement
  reduction modulo `2^32` that the compiled program performs. The theorems
  carry the bounds under which none of them wraps. The remaining `int`
  operations are exact: a counter `++i` stays at or below its loop bound,
  `kernelSize / 2` and `-halfKernel` cannot overflow, and a pixel index
  `y * width + x` is evaluated at pixels of the image, where it lies below
  `width * height`.
* An `int` division that traps (a division by zero) kills the process:
  `blurPixel` returns `none`, and in the step machine the state is marked
  `killed` and no thread steps any more.
* `uint8_t` channels are `Fin 256`; every store of an `int` expression into a
  channel goes through `toU8`, the reduction modulo `2^8` that the implicit
  conversion performs.
* `vector<Pixel>` is a `List Pixel`; `operator[]` is `load` / `Buffer.store`.
  A `Buffer` additionally logs the indices stored to, in program order. An
  index outside the vector is undefined in the source; what the embedding
  does there (a negative index acts as index 0, a read beyond the end yields
  the default pixel, a store beyond the end changes nothing) is immaterial:
  the theorems show that the indices used on well-formed inputs are inside.
* `for (int i = lo; i < hi; ++i)` is `forRange lo hi`.
* Loops whose step is not a constant `1` (the tile enqueue loops) carry fuel.
* `process` is a step machine over the atomic steps of its threads. The task
  queues and the `...Done` flags are globals of the program that `process`
  never resets, so the state they are in when `process` is called is a
  parameter of an execution (`Globals`).
-/

namespace ImageProcessor

/-! ## Data model -/

/-- An 8-bit unsigned channel value (`uint8_t`). -/
abbrev U8 := Fin 256

/-- Conversion of an `int` to `uint8_t`: reduction modulo `2^8`. -/
def toU8 (z : Int) : U8 :=
  ⟨(z % 256).toNat, by
    have h1 : 0 ≤ z % 256 := Int.emod_nonneg z (by decide)
    have h2 : z % 256 < 256 := Int.emod_lt_of_pos z (by decide)
    omega⟩

/-- The largest `int`. -/
def INT_MAX : Int := 2147483647

/-- The `int` that a 32-bit two's-complement machine holds for the exact
result `z` of an `int` operation: `z` reduced modulo `2^32` into
`-2147483648 .. INT_MAX`. -/
def wrapInt (z : Int) : Int :=
  (z + 2147483648) % 4294967296 - 2147483648

/-- Source `struct Pixel { uint8_t r, g, b; }`. -/
structure Pixel where
  r : U8
  g : U8
  b : U8
deriving DecidableEq, Repr

/-- A value-initialised pixel (what `vector<Pixel> v(n)` is filled with). -/
instance : Inhabited Pixel := ⟨⟨0, 0, 0⟩⟩

/-- Source `struct Tile { int startX, startY; int endX, endY; }`. -/
structure Tile where
  startX : Int
  startY : Int
  endX : Int
  endY : Int
deriving DecidableEq, Repr

/-- Read access `image[i]` of a `const vector<Pixel>&`. -/
def load (image : List Pixel) (i : Int) : Pixel :=
  image.getD i.toNat default

/-- A writable `vector<Pixel>` together with the log of the indices that were
stored to, oldest first. -/
structure Buffer where
  data : List Pixel
  writes : List Int
deriving DecidableEq, Repr

/-- Write access `image[i] = p` (all three channels of the element). -/
def Buffer.store (buf : Buffer) (i : Int) (p : Pixel) : Buffer :=
  { data := buf.data.set i.toNat p, writes := buf.writes ++ [i] }

/-- The loop `for (int i = lo; i < hi; ++i) body(i)` threading a state. -/
def forRange {σ : Type} (lo hi : Int) (init : σ) (body : Int → σ → σ) : σ :=
  (List.range (hi - lo).toNat).foldl (fun s (k : Nat) => body (lo + (k : Int)) s) init

/-! ## The invert stage (`invertWorker`, lines 105-114) -/

/-- One channel store `inverted.c = 255 - pixel.c`: the subtraction is done in
`int` and converted back to `uint8_t`. -/
def invertChannel (v : U8) : U8 :=
  toU8 (255 - (v.val : Int))

/-- The three channel stores of the loop body. -/
def invertPixel (pixel : Pixel) : Pixel :=
  { r := invertChannel pixel.r, g := invertChannel pixel.g, b := invertChannel pixel.b }

/-- The tile built in the body of the inner enqueue loop (lines 190-194); the
two sums are `int` additions. -/
def mkTile (width height tileSize startX startY : Int) : Tile :=
  { startX := startX, startY := startY,
    endX := min (wrapInt (startX + tileSize)) width,
    endY := min (wrapInt (startY + tileSize)) height }

/-- The inner loop `for (startX = ...; startX < width; startX += tileSize)`,
entered with the given `startX`; `queue` is the blur task queue, newest last.
`none` means the fuel ran out before the loop condition failed. -/
def enqueueRow (fuel : Nat) (width height tileSize startY startX : Int)
    (queue : List Tile) : Option (List Tile) :=
  match fuel with
  | 0 => none
  | fuel + 1 =>
    if startX < width then
      enqueueRow fuel width height tileSize startY (wrapInt (startX + tileSize))
        (queue ++ [mkTile width height tileSize startX startY])
    else some queue

/-- The outer loop `for (startY = ...; startY < height; startY += tileSize)`,
entered with the given `startY`. -/
def enqueueRows (fuel : Nat) (width height tileSize startY : Int)
    (queue : List Tile) : Option (List Tile) :=
  match fuel with
  | 0 => none
  | fuel + 1 =>
    if startY < height then
      match enqueueRow fuel width height tileSize startY 0 queue with
      | none => none
      | some queue1 =>
        enqueueRows fuel width height tileSize (wrapInt (startY + tileSize)) queue1
    else some queue

/-- The tiles that the whole enqueue phase pushes, oldest first. -/
def enqueueTiles (fuel : Nat) (width height tileSize : Int) : Option (List Tile) :=
  enqueueRows fuel width height tileSize 0 []

/-- Pixel `(x, y)` lies in the half-open rectangle of `tile`. -/
def Tile.contains (tile : Tile) (x y : Int) : Prop :=
  tile.startX ≤ x ∧ x < tile.endX ∧ tile.startY ≤ y ∧ y < tile.endY

instance (tile : Tile) (x y : Int) : Decidable (tile.contains x y) := by
  unfold Tile.contains
  exact inferInstance

/-! ### The tile grid as the specification words it -/

/-- The number `⌈a / b⌉` of steps of size `b` needed to reach `a`. -/
def ceilDiv (a b : Int) : Nat :=
  ((a + b - 1) / b).toNat

/-- The tile anchored at `(startX, startY)` in exact arithmetic:
`endX = min(startX + tileSize, width)`, `endY = min(startY + tileSize, height)`. -/
def tileAt (width height tileSize startX startY : Int) : Tile :=
  { startX := startX, startY := startY,
    endX := min (startX + tileSize) width, endY := min (startY + tileSize) height }

/-- Row `i` of the tile grid, left to right. -/
def gridRow (width height tileSize : Int) (i : Nat) : List Tile :=
  (List.range (ceilDiv width tileSize)).map fun (j : Nat) =>
    tileAt width height tileSize (tileSize * (j : Int)) (tileSize * (i : Int))

/-- The tile grid in row-major order. -/
def gridTiles (width height tileSize : Int) : List Tile :=
  (List.range (ceilDiv height tileSize)).flatMap (gridRow width height tileSize)

/-! ## The blur stage (`blurWorker`, lines 120 and 136-161) -/

/-- The running sums `rSum`, `gSum`, `bSum` and `count` of the kernel loops. -/
structure BlurAcc where
  rSum : Int
  gSum : Int
  bSum : Int
  count : Int
deriving DecidableEq, Repr

/-- The two kernel loops (lines 138-154) for the pixel `(x, y)`; a loop
`for (k = -halfKernel; k <= halfKernel; ++k)` is `forRange` up to
`halfKernel + 1`. The neighbour coordinates, the three sums and the count are
`int` additions. -/
def blurSums (inputImage : List Pixel) (width height halfKernel x y : Int) : BlurAcc :=
  forRange (-halfKernel) (halfKernel + 1) { rSum := 0, gSum := 0, bSum := 0, count := 0 }
    fun ky acc =>
      forRange (-halfKernel) (halfKernel + 1) acc fun kx acc =>
        let nx := wrapInt (x + kx)
        let ny := wrapInt (y + ky)
        if nx ≥ 0 ∧ nx < width ∧ ny ≥ 0 ∧ ny < height then
          let pixel := load inputImage (ny * width + nx)
          { rSum := wrapInt (acc.rSum + (pixel.r.val : Int)),
            gSum := wrapInt (acc.gSum + (pixel.g.val : Int)),
            bSum := wrapInt (acc.bSum + (pixel.b.val : Int)),
            count := wrapInt (acc.count + 1) }
        else acc

/-- The `int` division `num / den` traps, and the process is killed by the
signal instead of getting a quotient: the divisor is 0, or the quotient of
`-2147483648 / -1` is no `int`. -/
def divTraps (num den : Int) : Prop :=
  den = 0 ∨ (den = -1 ∧ num = -2147483648)

instance (num den : Int) : Decidable (divTraps num den) := by
  unfold divTraps
  exact inferInstance

/-- The value stored for pixel `(x, y)` (lines 120, 138-159): the three `int`
quotients, truncated toward zero, converted to `uint8_t`. When one of the
divisions traps (with `count = 0`, the case that arises) the process is killed:
`none`. -/
def blurPixel (inputImage : List Pixel) (width height kernelSize x y : Int) : Option Pixel :=
  let halfKernel := Int.tdiv kernelSize 2
  let acc := blurSums inputImage width height halfKernel x y
  if divTraps acc.rSum acc.count ∨ divTraps acc.gSum acc.count ∨ divTraps acc.bSum acc.count
  then none
  else
    some { r := toU8 (Int.tdiv acc.rSum acc.count), g := toU8 (Int.tdiv acc.gSum acc.count),
           b := toU8 (Int.tdiv acc.bSum acc.count) }

/-- The body of the pixel loops of `blurWorker` (lines 138-160) for the pixel
`(x, y)`: the store of the blurred pixel; `none` once a division has
trapped. -/
def blurStore (inputImage : List Pixel) (width height kernelSize x y : Int)
    (outputImage : Option Buffer) : Option Buffer :=
  match outputImage with
  | none => none
  | some buf =>
    match blurPixel inputImage width height kernelSize x y with
    | none => none
    | some pixel => some (buf.store (y * width + x) pixel)

/-- The pixel loops of `blurWorker` for one popped tile (lines 136-161). -/
def blurTile (inputImage : List Pixel) (outputImage : Buffer) (width height kernelSize : Int)
    (tile : Tile) : Option Buffer :=
  forRange tile.startY tile.endY (some outputImage) fun y out =>
    forRange tile.startX tile.endX out fun x out =>
      blurStore inputImage width height kernelSize x y out

/-! ### The blur as the specification words it -/

/-- The neighbours of `(x, y)` that the specification averages over: the pixels
`(nx, ny)` of the image with `|nx - x|` and `|ny - y|` at most `kernelSize / 2`. -/
def neighbours (width height kernelSize x y : Int) : Finset (Int × Int) :=
  (Finset.Ico 0 width ×ˢ Finset.Ico 0 height).filter fun p =>
    |p.1 - x| ≤ kernelSize / 2 ∧ |p.2 - y| ≤ kernelSize / 2

/-- The sum of one channel over the neighbours of `(x, y)`. -/
def channelSum (chan : Pixel → U8) (inputImage : List Pixel)
    (width height kernelSize x y : Int) : Int :=
  ∑ p ∈ neighbours width height kernelSize x y,
    ((chan (load inputImage (p.2 * width + p.1))).val : Int)

/-! ### Auxiliary views of the pixel loops -/

/-- The pixel that `blurPixel` stores; where the division traps the default
pixel stands in (the theorems use `blurValue` only at pixels where
`blurPixel` is shown to return a pixel). -/
def blurValue (inputImage : List Pixel) (width height kernelSize x y : Int) : Pixel :=
  (blurPixel inputImage width height kernelSize x y).getD default

/-- The pixels `(x, y)` of a tile in the order the worker loops visit them. -/
def tilePixels (tile : Tile) : List (Int × Int) :=
  (List.range (tile.endY - tile.startY).toNat).flatMap fun (ky : Nat) =>
    (List.range (tile.endX - tile.startX).toNat).map fun (kx : Nat) =>
      (tile.startX + (kx : Int), tile.startY + (ky : Int))

/-- Storing `val x y` at index `y * width + x` for a list of pixels, in order. -/
def storePixels (val : Int → Int → Pixel) (width : Int) (buf : Buffer)
    (ps : List (Int × Int)) : Buffer :=
  ps.foldl (fun b p => b.store (p.2 * width + p.1) (val p.1 p.2)) buf

/-- An image of `n` pixels `(255, 255, 255)`. -/
def whiteImage (n : Nat) : List Pixel :=
  List.replicate n ⟨255, 255, 255⟩

/-! ### The two filters computed directly on the whole image -/

/-- All the pixels of a list of results, or `none` when one is missing. -/
def allSome : List (Option Pixel) → Option (List Pixel)
  | [] => some []
  | none :: _ => none
  | some p :: rest =>
    match allSome rest with
    | none => none
    | some ps => some (p :: ps)

/-- The box blur of the whole image, pixel by pixel in index order; `none`
when the division traps at some pixel. -/
def blurImage (inputImage : List Pixel) (width height kernelSize : Int) :
    Option (List Pixel) :=
  allSome ((List.range (width * height).toNat).map fun (i : Nat) =>
    blurPixel inputImage width height kernelSize ((i : Int) % width) ((i : Int) / width))

/-- The channel inversion of a whole image. -/
def invertImage (image : List Pixel) : List Pixel :=
  image.map invertPixel

/-! ## The stage queues (lines 38-43) and the pop at the top of a worker loop -/

/-- A task queue with its completion flag: `blurTaskQueue` with `blurDone`, or
`inversionTaskQueue` with `inversionDone`. The oldest tile is the head. -/
structure StageQueue where
  pending : List Tile
  closed : Bool
deriving DecidableEq, Repr

/-- The call `queue.push(tile)` under the queue's mutex. -/
def StageQueue.push (q : StageQueue) (tile : Tile) : StageQueue :=
  { q with pending := q.pending ++ [tile] }

/-- Setting the `...Done` flag under the queue's mutex. -/
def StageQueue.close (q : StageQueue) : StageQueue :=
  { q with closed := true }

/-- The global queues and flags of the program (lines 38-43). They are
initialised once, at program start, and `process` never resets them. -/
structure Globals where
  blurQueue : StageQueue
  inversionQueue : StageQueue
deriving DecidableEq, Repr

/-- The globals as the program start initialises them: both queues empty,
both flags `false`. -/
def freshGlobals : Globals :=
  { blurQueue := { pending := [], closed := false },
    inversionQueue := { pending := [], closed := false } }

/-- What the locked block at the top of a worker loop does (lines 93-103 and
124-134). -/
inductive PopResult where
  /-- The wait predicate `!queue.empty() || done` is false: the worker stays
  parked on the condition variable. -/
  | blocked
  /-- The test `done && queue.empty()` holds: the worker leaves its loop. -/
  | noMoreWork
  /-- The tile `queue.front()` was taken and popped; `rest` is the queue
  afterwards. -/
  | tile (t : Tile) (rest : StageQueue)
deriving DecidableEq, Repr

/-- The locked block: the wait, the exit test, then `front()` and `pop()`. The
last branch of the `match` is never taken: past the wait an empty queue is
closed, and then the exit test holds. -/
def pop (q : StageQueue) : PopResult :=
  if !q.pending.isEmpty || q.closed then
    if q.closed && q.pending.isEmpty then PopResult.noMoreWork
    else
      match q.pending with
      | t :: rest => PopResult.tile t { pending := rest, closed := q.closed }
      | [] => PopResult.blocked
  else PopResult.blocked

/-- One worker running its loop alone on a queue nobody else touches: the
tiles it takes, in order, until it leaves the loop; `none` when it parks on the
condition variable (or the fuel runs out) before leaving. -/
def workerLoop (fuel : Nat) (q : StageQueue) : Option (List Tile) :=
  match fuel with
  | 0 => none
  | fuel + 1 =>
    match pop q with
    | PopResult.blocked => none
    | PopResult.noMoreWork => some []
    | PopResult.tile t rest => (workerLoop fuel rest).map fun ts => t :: ts

/-! ## `process` (lines 172-223) with its workers, as a step machine

Every thread of `process` advances by atomic steps: one evaluation of a loop
condition together with the statement it guards (a locked queue operation or
the stores of one pixel). A schedule is the list of the threads that step, in
order; a thread that cannot step (parked on a condition variable, waiting in
`join`, or finished) makes the schedule invalid. Memory is sequentially
consistent. The `notify` calls are not modelled: a parked worker may step as
soon as its wait predicate holds, which is what they provide, every change of
a queue or flag being followed by one. A division by zero in a blur worker
kills the process: the state is marked `killed` and no thread steps again. -/

/-- The parameters of one call of `process`. `numThreads` is the number of
workers that each of the spawn loops (lines 180-186) starts: the value that
`thread::hardware_concurrency()` gave to the `int` variable `numThreads`, which
is 0 when the hardware concurrency is unknown. -/
structure Config where
  inputImage : List Pixel
  width : Int
  height : Int
  kernelSize : Int
  tileSize : Int
  numThreads : Nat
deriving DecidableEq, Repr

/-- The sizes of a call are positive `int`s for which no `int` operation of
`process` and its workers overflows: the image size `width * height` is an
`int`, and so are `width + tileSize` and `height + tileSize`. -/
structure WellSized (cfg : Config) : Prop where
  widthPos : 0 < cfg.width
  heightPos : 0 < cfg.height
  area : cfg.width * cfg.height ≤ 2147483647
  kernelPos : 0 < cfg.kernelSize
  kernelInt : cfg.kernelSize ≤ 2147483647
  tilePos : 0 < cfg.tileSize
  widthTile : cfg.width + cfg.tileSize ≤ 2147483647
  heightTile : cfg.height + cfg.tileSize ≤ 2147483647

/-- Where the thread running `process` stands. -/
inductive OrchPc where
  /-- About to test `startY < height` (line 188). -/
  | outerTest (startY : Int)
  /-- About to test `startX < width` (line 189). -/
  | innerTest (startY startX : Int)
  /-- About to set `blurDone` (lines 204-208). -/
  | closeBlur
  /-- Joining the blur workers (lines 210-212). -/
  | joinBlur
  /-- About to set `inversionDone` (lines 214-218). -/
  | closeInversion
  /-- Joining the inversion workers (lines 220-222). -/
  | joinInversion
  /-- The call of `process` has returned. -/
  | done
deriving DecidableEq, Repr

/-- Where a worker thread (of either stage) stands. -/
inductive WorkerPc where
  /-- At the top of its loop, in the locked block. -/
  | waiting
  /-- Holding `tile`, about to test `y < tile.endY`. -/
  | rowTest (tile : Tile) (y : Int)
  /-- Holding `tile`, about to test `x < tile.endX`. -/
  | colTest (tile : Tile) (y x : Int)
  /-- Left its loop; the thread function returned. -/
  | exited
deriving DecidableEq, Repr

/-- The shared state and the program counters of all threads. -/
structure Pipeline where
  orch : OrchPc
  blurWorkers : List WorkerPc
  inversionWorkers : List WorkerPc
  blurQueue : StageQueue
  inversionQueue : StageQueue
  blurredImage : Buffer
  outputImage : Buffer
  killed : Bool
deriving DecidableEq, Repr

/-- A thread of the pipeline. -/
inductive Thread where
  | orchestrator
  | blur (i : Nat)
  | inversion (i : Nat)
deriving DecidableEq, Repr

/-- The constructor `vector<Pixel> v(n)` for an `int` argument: a negative `n`
converts to a size above `max_size()` and the constructor throws
`std::length_error`; otherwise `n` value-initialised pixels. -/
def allocPixels (n : Int) : Option (List Pixel) :=
  if n < 0 then none else some (List.replicate n.toNat default)

/-- The state after lines 174-186, for a call that finds the globals in the
state `globals`: the intermediate buffer is allocated (its size is the `int`
product `width * height`), both pools are spawned and every worker is at the
top of its loop; `none` when the allocation throws. -/
def initPipeline (cfg : Config) (globals : Globals) (outputImage : List Pixel) :
    Option Pipeline :=
  match allocPixels (wrapInt (cfg.width * cfg.height)) with
  | none => none
  | some blurredData =>
    some { orch := OrchPc.outerTest 0,
           blurWorkers := List.replicate cfg.numThreads WorkerPc.waiting,
           inversionWorkers := List.replicate cfg.numThreads WorkerPc.waiting,
           blurQueue := globals.blurQueue,
           inversionQueue := globals.inversionQueue,
           blurredImage := { data := blurredData, writes := [] },
           outputImage := { data := outputImage, writes := [] },
           killed := false }

/-- Every thread of a pool has returned, so `join` on each of them returns. -/
def allExited (workers : List WorkerPc) : Bool :=
  workers.all fun pc => decide (pc = WorkerPc.exited)

/-- One step of the thread running `process` (lines 188-223). -/
def stepOrchestrator (cfg : Config) (s : Pipeline) : Option Pipeline :=
  match s.orch with
  | OrchPc.outerTest startY =>
    if startY < cfg.height then some { s with orch := OrchPc.innerTest startY 0 }
    else some { s with orch := OrchPc.closeBlur }
  | OrchPc.innerTest startY startX =>
    if startX < cfg.width then
      some { s with
        blurQueue := s.blurQueue.push (mkTile cfg.width cfg.height cfg.tileSize startX startY),
        orch := OrchPc.innerTest startY (wrapInt (startX + cfg.tileSize)) }
    else some { s with orch := OrchPc.outerTest (wrapInt (startY + cfg.tileSize)) }
  | OrchPc.closeBlur =>
    some { s with blurQueue := s.blurQueue.close, orch := OrchPc.joinBlur }
  | OrchPc.joinBlur =>
    if allExited s.blurWorkers then some { s with orch := OrchPc.closeInversion } else none
  | OrchPc.closeInversion =>
    some { s with inversionQueue := s.inversionQueue.close, orch := OrchPc.joinInversion }
  | OrchPc.joinInversion =>
    if allExited s.inversionWorkers then some { s with orch := OrchPc.done } else none
  | OrchPc.done => none

/-- One step of blur worker `i` (`blurWorker`, lines 122-169). -/
def stepBlur (cfg : Config) (s : Pipeline) (i : Nat) : Option Pipeline :=
  match s.blurWorkers[i]? with
  | none => none
  | some WorkerPc.waiting =>
    match pop s.blurQueue with
    | PopResult.blocked => none
    | PopResult.noMoreWork =>
      some { s with blurWorkers := s.blurWorkers.set i WorkerPc.exited }
    | PopResult.tile t rest =>
      some { s with blurQueue := rest,
                    blurWorkers := s.blurWorkers.set i (WorkerPc.rowTest t t.startY) }
  | some (WorkerPc.rowTest t y) =>
    if y < t.endY then
      some { s with blurWorkers := s.blurWorkers.set i (WorkerPc.colTest t y t.startX) }
    else
      some { s with inversionQueue := s.inversionQueue.push t,
                    blurWorkers := s.blurWorkers.set i WorkerPc.waiting }
  | some (WorkerPc.colTest t y x) =>
    if x < t.endX then
      match blurPixel cfg.inputImage cfg.width cfg.height cfg.kernelSize x y with
      | none => some { s with killed := true }
      | some pixel =>
        some { s with
          blurredImage := s.blurredImage.store (y * cfg.width + x) pixel,
          blurWorkers := s.blurWorkers.set i (WorkerPc.colTest t y (x + 1)) }
    else some { s with blurWorkers := s.blurWorkers.set i (WorkerPc.rowTest t (y + 1)) }
  | some WorkerPc.exited => none

/-- One step of inversion worker `i` (`invertWorker`, lines 91-115). -/
def stepInversion (cfg : Config) (s : Pipeline) (i : Nat) : Option Pipeline :=
  match s.inversionWorkers[i]? with
  | none => none
  | some WorkerPc.waiting =>
    match pop s.inversionQueue with
    | PopResult.blocked => none
    | PopResult.noMoreWork =>
      some { s with inversionWorkers := s.inversionWorkers.set i WorkerPc.exited }
    | PopResult.tile t rest =>
      some { s with inversionQueue := rest,
                    inversionWorkers := s.inversionWorkers.set i (WorkerPc.rowTest t t.startY) }
  | some (WorkerPc.rowTest t y) =>
    if y < t.endY then
      some { s with
        inversionWorkers := s.inversionWorkers.set i (WorkerPc.colTest t y t.startX) }
    else some { s with inversionWorkers := s.inversionWorkers.set i WorkerPc.waiting }
  | some (WorkerPc.colTest t y x) =>
    if x < t.endX then
      some { s with
        outputImage := s.outputImage.store (y * cfg.width + x)
          (invertPixel (load s.blurredImage.data (y * cfg.width + x))),
        inversionWorkers := s.inversionWorkers.set i (WorkerPc.colTest t y (x + 1)) }
    else
      some { s with inversionWorkers := s.inversionWorkers.set i (WorkerPc.rowTest t (y + 1)) }
  | some WorkerPc.exited => none

/-- One step of the given thread; `none` when it cannot step, in particular
when the process has been killed. -/
def step (cfg : Config) (s : Pipeline) (th : Thread) : Option Pipeline :=
  if s.killed then none
  else
    match th with
    | Thread.orchestrator => stepOrchestrator cfg s
    | Thread.blur i => stepBlur cfg s i
    | Thread.inversion i => stepInversion cfg s i

/-- Running a schedule; `none` when it asks a thread to step that cannot. -/
def run (cfg : Config) (s : Pipeline) : List Thread → Option Pipeline
  | [] => some s
  | th :: rest =>
    match step cfg s th with
    | none => none
    | some s1 => run cfg s1 rest

/-- A whole execution of `process`, called with the globals in the state
`globals`: the set-up followed by a schedule. The call has returned in the
final state `s` when `s.orch = OrchPc.done`. -/
def runProcess (cfg : Config) (globals : Globals) (outputImage : List Pixel)
    (schedule : List Thread) : Option Pipeline :=
  match initPipeline cfg globals outputImage with
  | none => none
  | some s0 => run cfg s0 schedule

/-! ### Invariants of the step machine -/

/-- Pixel `(x, y)` is a pixel of the image. -/
def InImage (cfg : Config) (x y : Int) : Prop :=
  0 ≤ x ∧ x < cfg.width ∧ 0 ≤ y ∧ y < cfg.height

/-- The rectangle of the tile lies inside the image. -/
def TileIn (cfg : Config) (t : Tile) : Prop :=
  0 ≤ t.startX ∧ t.endX ≤ cfg.width ∧ 0 ≤ t.startY ∧ t.endY ≤ cfg.height

/-- No division traps at a pixel of the image. -/
def NoTrap (cfg : Config) : Prop :=
  ∀ x y, InImage cfg x y →
    blurPixel cfg.inputImage cfg.width cfg.height cfg.kernelSize x y =
      some (blurValue cfg.inputImage cfg.width cfg.height cfg.kernelSize x y)

/-- The intermediate buffer holds the blurred value of pixel `(x, y)`. -/
def BlurOK (cfg : Config) (blurred : List Pixel) (x y : Int) : Prop :=
  InImage cfg x y →
    load blurred (y * cfg.width + x) =
      blurValue cfg.inputImage cfg.width cfg.height cfg.kernelSize x y

/-- The output buffer holds the inverted blurred value of pixel `(x, y)`. -/
def OutOK (cfg : Config) (output : List Pixel) (x y : Int) : Prop :=
  InImage cfg x y →
    load output (y * cfg.width + x) =
      invertPixel (blurValue cfg.inputImage cfg.width cfg.height cfg.kernelSize x y)

/-- The tiles pushed so far by the enqueue loops cover pixel `(x, y)`. -/
def Covered (cfg : Config) : OrchPc → Int → Int → Prop
  | OrchPc.outerTest startY, _, y => y < startY
  | OrchPc.innerTest startY startX, x, y =>
    y < startY ∨ (y < startY + cfg.tileSize ∧ x < startX)
  | _, _, _ => True

/-- The loop variables of the enqueue loops are in range. -/
def OrchOK (cfg : Config) : OrchPc → Prop
  | OrchPc.outerTest startY => 0 ≤ startY
  | OrchPc.innerTest startY startX => 0 ≤ startY ∧ startY < cfg.height ∧ 0 ≤ startX
  | _ => True

/-- The worker holds a tile whose rectangle contains `(x, y)`. -/
def Holds : WorkerPc → Int → Int → Prop
  | WorkerPc.rowTest t _, x, y => t.contains x y
  | WorkerPc.colTest t _ _, x, y => t.contains x y
  | _, _, _ => False

/-- The worker has already stored pixel `(x, y)` of the tile it holds. -/
def DonePart : WorkerPc → Int → Int → Prop
  | WorkerPc.rowTest t y0, x, y => t.contains x y ∧ y < y0
  | WorkerPc.colTest t y0 x0, x, y => t.contains x y ∧ (y < y0 ∨ (y = y0 ∧ x < x0))
  | _, _, _ => False

/-- The tile a worker holds is inside the image and its loop variables are in
range. -/
def WorkerOK (cfg : Config) : WorkerPc → Prop
  | WorkerPc.rowTest t y0 => TileIn cfg t ∧ t.startY ≤ y0
  | WorkerPc.colTest t y0 x0 => TileIn cfg t ∧ t.startY ≤ y0 ∧ y0 < t.endY ∧ t.startX ≤ x0
  | _ => True

/-- The flag `blurDone` has been set. -/
def afterBlurClose : OrchPc → Bool
  | OrchPc.outerTest _ => false
  | OrchPc.innerTest _ _ => false
  | OrchPc.closeBlur => false
  | _ => true

/-- The blur workers have been joined. -/
def afterBlurJoin : OrchPc → Bool
  | OrchPc.closeInversion => true
  | OrchPc.joinInversion => true
  | OrchPc.done => true
  | _ => false

/-- The flag `inversionDone` has been set. -/
def afterInversionClose : OrchPc → Bool
  | OrchPc.joinInversion => true
  | OrchPc.done => true
  | _ => false

/-- The invariant of an execution that started with fresh globals. -/
structure Inv (cfg : Config) (s : Pipeline) : Prop where
  alive : s.killed = false
  orchOK : OrchOK cfg s.orch
  blurLen : s.blurredImage.data.length = (cfg.width * cfg.height).toNat
  outLen : s.outputImage.data.length = (cfg.width * cfg.height).toNat
  blurCount : s.blurWorkers.length = cfg.numThreads
  invCount : s.inversionWorkers.length = cfg.numThreads
  blurQ : ∀ t ∈ s.blurQueue.pending, TileIn cfg t
  invQ : ∀ t ∈ s.inversionQueue.pending,
    TileIn cfg t ∧ ∀ x y, t.contains x y → BlurOK cfg s.blurredImage.data x y
  blurW : ∀ pc ∈ s.blurWorkers,
    WorkerOK cfg pc ∧ ∀ x y, DonePart pc x y → BlurOK cfg s.blurredImage.data x y
  invW : ∀ pc ∈ s.inversionWorkers,
    WorkerOK cfg pc ∧ (∀ x y, Holds pc x y → BlurOK cfg s.blurredImage.data x y) ∧
      ∀ x y, DonePart pc x y → OutOK cfg s.outputImage.data x y
  stage : ∀ x y, InImage cfg x y → Covered cfg s.orch x y →
    (∃ t ∈ s.blurQueue.pending, t.contains x y) ∨
    (∃ pc ∈ s.blurWorkers, Holds pc x y) ∨
    (∃ t ∈ s.inversionQueue.pending, t.contains x y) ∨
    (∃ pc ∈ s.inversionWorkers, Holds pc x y) ∨
    OutOK cfg s.outputImage.data x y
  blurFlag : s.blurQueue.closed = afterBlurClose s.orch
  invFlag : s.inversionQueue.closed = afterInversionClose s.orch
  blurJoined : afterBlurJoin s.orch = true → ∀ pc ∈ s.blurWorkers, pc = WorkerPc.exited
  invJoined : s.orch = OrchPc.done → ∀ pc ∈ s.inversionWorkers, pc = WorkerPc.exited
  blurExit : WorkerPc.exited ∈ s.blurWorkers →
    s.blurQueue.closed = true ∧ s.blurQueue.pending = []
  invExit : WorkerPc.exited ∈ s.inversionWorkers →
    s.inversionQueue.closed = true ∧ s.inversionQueue.pending = []

/-- A worker that holds no tile. -/
def Idle (pc : WorkerPc) : Prop :=
  pc = WorkerPc.waiting ∨ pc = WorkerPc.exited

/-- The invariant of an execution on an image without pixels that started
with fresh globals: no tile is ever pushed and no pixel is ever stored. -/
structure NoWork (cfg : Config) (outputImage : List Pixel) (s : Pipeline) : Prop where
  alive : s.killed = false
  noRow : ∀ startY, s.orch = OrchPc.outerTest startY → cfg.height ≤ startY ∨ cfg.width ≤ 0
  noTile : ∀ startY startX, s.orch = OrchPc.innerTest startY startX →
    cfg.width ≤ 0 ∧ cfg.width ≤ startX
  blurQ : s.blurQueue.pending = []
  invQ : s.inversionQueue.pending = []
  blurW : ∀ pc ∈ s.blurWorkers, Idle pc
  invW : ∀ pc ∈ s.inversionWorkers, Idle pc
  output : s.outputImage = { data := outputImage, writes := [] }

/-! ### Schedules used in the examples -/

/-- A complete schedule for one worker per pool on a 2 x 1 image with tile
size 1. -/
def scheduleOneWorker : List Thread :=
  [Thread.orchestrator, Thread.orchestrator, Thread.orchestrator, Thread.blur 0,
   Thread.orchestrator, Thread.orchestrator, Thread.blur 0, Thread.orchestrator,
   Thread.blur 0, Thread.blur 0, Thread.blur 0, Thread.inversion 0, Thread.blur 0,
   Thread.blur 0, Thread.inversion 0, Thread.blur 0, Thread.blur 0, Thread.inversion 0,
   Thread.blur 0, Thread.blur 0, Thread.inversion 0, Thread.inversion 0,
   Thread.orchestrator, Thread.inversion 0, Thread.inversion 0, Thread.orchestrator,
   Thread.inversion 0, Thread.inversion 0, Thread.inversion 0, Thread.inversion 0,
   Thread.orchestrator]

/-- A complete schedule for two workers per pool on a 2 x 1 image with tile
size 1, the workers interleaved. -/
def scheduleTwoWorkers : List Thread :=
  [Thread.orchestrator, Thread.orchestrator, Thread.orchestrator, Thread.blur 1,
   Thread.blur 1, Thread.blur 1, Thread.blur 0, Thread.orchestrator, Thread.blur 1,
   Thread.blur 1, Thread.inversion 0, Thread.blur 0, Thread.orchestrator,
   Thread.orchestrator, Thread.blur 1, Thread.inversion 0, Thread.blur 0, Thread.blur 0,
   Thread.blur 0, Thread.inversion 1, Thread.inversion 0, Thread.blur 0,
   Thread.orchestrator, Thread.orchestrator, Thread.inversion 1, Thread.inversion 0,
   Thread.inversion 0, Thread.inversion 0, Thread.inversion 1, Thread.inversion 1,
   Thread.inversion 1, Thread.inversion 1, Thread.orchestrator]

/-- The serial schedule on a one-pixel image with one tile and one worker per
pool: the orchestrator enqueues the tile and closes the blur queue, the blur
worker takes the tile and leaves, the orchestrator closes the inversion queue,
the inversion worker takes the tile and leaves, `process` returns. -/
def scheduleSerial : List Thread :=
  List.replicate 5 Thread.orchestrator ++ List.replicate 6 (Thread.blur 0) ++
  List.replicate 2 Thread.orchestrator ++ List.replicate 6 (Thread.inversion 0) ++
  [Thread.orchestrator]

/-- The schedule of a call that finds both `...Done` flags already set and in
which both workers run before the orchestrator: each worker sees its flag and
an empty queue and leaves at once. -/
def scheduleWorkersFirst : List Thread :=
  [Thread.blur 0, Thread.inversion 0] ++ List.replicate 8 Thread.orchestrator

/-- The globals after a completed call of `process`: both queues empty, both
flags set. -/
def usedGlobals : Globals :=
  { blurQueue := { pending := [], closed := true },
    inversionQueue := { pending := [], closed := true } }

/-! ## Proofs -/

theorem toU8_val (z : Int) : ((toU8 z).val : Int) = z % 256 := by
  have h1 : 0 ≤ z % 256 := Int.emod_nonneg z (by decide)
  simp only [toU8]
  omega

theorem toU8_of_range {z : Int} (h0 : 0 ≤ z) (h1 : z < 256) : ((toU8 z).val : Int) = z := by
  rw [toU8_val]
  omega

theorem wrapInt_of_range {z : Int} (h0 : -2147483648 ≤ z) (h1 : z ≤ 2147483647) :
    wrapInt z = z := by
  unfold wrapInt
  omega

theorem wrapInt_range (z : Int) : -2147483648 ≤ wrapInt z ∧ wrapInt z ≤ 2147483647 := by
  unfold wrapInt
  omega

/-- Reduction modulo `2^32` may be postponed to the end of a sum. -/
theorem wrapInt_add_left (a b : Int) : wrapInt (wrapInt a + b) = wrapInt (a + b) := by
  unfold wrapInt
  omega

/-- The neighbour coordinate `x + k` of a pixel coordinate `x`: after the
`int` addition the bounds test gives what it gives on the exact sum, and
inside the bounds the coordinate is exact. -/
theorem wrapInt_coord {x k w : Int} (hx0 : 0 ≤ x) (hx : x < w) (hw : w ≤ 2147483647)
    (hk0 : -1073741824 ≤ k) (hk1 : k ≤ 1073741824) :
    ((wrapInt (x + k) ≥ 0 ∧ wrapInt (x + k) < w) ↔ (0 ≤ x + k ∧ x + k < w)) ∧
    (0 ≤ x + k → x + k < w → wrapInt (x + k) = x + k) := by
  unfold wrapInt
  omega

/-- Without overflow the tile built by the enqueue loop is the tile of the
specification. -/
theorem mkTile_eq_tileAt {width height tileSize startX startY : Int}
    (hx0 : -2147483648 ≤ startX + tileSize) (hx : startX + tileSize ≤ 2147483647)
    (hy0 : -2147483648 ≤ startY + tileSize) (hy : startY + tileSize ≤ 2147483647) :
    mkTile width height tileSize startX startY = tileAt width height tileSize startX startY := by
  unfold mkTile tileAt
  rw [wrapInt_of_range hx0 hx, wrapInt_of_range hy0 hy]

/-! ### The enqueue loops -/

theorem lt_ceilDiv {a b : Int} (hb : 0 < b) (j : Nat) :
    b * (j : Int) < a ↔ j < ceilDiv a b := by
  unfold ceilDiv
  constructor
  · intro h
    have h1 : ((j : Int) + 1) ≤ (a + b - 1) / b := by
      rw [Int.le_ediv_iff_mul_le hb]
      nlinarith
    omega
  · intro h
    have h0 : (0 : Int) ≤ (a + b - 1) / b ∨ (a + b - 1) / b < 0 := by omega
    rcases h0 with h0 | h0
    · have h1 : ((j : Int) + 1) ≤ (a + b - 1) / b := by omega
      rw [Int.le_ediv_iff_mul_le hb] at h1
      nlinarith
    · omega

theorem enqueueRow_some (width height tileSize startY : Int)
    (hWT : width + tileSize ≤ 2147483647)
    (hy0 : -2147483648 ≤ startY + tileSize) (hy : startY + tileSize ≤ 2147483647) :
    ∀ (n j fuel : Nat) (q : List Tile), j + n = ceilDiv width tileSize → 0 < tileSize → n < fuel →
      enqueueRow fuel width height tileSize startY (tileSize * (j : Int)) q =
        some (q ++ (List.range' j n).map fun (j : Nat) =>
          tileAt width height tileSize (tileSize * (j : Int)) startY) := by
  intro n
  induction n with
  | zero =>
    intro j fuel q hj hT hf
    obtain ⟨f, rfl⟩ : ∃ f, fuel = f + 1 := ⟨fuel - 1, by omega⟩
    have : ¬ tileSize * (j : Int) < width := by
      rw [lt_ceilDiv hT]; omega
    simp [enqueueRow, this]
  | succ n ih =>
    intro j fuel q hj hT hf
    obtain ⟨f, rfl⟩ : ∃ f, fuel = f + 1 := ⟨fuel - 1, by omega⟩
    have hlt : tileSize * (j : Int) < width := by
      rw [lt_ceilDiv hT]; omega
    have hj0 : (0 : Int) ≤ tileSize * (j : Int) := by positivity
    have hstep : tileSize * (j : Int) + tileSize = tileSize * ((j + 1 : Nat) : Int) := by
      push_cast; ring
    have hwrap : wrapInt (tileSize * (j : Int) + tileSize) = tileSize * ((j + 1 : Nat) : Int) := by
      rw [wrapInt_of_range (by omega) (by omega), hstep]
    have htile : mkTile width height tileSize (tileSize * (j : Int)) startY =
        tileAt width height tileSize (tileSize * (j : Int)) startY :=
      mkTile_eq_tileAt (by omega) (by omega) hy0 hy
    simp only [enqueueRow, hlt, if_true]
    rw [hwrap, htile, ih (j + 1) f _ (by omega) hT (by omega)]
    simp [List.range'_succ]

theorem enqueueRows_some (width height tileSize : Int)
    (hWT : width + tileSize ≤ 2147483647) (hHT : height + tileSize ≤ 2147483647) :
    ∀ (n i fuel : Nat) (q : List Tile), i + n = ceilDiv height tileSize → 0 < tileSize →
      n + ceilDiv width tileSize + 1 < fuel →
      enqueueRows fuel width height tileSize (tileSize * (i : Int)) q =
        some (q ++ (List.range' i n).flatMap (gridRow width height tileSize)) := by
  intro n
  induction n with
  | zero =>
    intro i fuel q hi hT hf
    obtain ⟨f, rfl⟩ : ∃ f, fuel = f + 1 := ⟨fuel - 1, by omega⟩
    have : ¬ tileSize * (i : Int) < height := by
      rw [lt_ceilDiv hT]; omega
    simp [enqueueRows, this]
  | succ n ih =>
    intro i fuel q hi hT hf
    obtain ⟨f, rfl⟩ : ∃ f, fuel = f + 1 := ⟨fuel - 1, by omega⟩
    have hlt : tileSize * (i : Int) < height := by
      rw [lt_ceilDiv hT]; omega
    have hi0 : (0 : Int) ≤ tileSize * (i : Int) := by positivity
    have hstep : tileSize * (i : Int) + tileSize = tileSize * ((i + 1 : Nat) : Int) := by
      push_cast; ring
    have hwrap : wrapInt (tileSize * (i : Int) + tileSize) = tileSize * ((i + 1 : Nat) : Int) := by
      rw [wrapInt_of_range (by omega) (by omega), hstep]
    have hrow := enqueueRow_some width height tileSize (tileSize * (i : Int)) hWT
      (by omega) (by omega) (ceilDiv width tileSize) 0 f q (by omega) hT (by omega)
    simp only [Nat.cast_zero, mul_zero] at hrow
    simp only [enqueueRows, hlt, if_true, hrow]
    rw [hwrap, ih (i + 1) f _ (by omega) hT (by omega)]
    simp [List.range'_succ, gridRow, List.range_eq_range']

/-- With enough fuel, and without overflow, the enqueue phase returns the
row-major tile grid. -/
theorem enqueueTiles_some (width height tileSize : Int) (hT : 0 < tileSize)
    (hWT : width + tileSize ≤ 2147483647) (hHT : height + tileSize ≤ 2147483647) (fuel : Nat)
    (hf : ceilDiv height tileSize + ceilDiv width tileSize + 1 < fuel) :
    enqueueTiles fuel width height tileSize = some (gridTiles width height tileSize) := by
  have h := enqueueRows_some width height tileSize hWT hHT (ceilDiv height tileSize) 0 fuel []
    (by omega) hT hf
  simpa [enqueueTiles, gridTiles, List.range_eq_range'] using h

theorem enqueueRow_mono (width height tileSize startY : Int) :
    ∀ (fuel : Nat) (startX : Int) (q r : List Tile),
      enqueueRow fuel width height tileSize startY startX q = some r →
      enqueueRow (fuel + 1) width height tileSize startY startX q = some r := by
  intro fuel
  induction fuel with
  | zero => intro startX q r h; simp [enqueueRow] at h
  | succ f ih =>
    intro startX q r h
    rw [enqueueRow] at h
    rw [enqueueRow]
    split
    · rename_i hlt
      rw [if_pos hlt] at h
      exact ih _ _ _ h
    · rename_i hlt
      rw [if_neg hlt] at h
      exact h

theorem enqueueRows_mono (width height tileSize : Int) :
    ∀ (fuel : Nat) (startY : Int) (q r : List Tile),
      enqueueRows fuel width height tileSize startY q = some r →
      enqueueRows (fuel + 1) width height tileSize startY q = some r := by
  intro fuel
  induction fuel with
  | zero => intro startY q r h; simp [enqueueRows] at h
  | succ f ih =>
    intro startY q r h
    rw [enqueueRows] at h
    rw [enqueueRows]
    by_cases hlt : startY < height
    · rw [if_pos hlt] at h
      rw [if_pos hlt]
      cases hrow : enqueueRow f width height tileSize startY 0 q with
      | none => simp [hrow] at h
      | some q1 =>
        rw [hrow] at h
        rw [enqueueRow_mono _ _ _ _ _ _ _ _ hrow]
        exact ih _ _ _ h
    · rw [if_neg hlt] at h
      rw [if_neg hlt]
      exact h

theorem enqueueTiles_mono (width height tileSize : Int) (fuel extra : Nat) (r : List Tile)
    (h : enqueueTiles fuel width height tileSize = some r) :
    enqueueTiles (fuel + extra) width height tileSize = some r := by
  induction extra with
  | zero => exact h
  | succ e ih => exact enqueueRows_mono _ _ _ _ _ _ _ ih


/-- Whatever fuel lets the enqueue phase return, it returns the tile grid. -/
theorem enqueueTiles_eq_grid (width height tileSize : Int) (hT : 0 < tileSize)
    (hWT : width + tileSize ≤ 2147483647) (hHT : height + tileSize ≤ 2147483647) (fuel : Nat)
    (r : List Tile) (h : enqueueTiles fuel width height tileSize = some r) :
    r = gridTiles width height tileSize := by
  have h1 := enqueueTiles_mono width height tileSize fuel
    (ceilDiv height tileSize + ceilDiv width tileSize + 2) r h
  rw [enqueueTiles_some width height tileSize hT hWT hHT _ (by omega)] at h1
  exact (Option.some.inj h1).symm

/-- The inner enqueue loop only appends to the queue. -/
theorem enqueueRow_extends (width height tileSize startY : Int) :
    ∀ (fuel : Nat) (startX : Int) (q r : List Tile),
      enqueueRow fuel width height tileSize startY startX q = some r → ∃ l, r = q ++ l := by
  intro fuel
  induction fuel with
  | zero => intro startX q r h; simp [enqueueRow] at h
  | succ f ih =>
    intro startX q r h
    rw [enqueueRow] at h
    by_cases hlt : startX < width
    · rw [if_pos hlt] at h
      obtain ⟨l, hl⟩ := ih _ _ _ h
      exact ⟨mkTile width height tileSize startX startY :: l, by rw [hl]; simp⟩
    · rw [if_neg hlt] at h
      exact ⟨[], by rw [← Option.some.inj h]; simp⟩

/-- The outer enqueue loop only appends to the queue. -/
theorem enqueueRows_extends (width height tileSize : Int) :
    ∀ (fuel : Nat) (startY : Int) (q r : List Tile),
      enqueueRows fuel width height tileSize startY q = some r → ∃ l, r = q ++ l := by
  intro fuel
  induction fuel with
  | zero => intro startY q r h; simp [enqueueRows] at h
  | succ f ih =>
    intro startY q r h
    rw [enqueueRows] at h
    by_cases hlt : startY < height
    · rw [if_pos hlt] at h
      cases hrow : enqueueRow f width height tileSize startY 0 q with
      | none => simp [hrow] at h
      | some q1 =>
        rw [hrow] at h
        obtain ⟨l1, hl1⟩ := enqueueRow_extends _ _ _ _ _ _ _ _ hrow
        obtain ⟨l2, hl2⟩ := ih _ _ _ h
        exact ⟨l1 ++ l2, by rw [hl2, hl1]; simp⟩
    · rw [if_neg hlt] at h
      exact ⟨[], by rw [← Option.some.inj h]; simp⟩

/-! ### The tile grid -/

theorem mem_gridRow {width height tileSize : Int} {i : Nat} {t : Tile} :
    t ∈ gridRow width height tileSize i ↔
      ∃ j : Nat, j < ceilDiv width tileSize ∧
        t = tileAt width height tileSize (tileSize * (j : Int)) (tileSize * (i : Int)) := by
  simp only [gridRow, List.mem_map, List.mem_range]
  constructor
  · rintro ⟨j, hj, rfl⟩; exact ⟨j, hj, rfl⟩
  · rintro ⟨j, hj, rfl⟩; exact ⟨j, hj, rfl⟩

theorem mem_gridTiles {width height tileSize : Int} {t : Tile} :
    t ∈ gridTiles width height tileSize ↔
      ∃ i j : Nat, i < ceilDiv height tileSize ∧ j < ceilDiv width tileSize ∧
        t = tileAt width height tileSize (tileSize * (j : Int)) (tileSize * (i : Int)) := by
  simp only [gridTiles, List.mem_flatMap, List.mem_range, mem_gridRow]
  constructor
  · rintro ⟨i, hi, j, hj, rfl⟩; exact ⟨i, j, hi, hj, rfl⟩
  · rintro ⟨i, j, hi, hj, rfl⟩; exact ⟨i, hi, j, hj, rfl⟩

theorem length_gridRow (width height tileSize : Int) (i : Nat) :
    (gridRow width height tileSize i).length = ceilDiv width tileSize := by
  simp [gridRow]

theorem flatMap_range_length {α : Type} (f : Nat → List α) (n : Nat)
    (hf : ∀ i, (f i).length = n) :
    ∀ m, ((List.range m).flatMap f).length = m * n := by
  intro m
  induction m with
  | zero => simp
  | succ m ih =>
    rw [List.range_succ, List.flatMap_append, List.length_append, ih, List.flatMap_singleton, hf]
    ring

theorem flatMap_range_getElem? {α : Type} (f : Nat → List α) (n : Nat)
    (hf : ∀ i, (f i).length = n) :
    ∀ m k, k < m * n → ((List.range m).flatMap f)[k]? = (f (k / n))[k % n]? := by
  intro m
  induction m with
  | zero => intro k hk; simp at hk
  | succ m ih =>
    intro k hk
    have hn : 0 < n := by
      rcases Nat.eq_zero_or_pos n with h | h
      · subst h; simp at hk
      · exact h
    rw [List.range_succ, List.flatMap_append, List.flatMap_singleton]
    have hlen := flatMap_range_length f n hf m
    by_cases hlt : k < m * n
    · rw [List.getElem?_append_left (by omega)]
      exact ih k hlt
    · have hge : m * n ≤ k := by omega
      rw [List.getElem?_append_right (by omega), hlen]
      have hk2 : k < (m + 1) * n := hk
      have hdiv : k / n = m := Nat.div_eq_of_lt_le hge hk2
      have hmod : k % n = k - m * n := by
        have := Nat.div_add_mod k n
        rw [hdiv] at this
        have h2 : n * m = m * n := Nat.mul_comm n m
        omega
      rw [hdiv, hmod]

theorem length_gridTiles (width height tileSize : Int) :
    (gridTiles width height tileSize).length =
      ceilDiv width tileSize * ceilDiv height tileSize := by
  unfold gridTiles
  rw [flatMap_range_length _ _ (length_gridRow width height tileSize)]
  ring

/-- Row-major indexing of the grid. -/
theorem gridTiles_getElem? (width height tileSize : Int) (k : Nat)
    (hk : k < ceilDiv width tileSize * ceilDiv height tileSize) :
    (gridTiles width height tileSize)[k]? =
      some (tileAt width height tileSize
        (tileSize * ((k % ceilDiv width tileSize : Nat) : Int))
        (tileSize * ((k / ceilDiv width tileSize : Nat) : Int))) := by
  unfold gridTiles
  rw [flatMap_range_getElem? _ _ (length_gridRow width height tileSize) _ k
    (by rw [Nat.mul_comm]; exact hk)]
  have hpos : 0 < ceilDiv width tileSize := by
    rcases Nat.eq_zero_or_pos (ceilDiv width tileSize) with h | h
    · rw [h] at hk; simp at hk
    · exact h
  have hm : k % ceilDiv width tileSize < ceilDiv width tileSize := Nat.mod_lt _ hpos
  simp [gridRow, List.getElem?_range hm]

theorem ceilDiv_bounds {a b : Int} (ha : 0 < a) (hb : 0 < b) :
    0 < ceilDiv a b ∧ b * ((ceilDiv a b : Int) - 1) < a ∧ a ≤ b * (ceilDiv a b : Int) := by
  have h0 : 0 < ceilDiv a b := by
    have := (lt_ceilDiv (a := a) hb 0).1 (by simpa using ha)
    exact this
  refine ⟨h0, ?_, ?_⟩
  · have := (lt_ceilDiv (a := a) hb (ceilDiv a b - 1)).2 (by omega)
    have hc : ((ceilDiv a b - 1 : Nat) : Int) = (ceilDiv a b : Int) - 1 := by omega
    rw [hc] at this
    exact this
  · have := (lt_ceilDiv (a := a) hb (ceilDiv a b))
    by_contra hcon
    have := this.1 (by omega)
    omega

/-- Shape of one grid tile. -/
theorem tileAt_shape {width height tileSize : Int} (hT : 0 < tileSize) {i j : Nat}
    (hi : i < ceilDiv height tileSize) (hj : j < ceilDiv width tileSize) :
    let t := tileAt width height tileSize (tileSize * (j : Int)) (tileSize * (i : Int))
    0 ≤ t.startX ∧ t.startX < t.endX ∧ t.endX ≤ width ∧
    0 ≤ t.startY ∧ t.startY < t.endY ∧ t.endY ≤ height ∧
    t.endX - t.startX ≤ tileSize ∧ t.endY - t.startY ≤ tileSize := by
  have hx := (lt_ceilDiv (a := width) hT j).2 hj
  have hy := (lt_ceilDiv (a := height) hT i).2 hi
  have hj0 : (0 : Int) ≤ tileSize * (j : Int) := by positivity
  have hi0 : (0 : Int) ≤ tileSize * (i : Int) := by positivity
  simp only [tileAt]
  refine ⟨hj0, ?_, ?_, hi0, ?_, ?_, ?_, ?_⟩ <;> omega

theorem tileAt_inj_of_pos {width height tileSize : Int} (hT : 0 < tileSize) {i j i2 j2 : Nat}
    (h : tileAt width height tileSize (tileSize * (j : Int)) (tileSize * (i : Int)) =
      tileAt width height tileSize (tileSize * (j2 : Int)) (tileSize * (i2 : Int))) :
    i = i2 ∧ j = j2 := by
  simp only [tileAt, Tile.mk.injEq] at h
  obtain ⟨hx, hy, -, -⟩ := h
  have hne : tileSize ≠ 0 := by omega
  have h1 := mul_left_cancel₀ hne hx
  have h2 := mul_left_cancel₀ hne hy
  constructor <;> omega

theorem gridTiles_nodup (width height tileSize : Int) (hT : 0 < tileSize) :
    (gridTiles width height tileSize).Nodup := by
  unfold gridTiles
  rw [List.nodup_flatMap]
  constructor
  · intro i _
    unfold gridRow
    apply List.Nodup.map_on _ (List.nodup_range _)
    intro j _ j2 _ h
    exact (tileAt_inj_of_pos hT h).2
  · apply (List.pairwise_lt_range _).imp
    intro i i2 hlt
    simp only [Function.onFun]
    intro t h1 h2
    rw [mem_gridRow] at h1 h2
    obtain ⟨j, -, rfl⟩ := h1
    obtain ⟨j2, -, h⟩ := h2
    have := (tileAt_inj_of_pos hT h).1
    omega

/-- A grid tile that holds `(x, y)` is the tile anchored at the multiples of
`tileSize` below `x` and `y`. -/
theorem grid_tile_of_contains {width height tileSize : Int} (hT : 0 < tileSize) {t : Tile}
    (ht : t ∈ gridTiles width height tileSize) {x y : Int} (hc : t.contains x y) :
    t = tileAt width height tileSize (tileSize * (x / tileSize)) (tileSize * (y / tileSize)) := by
  rw [mem_gridTiles] at ht
  obtain ⟨i, j, -, -, rfl⟩ := ht
  simp only [Tile.contains, tileAt] at hc
  obtain ⟨hx1, hx2, hy1, hy2⟩ := hc
  have hxq : x / tileSize = (j : Int) := by
    have h1 : (j : Int) ≤ x / tileSize := by
      rw [Int.le_ediv_iff_mul_le hT]; linarith
    have h2 : x / tileSize < (j : Int) + 1 := by
      rw [Int.ediv_lt_iff_lt_mul hT]
      have : x < tileSize * (j : Int) + tileSize := lt_of_lt_of_le hx2 (min_le_left _ _)
      linarith
    omega
  have hyq : y / tileSize = (i : Int) := by
    have h1 : (i : Int) ≤ y / tileSize := by
      rw [Int.le_ediv_iff_mul_le hT]; linarith
    have h2 : y / tileSize < (i : Int) + 1 := by
      rw [Int.ediv_lt_iff_lt_mul hT]
      have : y < tileSize * (i : Int) + tileSize := lt_of_lt_of_le hy2 (min_le_left _ _)
      linarith
    omega
  rw [hxq, hyq]

/-- Every pixel of the image lies in the grid tile anchored below it. -/
theorem grid_tile_at {width height tileSize : Int} (hT : 0 < tileSize) {x y : Int}
    (hx0 : 0 ≤ x) (hx : x < width) (hy0 : 0 ≤ y) (hy : y < height) :
    tileAt width height tileSize (tileSize * (x / tileSize)) (tileSize * (y / tileSize)) ∈
        gridTiles width height tileSize ∧
      (tileAt width height tileSize (tileSize * (x / tileSize))
        (tileSize * (y / tileSize))).contains x y := by
  have hne : tileSize ≠ 0 := by omega
  have hxq : 0 ≤ x / tileSize := Int.ediv_nonneg hx0 (le_of_lt hT)
  have hyq : 0 ≤ y / tileSize := Int.ediv_nonneg hy0 (le_of_lt hT)
  have hx1 : tileSize * (x / tileSize) ≤ x := Int.mul_ediv_self_le hne
  have hy1 : tileSize * (y / tileSize) ≤ y := Int.mul_ediv_self_le hne
  have hx2 : x < tileSize * (x / tileSize) + tileSize := Int.lt_mul_ediv_self_add hT
  have hy2 : y < tileSize * (y / tileSize) + tileSize := Int.lt_mul_ediv_self_add hT
  constructor
  · rw [mem_gridTiles]
    refine ⟨(y / tileSize).toNat, (x / tileSize).toNat, ?_, ?_, ?_⟩
    · rw [← lt_ceilDiv hT, Int.toNat_of_nonneg hyq]; omega
    · rw [← lt_ceilDiv hT, Int.toNat_of_nonneg hxq]; omega
    · rw [Int.toNat_of_nonneg hyq, Int.toNat_of_nonneg hxq]
  · simp only [Tile.contains, tileAt]
    refine ⟨hx1, ?_, hy1, ?_⟩
    · exact lt_min hx2 hx
    · exact lt_min hy2 hy

/-- A grid tile lies inside the image. -/
theorem grid_tile_inside {width height tileSize : Int} (hT : 0 < tileSize) {t : Tile}
    (ht : t ∈ gridTiles width height tileSize) :
    0 ≤ t.startX ∧ t.startX < t.endX ∧ t.endX ≤ width ∧
    0 ≤ t.startY ∧ t.startY < t.endY ∧ t.endY ≤ height ∧
    t.endX - t.startX ≤ tileSize ∧ t.endY - t.startY ≤ tileSize := by
  rw [mem_gridTiles] at ht
  obtain ⟨i, j, hi, hj, rfl⟩ := ht
  exact tileAt_shape hT hi hj

/-- Exactly one grid tile holds a given pixel of the image. -/
theorem grid_count_one {width height tileSize : Int} (hT : 0 < tileSize) {x y : Int}
    (hx0 : 0 ≤ x) (hx : x < width) (hy0 : 0 ≤ y) (hy : y < height) :
    ((gridTiles width height tileSize).filter fun t => decide (t.contains x y)).length = 1 := by
  set l := (gridTiles width height tileSize).filter fun t => decide (t.contains x y) with hl
  set t0 := tileAt width height tileSize (tileSize * (x / tileSize)) (tileSize * (y / tileSize))
    with ht0
  have hnd : l.Nodup := (gridTiles_nodup width height tileSize hT).filter _
  have hall : ∀ b ∈ l, b = t0 := by
    intro b hb
    rw [hl, List.mem_filter] at hb
    exact grid_tile_of_contains hT hb.1 (of_decide_eq_true hb.2)
  have hmem : t0 ∈ l := by
    rw [hl, List.mem_filter]
    obtain ⟨h1, h2⟩ := @grid_tile_at width height tileSize hT x y hx0 hx hy0 hy
    exact ⟨h1, decide_eq_true h2⟩
  have hrep := List.eq_replicate_of_mem hall
  rw [hrep] at hnd
  rw [List.nodup_replicate] at hnd
  have hpos : 0 < l.length := List.length_pos_of_mem hmem
  omega

/-- The linear index of an in-image pixel is an index of the image. -/
theorem index_in_range {width height x y : Int} (hx0 : 0 ≤ x) (hx : x < width)
    (hy0 : 0 ≤ y) (hy : y < height) : 0 ≤ y * width + x ∧ y * width + x < width * height := by
  constructor
  · have : 0 ≤ y * width := mul_nonneg hy0 (by omega)
    omega
  · have h1 : (y + 1) * width ≤ height * width :=
      mul_le_mul_of_nonneg_right (by omega) (by omega)
    nlinarith


/-! ### Claims about the tile partitioner -/

theorem enqueueRow_step (width height tileSize startY startX : Int) (fuel : Nat)
    (q : List Tile) (h : startX < width) :
    enqueueRow (fuel + 1) width height tileSize startY startX q =
      enqueueRow fuel width height tileSize startY (wrapInt (startX + tileSize))
        (q ++ [mkTile width height tileSize startX startY]) := by
  rw [enqueueRow, if_pos h]

/-- What the enqueue phase returns contains what the first inner loop has
pushed after some of its iterations. -/
theorem enqueueTiles_contains (width height tileSize : Int) (hh : 0 < height) (k : Nat)
    (startX : Int) (pushed : List Tile)
    (hk : ∀ (fuel : Nat) (q : List Tile),
      enqueueRow (fuel + k) width height tileSize 0 0 q =
        enqueueRow fuel width height tileSize 0 startX (q ++ pushed))
    (fuel : Nat) (r : List Tile) (h : enqueueTiles fuel width height tileSize = some r) :
    ∀ t ∈ pushed, t ∈ r := by
  have h1 := enqueueTiles_mono width height tileSize fuel (k + 1) r h
  have h2 : enqueueTiles (fuel + k + 1) width height tileSize = some r := h1
  unfold enqueueTiles at h2
  rw [enqueueRows, if_pos hh] at h2
  cases hrow : enqueueRow (fuel + k) width height tileSize 0 0 [] with
  | none => rw [hrow] at h2; exact absurd h2 (by simp)
  | some q1 =>
    rw [hrow] at h2
    simp only at h2
    rw [hk fuel []] at hrow
    obtain ⟨l1, hl1⟩ := enqueueRow_extends _ _ _ _ _ _ _ _ hrow
    obtain ⟨l2, hl2⟩ := enqueueRows_extends _ _ _ _ _ _ _ h2
    intro t ht
    rw [hl2, hl1]
    simp [ht]

/-- C6 (amended): for positive width, height and tile size with
`width + tileSize ≤ INT_MAX` and `height + tileSize ≤ INT_MAX` (no `int`
addition of the loops overflows) the enqueue loop of `process` terminates
(every sufficiently large fuel returns the same queue), produces exactly
`⌈width/tileSize⌉ * ⌈height/tileSize⌉` tiles in row-major grid order, the
`k`-th being the tile of the specification anchored at column `k mod nx`, row
`k div nx` of the grid, and every tile is anchored at multiples of
`tileSize`, lies inside the image, has positive area and edges of at most
`tileSize`. -/
theorem enqueue_tiles_grid (width height tileSize : Int)
    (hw : 0 < width) (hh : 0 < height) (hT : 0 < tileSize)
    (hWT : width + tileSize ≤ INT_MAX) (hHT : height + tileSize ≤ INT_MAX) :
    ∃ tiles : List Tile,
      (∃ fuel0 : Nat, ∀ fuel, fuel0 ≤ fuel →
        enqueueTiles fuel width height tileSize = some tiles) ∧
      (∀ fuel r, enqueueTiles fuel width height tileSize = some r → r = tiles) ∧
      (tileSize * ((ceilDiv width tileSize : Int) - 1) < width ∧
        width ≤ tileSize * (ceilDiv width tileSize : Int)) ∧
      (tileSize * ((ceilDiv height tileSize : Int) - 1) < height ∧
        height ≤ tileSize * (ceilDiv height tileSize : Int)) ∧
      tiles.length = ceilDiv width tileSize * ceilDiv height tileSize ∧
      (∀ k : Nat, k < ceilDiv width tileSize * ceilDiv height tileSize →
        tiles[k]? = some (tileAt width height tileSize
          (tileSize * ((k % ceilDiv width tileSize : Nat) : Int))
          (tileSize * ((k / ceilDiv width tileSize : Nat) : Int)))) ∧
      (∀ t ∈ tiles,
        tileSize ∣ t.startX ∧ tileSize ∣ t.startY ∧
        0 ≤ t.startX ∧ t.startX < t.endX ∧ t.endX ≤ width ∧
        0 ≤ t.startY ∧ t.startY < t.endY ∧ t.endY ≤ height ∧
        t.endX - t.startX ≤ tileSize ∧ t.endY - t.startY ≤ tileSize) := by
  have hWT2 : width + tileSize ≤ 2147483647 := hWT
  have hHT2 : height + tileSize ≤ 2147483647 := hHT
  refine ⟨gridTiles width height tileSize, ?_, ?_, ?_, ?_, ?_, ?_, ?_⟩
  · exact ⟨ceilDiv height tileSize + ceilDiv width tileSize + 2, fun fuel hf =>
      enqueueTiles_some width height tileSize hT hWT2 hHT2 fuel (by omega)⟩
  · exact fun fuel r h => enqueueTiles_eq_grid width height tileSize hT hWT2 hHT2 fuel r h
  · exact (ceilDiv_bounds hw hT).2
  · exact (ceilDiv_bounds hh hT).2
  · exact length_gridTiles width height tileSize
  · exact fun k hk => gridTiles_getElem? width height tileSize k hk
  · intro t ht
    have hs := grid_tile_inside hT ht
    rw [mem_gridTiles] at ht
    obtain ⟨i, j, -, -, rfl⟩ := ht
    exact ⟨⟨j, rfl⟩, ⟨i, rfl⟩, hs⟩

/-- Witness of C6 on a 5 x 3 image with tile size 2: six tiles. -/
theorem enqueue_tiles_grid_witness :
    (0 : Int) < 5 ∧ (0 : Int) < 3 ∧ (0 : Int) < 2 ∧ (5 : Int) + 2 ≤ INT_MAX ∧
    (3 : Int) + 2 ≤ INT_MAX ∧
    ∃ tiles : List Tile, enqueueTiles 8 5 3 2 = some tiles ∧ tiles.length = 6 := by
  refine ⟨by decide, by decide, by decide, by decide, by decide, ?_⟩
  obtain ⟨tiles, ⟨fuel0, -⟩, huniq, -, -, hlen, -⟩ :=
    enqueue_tiles_grid 5 3 2 (by decide) (by decide) (by decide) (by decide) (by decide)
  have hrun : enqueueTiles 8 5 3 2 = some
      [⟨0, 0, 2, 2⟩, ⟨2, 0, 4, 2⟩, ⟨4, 0, 5, 2⟩, ⟨0, 2, 2, 3⟩, ⟨2, 2, 4, 3⟩, ⟨4, 2, 5, 3⟩] := by
    decide
  have := huniq 8 _ hrun
  subst this
  exact ⟨_, hrun, rfl⟩

/-- Counterexample to C6 as stated (width 2147483647, height 1, tile size
1073741825, all positive): the first three iterations of the inner enqueue
loop push the tiles `(0, 0, 1073741825, 1)`, `(1073741825, 0, -2147483646, 1)`
and `(-2147483646, 0, -1073741821, 1)` and go on with `startX = -1073741821`,
because `1073741825 + 1073741825` overflows to `-2147483646`; these are the
tiles in the blur queue after four steps of the thread that runs `process`.
So whatever the enqueue phase returns contains a tile with `endX < startX`
and a tile with negative `startX` that is no multiple of the tile size, and
more than the `⌈width/tileSize⌉ * ⌈height/tileSize⌉ = 2` tiles of the claim. -/
theorem enqueue_overflow_breaks_grid :
    (runProcess ⟨whiteImage 2147483647, 2147483647, 1, 1, 1073741825, 1⟩ freshGlobals
      (whiteImage 2147483647) (List.replicate 4 Thread.orchestrator)).map
        (fun s => s.blurQueue.pending) =
      some [⟨0, 0, 1073741825, 1⟩, ⟨1073741825, 0, -2147483646, 1⟩,
        ⟨-2147483646, 0, -1073741821, 1⟩] ∧
    (∀ (fuel : Nat) (q : List Tile),
      enqueueRow (fuel + 3) 2147483647 1 1073741825 0 0 q =
        enqueueRow fuel 2147483647 1 1073741825 0 (-1073741821)
          (q ++ [⟨0, 0, 1073741825, 1⟩, ⟨1073741825, 0, -2147483646, 1⟩,
            ⟨-2147483646, 0, -1073741821, 1⟩])) ∧
    (∀ (fuel : Nat) (r : List Tile), enqueueTiles fuel 2147483647 1 1073741825 = some r →
      (⟨1073741825, 0, -2147483646, 1⟩ : Tile) ∈ r ∧
      (⟨-2147483646, 0, -1073741821, 1⟩ : Tile) ∈ r ∧ 3 ≤ r.length) ∧
    ceilDiv 2147483647 1073741825 * ceilDiv 1 1073741825 = 2 := by
  have hk : ∀ (fuel : Nat) (q : List Tile),
      enqueueRow (fuel + 3) 2147483647 1 1073741825 0 0 q =
        enqueueRow fuel 2147483647 1 1073741825 0 (-1073741821)
          (q ++ [⟨0, 0, 1073741825, 1⟩, ⟨1073741825, 0, -2147483646, 1⟩,
            ⟨-2147483646, 0, -1073741821, 1⟩]) := by
    intro fuel q
    rw [enqueueRow_step _ _ _ _ _ _ _ (by decide)]
    have w1 : wrapInt (0 + 1073741825) = 1073741825 := by decide
    have t1 : mkTile 2147483647 1 1073741825 0 0 = ⟨0, 0, 1073741825, 1⟩ := by decide
    rw [w1, t1, enqueueRow_step _ _ _ _ _ _ _ (by decide)]
    have w2 : wrapInt (1073741825 + 1073741825) = -2147483646 := by decide
    have t2 : mkTile 2147483647 1 1073741825 1073741825 0 =
        ⟨1073741825, 0, -2147483646, 1⟩ := by decide
    rw [w2, t2, enqueueRow_step _ _ _ _ _ _ _ (by decide)]
    have w3 : wrapInt (-2147483646 + 1073741825) = -1073741821 := by decide
    have t3 : mkTile 2147483647 1 1073741825 (-2147483646) 0 =
        ⟨-2147483646, 0, -1073741821, 1⟩ := by decide
    rw [w3, t3]
    simp
  refine ⟨by decide, hk, ?_, by decide⟩
  intro fuel r h
  have hmem := enqueueTiles_contains 2147483647 1 1073741825 (by decide) 3 _ _ hk fuel r h
  refine ⟨hmem _ (by simp), hmem _ (by simp), ?_⟩
  have hsub : List.Sublist [(⟨0, 0, 1073741825, 1⟩ : Tile), ⟨1073741825, 0, -2147483646, 1⟩,
      ⟨-2147483646, 0, -1073741821, 1⟩] r := by
    have h1 := enqueueTiles_mono 2147483647 1 1073741825 fuel 4 r h
    have h2 : enqueueTiles (fuel + 3 + 1) 2147483647 1 1073741825 = some r := h1
    unfold enqueueTiles at h2
    rw [enqueueRows, if_pos (by decide)] at h2
    cases hrow : enqueueRow (fuel + 3) 2147483647 1 1073741825 0 0 [] with
    | none => rw [hrow] at h2; exact absurd h2 (by simp)
    | some q1 =>
      rw [hrow] at h2
      simp only at h2
      rw [hk fuel []] at hrow
      obtain ⟨l1, hl1⟩ := enqueueRow_extends _ _ _ _ _ _ _ _ hrow
      obtain ⟨l2, hl2⟩ := enqueueRows_extends _ _ _ _ _ _ _ h2
      rw [hl2, hl1]
      simp only [List.nil_append, List.append_assoc]
      exact List.sublist_append_left _ _
  simpa using hsub.length_le

/-! ### The kernel loops as sums -/

theorem forRange_succ {σ : Type} (lo : Int) (n : Nat) (init : σ) (body : Int → σ → σ) :
    forRange lo (lo + ((n + 1 : Nat) : Int)) init body =
      body (lo + (n : Int)) (forRange lo (lo + (n : Int)) init body) := by
  unfold forRange
  have h1 : (lo + ((n + 1 : Nat) : Int) - lo).toNat = n + 1 := by omega
  have h2 : (lo + (n : Int) - lo).toNat = n := by omega
  rw [h1, h2, List.range_succ, List.foldl_append]
  rfl

theorem forRange_empty {σ : Type} (lo hi : Int) (h : hi ≤ lo) (init : σ) (body : Int → σ → σ) :
    forRange lo hi init body = init := by
  unfold forRange
  have : (hi - lo).toNat = 0 := by omega
  rw [this]
  rfl


/-- A loop whose body adds `f k`, as an `int` addition, to a projection of the
state leaves in it the sum of the `f k`, reduced modulo `2^32`. -/
theorem forRange_wrap {σ : Type} (proj : σ → Int) (f : Int → Int) (body : Int → σ → σ)
    (lo : Int) (n : Nat)
    (h : ∀ (i : Nat), i < n → ∀ (s : σ) (a : Int), proj s = wrapInt a →
      proj (body (lo + (i : Int)) s) = wrapInt (a + f (lo + (i : Int))))
    (init : σ) (a0 : Int) (h0 : proj init = wrapInt a0) :
    proj (forRange lo (lo + (n : Int)) init body) =
      wrapInt (a0 + ∑ i ∈ Finset.range n, f (lo + (i : Int))) := by
  induction n with
  | zero => simpa [forRange_empty] using h0
  | succ n ih =>
    rw [forRange_succ, h n (by omega) _ _ (ih (fun i hi => h i (by omega))),
      Finset.sum_range_succ]
    congr 1
    ring

/-- The contribution of the neighbour at offset `(kx, ky)` to a channel sum:
for a pixel `(x, y)` of the image and a radius `r` of at most `2^30` the
kernel loops leave in each accumulator the exact sum over the in-image
offsets, reduced modulo `2^32`. -/
theorem blurSums_proj (proj : BlurAcc → Int) (v : Pixel → Int)
    (inputImage : List Pixel) (width height x y : Int) (r : Nat)
    (hr : (r : Int) ≤ 1073741824)
    (hx0 : 0 ≤ x) (hx : x < width) (hw : width ≤ 2147483647)
    (hy0 : 0 ≤ y) (hy : y < height) (hh : height ≤ 2147483647)
    (h0 : proj { rSum := 0, gSum := 0, bSum := 0, count := 0 } = 0)
    (hstep : ∀ (acc : BlurAcc) (p : Pixel),
      proj { rSum := wrapInt (acc.rSum + (p.r.val : Int)),
             gSum := wrapInt (acc.gSum + (p.g.val : Int)),
             bSum := wrapInt (acc.bSum + (p.b.val : Int)),
             count := wrapInt (acc.count + 1) } = wrapInt (proj acc + v p)) :
    proj (blurSums inputImage width height (r : Int) x y) =
      wrapInt (∑ i ∈ Finset.range (2 * r + 1), ∑ j ∈ Finset.range (2 * r + 1),
        if 0 ≤ x + (-(r : Int) + (j : Int)) ∧ x + (-(r : Int) + (j : Int)) < width ∧
            0 ≤ y + (-(r : Int) + (i : Int)) ∧ y + (-(r : Int) + (i : Int)) < height then
          v (load inputImage ((y + (-(r : Int) + (i : Int))) * width + (x + (-(r : Int) + (j : Int)))))
        else 0) := by
  unfold blurSums
  have hhi : ((r : Int) + 1) = -(r : Int) + ((2 * r + 1 : Nat) : Int) := by push_cast; ring
  rw [hhi]
  have hw0 : wrapInt 0 = 0 := by decide
  rw [forRange_wrap proj (fun ky => ∑ j ∈ Finset.range (2 * r + 1),
        if 0 ≤ x + (-(r : Int) + (j : Int)) ∧ x + (-(r : Int) + (j : Int)) < width ∧
            0 ≤ y + ky ∧ y + ky < height then
          v (load inputImage ((y + ky) * width + (x + (-(r : Int) + (j : Int)))))
        else 0) _ _ _ ?_ _ 0 (by rw [h0, hw0])]
  · rw [zero_add]
  · intro i hi acc a ha
    apply forRange_wrap proj (fun kx =>
        if 0 ≤ x + kx ∧ x + kx < width ∧ 0 ≤ y + (-(r : Int) + (i : Int)) ∧
            y + (-(r : Int) + (i : Int)) < height then
          v (load inputImage ((y + (-(r : Int) + (i : Int))) * width + (x + kx)))
        else 0) _ _ _ ?_ _ a ha
    intro j hj s b hb
    obtain ⟨cx, ex⟩ := @wrapInt_coord x (-(r : Int) + (j : Int)) width hx0 hx hw
      (by omega) (by omega)
    obtain ⟨cy, ey⟩ := @wrapInt_coord y (-(r : Int) + (i : Int)) height hy0 hy hh
      (by omega) (by omega)
    by_cases hc : 0 ≤ x + (-(r : Int) + (j : Int)) ∧ x + (-(r : Int) + (j : Int)) < width ∧
        0 ≤ y + (-(r : Int) + (i : Int)) ∧ y + (-(r : Int) + (i : Int)) < height
    · have hc2 : wrapInt (x + (-(r : Int) + (j : Int))) ≥ 0 ∧
          wrapInt (x + (-(r : Int) + (j : Int))) < width ∧
          wrapInt (y + (-(r : Int) + (i : Int))) ≥ 0 ∧
          wrapInt (y + (-(r : Int) + (i : Int))) < height :=
        ⟨(cx.2 ⟨hc.1, hc.2.1⟩).1, (cx.2 ⟨hc.1, hc.2.1⟩).2, (cy.2 hc.2.2).1, (cy.2 hc.2.2).2⟩
      simp only [if_pos hc2, if_pos hc]
      rw [ex hc.1 hc.2.1, ey hc.2.2.1 hc.2.2.2, hstep, hb, wrapInt_add_left]
    · have hc2 : ¬ (wrapInt (x + (-(r : Int) + (j : Int))) ≥ 0 ∧
          wrapInt (x + (-(r : Int) + (j : Int))) < width ∧
          wrapInt (y + (-(r : Int) + (i : Int))) ≥ 0 ∧
          wrapInt (y + (-(r : Int) + (i : Int))) < height) := by
        intro h
        exact hc ⟨(cx.1 ⟨h.1, h.2.1⟩).1, (cx.1 ⟨h.1, h.2.1⟩).2, (cy.1 h.2.2).1,
          (cy.1 h.2.2).2⟩
      simp only [if_neg hc2, if_neg hc, add_zero]
      exact hb

/-- The double sum over kernel offsets is the sum over the in-image
neighbours. -/
theorem sum_offsets_eq_neighbours (v : Int → Int → Int) (width height kernelSize x y : Int)
    (r : Nat) (hr : kernelSize / 2 = (r : Int)) :
    (∑ i ∈ Finset.range (2 * r + 1), ∑ j ∈ Finset.range (2 * r + 1),
      if 0 ≤ x + (-(r : Int) + (j : Int)) ∧ x + (-(r : Int) + (j : Int)) < width ∧
          0 ≤ y + (-(r : Int) + (i : Int)) ∧ y + (-(r : Int) + (i : Int)) < height then
        v (x + (-(r : Int) + (j : Int))) (y + (-(r : Int) + (i : Int)))
      else 0) =
    ∑ p ∈ neighbours width height kernelSize x y, v p.1 p.2 := by
  rw [← Finset.sum_product', ← Finset.sum_filter]
  apply Finset.sum_nbij'
    (fun q : Nat × Nat => (x + (-(r : Int) + (q.2 : Int)), y + (-(r : Int) + (q.1 : Int))))
    (fun p : Int × Int => ((p.2 - y + (r : Int)).toNat, (p.1 - x + (r : Int)).toNat))
  · intro q hq
    simp only [Finset.mem_filter, Finset.mem_product, Finset.mem_range] at hq
    simp only [neighbours, Finset.mem_filter, Finset.mem_product, Finset.mem_Ico, hr, abs_le]
    omega
  · intro p hp
    simp only [neighbours, Finset.mem_filter, Finset.mem_product, Finset.mem_Ico, hr, abs_le] at hp
    simp only [Finset.mem_filter, Finset.mem_product, Finset.mem_range]
    omega
  · intro q _
    ext <;> simp
  · intro p hp
    simp only [neighbours, Finset.mem_filter, Finset.mem_product, Finset.mem_Ico, hr, abs_le] at hp
    ext <;> simp <;> omega
  · intro q _
    rfl

theorem halfKernel_eq {kernelSize : Int} (hk : 0 < kernelSize) :
    Int.tdiv kernelSize 2 = kernelSize / 2 ∧ 0 ≤ kernelSize / 2 := by
  constructor
  · exact Int.tdiv_eq_ediv (by omega) (by decide)
  · omega

/-- The kernel loops compute the channel sums and the neighbour count of the
specification, each reduced modulo `2^32`. -/
theorem blurSums_eq (inputImage : List Pixel) (width height kernelSize x y : Int)
    (hk : 0 < kernelSize) (hk1 : kernelSize ≤ 2147483647)
    (hx0 : 0 ≤ x) (hx : x < width) (hw : width ≤ 2147483647)
    (hy0 : 0 ≤ y) (hy : y < height) (hh : height ≤ 2147483647) :
    let acc := blurSums inputImage width height (Int.tdiv kernelSize 2) x y
    acc.rSum = wrapInt (channelSum Pixel.r inputImage width height kernelSize x y) ∧
    acc.gSum = wrapInt (channelSum Pixel.g inputImage width height kernelSize x y) ∧
    acc.bSum = wrapInt (channelSum Pixel.b inputImage width height kernelSize x y) ∧
    acc.count = wrapInt ((neighbours width height kernelSize x y).card : Int) := by
  obtain ⟨h1, h2⟩ := halfKernel_eq hk
  obtain ⟨r, hr⟩ := Int.eq_ofNat_of_zero_le h2
  have hr1 : (r : Int) ≤ 1073741824 := by omega
  rw [h1, hr]
  refine ⟨?_, ?_, ?_, ?_⟩
  · rw [blurSums_proj BlurAcc.rSum (fun p => (p.r.val : Int)) _ _ _ _ _ _ hr1 hx0 hx hw hy0 hy hh
      rfl (fun _ _ => rfl)]
    congr 1
    exact sum_offsets_eq_neighbours
      (fun a b => ((load inputImage (b * width + a)).r.val : Int)) width height kernelSize x y r hr
  · rw [blurSums_proj BlurAcc.gSum (fun p => (p.g.val : Int)) _ _ _ _ _ _ hr1 hx0 hx hw hy0 hy hh
      rfl (fun _ _ => rfl)]
    congr 1
    exact sum_offsets_eq_neighbours
      (fun a b => ((load inputImage (b * width + a)).g.val : Int)) width height kernelSize x y r hr
  · rw [blurSums_proj BlurAcc.bSum (fun p => (p.b.val : Int)) _ _ _ _ _ _ hr1 hx0 hx hw hy0 hy hh
      rfl (fun _ _ => rfl)]
    congr 1
    exact sum_offsets_eq_neighbours
      (fun a b => ((load inputImage (b * width + a)).b.val : Int)) width height kernelSize x y r hr
  · rw [blurSums_proj BlurAcc.count (fun _ => (1 : Int)) _ _ _ _ _ _ hr1 hx0 hx hw hy0 hy hh
      rfl (fun _ _ => rfl)]
    congr 1
    rw [sum_offsets_eq_neighbours (fun _ _ => (1 : Int)) width height kernelSize x y r hr]
    simp

/-- What the blur step stores for a pixel of the image, whatever the sizes:
the quotients of the wrapped sums by the wrapped count, and a trap when the
wrapped count is zero. -/
theorem blurPixel_eq (inputImage : List Pixel) (width height kernelSize x y : Int)
    (hk : 0 < kernelSize) (hk1 : kernelSize ≤ 2147483647)
    (hx0 : 0 ≤ x) (hx : x < width) (hw : width ≤ 2147483647)
    (hy0 : 0 ≤ y) (hy : y < height) (hh : height ≤ 2147483647) :
    blurPixel inputImage width height kernelSize x y =
      if divTraps (wrapInt (channelSum Pixel.r inputImage width height kernelSize x y))
          (wrapInt ((neighbours width height kernelSize x y).card : Int)) ∨
        divTraps (wrapInt (channelSum Pixel.g inputImage width height kernelSize x y))
          (wrapInt ((neighbours width height kernelSize x y).card : Int)) ∨
        divTraps (wrapInt (channelSum Pixel.b inputImage width height kernelSize x y))
          (wrapInt ((neighbours width height kernelSize x y).card : Int))
      then none
      else some
        { r := toU8 (Int.tdiv
            (wrapInt (channelSum Pixel.r inputImage width height kernelSize x y))
            (wrapInt ((neighbours width height kernelSize x y).card : Int))),
          g := toU8 (Int.tdiv
            (wrapInt (channelSum Pixel.g inputImage width height kernelSize x y))
            (wrapInt ((neighbours width height kernelSize x y).card : Int))),
          b := toU8 (Int.tdiv
            (wrapInt (channelSum Pixel.b inputImage width height kernelSize x y))
            (wrapInt ((neighbours width height kernelSize x y).card : Int))) } := by
  obtain ⟨hr, hg, hb, hc⟩ := blurSums_eq inputImage width height kernelSize x y hk hk1
    hx0 hx hw hy0 hy hh
  simp only [blurPixel]
  rw [hr, hg, hb, hc]

theorem self_mem_neighbours {width height kernelSize x y : Int} (hk : 0 < kernelSize)
    (hx0 : 0 ≤ x) (hx : x < width) (hy0 : 0 ≤ y) (hy : y < height) :
    (x, y) ∈ neighbours width height kernelSize x y := by
  have := (halfKernel_eq hk).2
  simp only [neighbours, Finset.mem_filter, Finset.mem_product, Finset.mem_Ico, abs_le]
  omega

theorem neighbours_card_pos {width height kernelSize x y : Int} (hk : 0 < kernelSize)
    (hx0 : 0 ≤ x) (hx : x < width) (hy0 : 0 ≤ y) (hy : y < height) :
    1 ≤ (neighbours width height kernelSize x y).card :=
  Finset.card_pos.2 ⟨_, self_mem_neighbours hk hx0 hx hy0 hy⟩

theorem channelSum_bounds (chan : Pixel → U8) (inputImage : List Pixel)
    (width height kernelSize x y : Int) :
    0 ≤ channelSum chan inputImage width height kernelSize x y ∧
    channelSum chan inputImage width height kernelSize x y ≤
      255 * ((neighbours width height kernelSize x y).card : Int) := by
  unfold channelSum
  constructor
  · apply Finset.sum_nonneg
    intro p _
    exact Int.ofNat_nonneg _
  · have h := Finset.sum_le_card_nsmul (neighbours width height kernelSize x y)
      (fun p => ((chan (load inputImage (p.2 * width + p.1))).val : Int)) 255
      (by
        intro p _
        have := (chan (load inputImage (p.2 * width + p.1))).isLt
        show ((chan (load inputImage (p.2 * width + p.1))).val : Int) ≤ 255
        omega)
    simp only [nsmul_eq_mul] at h
    linarith

/-- A quotient of a channel sum by the neighbour count is an 8-bit value. -/
theorem quotient_bounds {s n : Int} (hs0 : 0 ≤ s) (hs : s ≤ 255 * n) (hn : 1 ≤ n) :
    Int.tdiv s n = s / n ∧ 0 ≤ s / n ∧ s / n ≤ 255 := by
  refine ⟨Int.tdiv_eq_ediv hs0 (by omega), Int.ediv_nonneg hs0 (by omega), ?_⟩
  exact Int.ediv_le_of_le_mul (by omega) hs


/-- The neighbours are pixels of the image: there are at most
`width * height` of them. -/
theorem neighbours_card_le_area {width height kernelSize x y : Int}
    (hw : 0 ≤ width) (hh : 0 ≤ height) :
    ((neighbours width height kernelSize x y).card : Int) ≤ width * height := by
  have hsub : neighbours width height kernelSize x y ⊆
      Finset.Ico 0 width ×ˢ Finset.Ico 0 height := Finset.filter_subset _ _
  have hcard := Finset.card_le_card hsub
  rw [Finset.card_product, Int.card_Ico, Int.card_Ico] at hcard
  have hcast : (((width - 0).toNat * (height - 0).toNat : Nat) : Int) = width * height := by
    push_cast
    rw [Int.toNat_of_nonneg (by omega), Int.toNat_of_nonneg (by omega)]
    ring
  calc ((neighbours width height kernelSize x y).card : Int)
      ≤ (((width - 0).toNat * (height - 0).toNat : Nat) : Int) := by exact_mod_cast hcard
    _ = width * height := hcast

/-- No division traps at a pixel of an image whose size is an `int`. -/
theorem blurPixel_some (inputImage : List Pixel) (width height kernelSize x y : Int)
    (hk : 0 < kernelSize) (hk1 : kernelSize ≤ 2147483647)
    (harea : width * height ≤ 2147483647)
    (hx0 : 0 ≤ x) (hx : x < width) (hy0 : 0 ≤ y) (hy : y < height) :
    blurPixel inputImage width height kernelSize x y =
      some (blurValue inputImage width height kernelSize x y) := by
  have hw : width ≤ 2147483647 := by nlinarith
  have hh : height ≤ 2147483647 := by nlinarith
  have hn1 := neighbours_card_pos hk hx0 hx hy0 hy
  have hn2 := @neighbours_card_le_area width height kernelSize x y (by omega) (by omega)
  have hwrap : wrapInt ((neighbours width height kernelSize x y).card : Int) =
      ((neighbours width height kernelSize x y).card : Int) :=
    wrapInt_of_range (by omega) (by omega)
  have he := blurPixel_eq inputImage width height kernelSize x y hk hk1 hx0 hx hw hy0 hy hh
  simp only [divTraps, hwrap] at he
  rw [if_neg (by omega)] at he
  unfold blurValue
  rw [he]
  rfl


/-! ### The pixel loops of a tile as a list of stores -/

theorem foldl_flatMap_eq {α β σ : Type} (f : σ → β → σ) (g : α → List β) :
    ∀ (l : List α) (s : σ),
      (l.flatMap g).foldl f s = l.foldl (fun s a => (g a).foldl f s) s := by
  intro l
  induction l with
  | nil => intro s; rfl
  | cons a l ih =>
    intro s
    rw [List.flatMap_cons, List.foldl_append, ih]
    rfl


/-- The two nested pixel loops of a worker visit the pixels of the tile in
`tilePixels` order. -/
theorem tileLoops_eq_foldl {σ : Type} (f : Int → Int → σ → σ) (init : σ) (tile : Tile) :
    (forRange tile.startY tile.endY init fun y s =>
      forRange tile.startX tile.endX s fun x s => f x y s) =
    (tilePixels tile).foldl (fun s p => f p.1 p.2 s) init := by
  unfold tilePixels forRange
  rw [foldl_flatMap_eq]
  congr 1
  funext s ky
  rw [List.foldl_map]

/-- A run of blur stores none of which traps. -/
theorem foldl_blurStore_some (inputImage : List Pixel) (width height kernelSize : Int) :
    ∀ (ps : List (Int × Int)) (buf : Buffer),
      (∀ p ∈ ps, blurPixel inputImage width height kernelSize p.1 p.2 =
        some (blurValue inputImage width height kernelSize p.1 p.2)) →
      ps.foldl (fun s p => blurStore inputImage width height kernelSize p.1 p.2 s) (some buf) =
        some (storePixels (blurValue inputImage width height kernelSize) width buf ps) := by
  intro ps
  induction ps with
  | nil => intro buf _; rfl
  | cons p ps ih =>
    intro buf h
    rw [List.foldl_cons]
    have h1 : blurStore inputImage width height kernelSize p.1 p.2 (some buf) =
        some (buf.store (p.2 * width + p.1)
          (blurValue inputImage width height kernelSize p.1 p.2)) := by
      simp only [blurStore, h p (List.mem_cons_self _ _)]
    rw [h1, ih _ (fun q hq => h q (List.mem_cons_of_mem _ hq))]
    rfl

theorem blurTile_eq (inputImage : List Pixel) (buf : Buffer) (width height kernelSize : Int)
    (tile : Tile)
    (hsafe : ∀ p ∈ tilePixels tile, blurPixel inputImage width height kernelSize p.1 p.2 =
      some (blurValue inputImage width height kernelSize p.1 p.2)) :
    blurTile inputImage buf width height kernelSize tile =
      some (storePixels (blurValue inputImage width height kernelSize) width buf
        (tilePixels tile)) := by
  unfold blurTile
  rw [tileLoops_eq_foldl (fun x y out => blurStore inputImage width height kernelSize x y out)
    (some buf) tile]
  exact foldl_blurStore_some inputImage width height kernelSize (tilePixels tile) buf hsafe

theorem mem_tilePixels {tile : Tile} {x y : Int} :
    (x, y) ∈ tilePixels tile ↔ tile.contains x y := by
  simp only [tilePixels, List.mem_flatMap, List.mem_map, List.mem_range, Prod.mk.injEq,
    Tile.contains]
  constructor
  · rintro ⟨ky, hky, kx, hkx, rfl, rfl⟩
    omega
  · rintro ⟨h1, h2, h3, h4⟩
    exact ⟨(y - tile.startY).toNat, by omega, (x - tile.startX).toNat, by omega, by omega,
      by omega⟩

theorem storePixels_length (val : Int → Int → Pixel) (width : Int) :
    ∀ (ps : List (Int × Int)) (buf : Buffer),
      (storePixels val width buf ps).data.length = buf.data.length := by
  intro ps
  induction ps with
  | nil => intro buf; simp [storePixels]
  | cons p ps ih =>
    intro buf
    have := ih (buf.store (p.2 * width + p.1) (val p.1 p.2))
    simp only [storePixels, List.foldl_cons] at this ⊢
    rw [this]
    simp [Buffer.store]

theorem storePixels_append (val : Int → Int → Pixel) (width : Int) (buf : Buffer)
    (ps qs : List (Int × Int)) :
    storePixels val width buf (ps ++ qs) =
      storePixels val width (storePixels val width buf ps) qs := by
  simp [storePixels, List.foldl_append]

/-- Coordinates are recovered from the linear index of an in-row pixel. -/
theorem index_decode {width x y : Int} (hx0 : 0 ≤ x) (hx : x < width) :
    (y * width + x) % width = x ∧ (y * width + x) / width = y := by
  have hw : width ≠ 0 := by omega
  constructor
  · rw [add_comm, Int.add_mul_emod_self, Int.emod_eq_of_lt hx0 hx]
  · rw [add_comm, Int.add_mul_ediv_right _ _ hw, Int.ediv_eq_zero_of_lt hx0 hx, zero_add]

/-- The content of a buffer after a run of stores whose pixels lie in valid
columns and non-negative rows: an index that was stored to holds the value of
its pixel, every other index is unchanged. -/
theorem storePixels_getElem? (val : Int → Int → Pixel) (width : Int) :
    ∀ (ps : List (Int × Int)) (buf : Buffer),
      (∀ p ∈ ps, 0 ≤ p.1 ∧ p.1 < width ∧ 0 ≤ p.2) →
      ∀ i : Nat, (storePixels val width buf ps).data[i]? =
        if (∃ p ∈ ps, p.2 * width + p.1 = (i : Int)) then
          (if i < buf.data.length then
            some (val ((i : Int) % width) ((i : Int) / width)) else none)
        else buf.data[i]? := by
  intro ps
  induction ps with
  | nil => intro buf _ i; simp [storePixels]
  | cons p ps ih =>
    intro buf hps i
    have hp := hps p (List.mem_cons_self _ _)
    have hrest : ∀ q ∈ ps, 0 ≤ q.1 ∧ q.1 < width ∧ 0 ≤ q.2 :=
      fun q hq => hps q (List.mem_cons_of_mem _ hq)
    have hstep : storePixels val width buf (p :: ps) =
        storePixels val width (buf.store (p.2 * width + p.1) (val p.1 p.2)) ps := rfl
    rw [hstep, ih _ hrest i]
    have hlen : (buf.store (p.2 * width + p.1) (val p.1 p.2)).data.length = buf.data.length := by
      simp [Buffer.store]
    rw [hlen]
    have hidx0 : 0 ≤ p.2 * width + p.1 := by
      have : 0 ≤ p.2 * width := mul_nonneg hp.2.2 (by omega)
      omega
    by_cases hin : ∃ q ∈ ps, q.2 * width + q.1 = (i : Int)
    · have hin2 : ∃ q ∈ p :: ps, q.2 * width + q.1 = (i : Int) := by
        obtain ⟨q, hq, hqi⟩ := hin
        exact ⟨q, List.mem_cons_of_mem _ hq, hqi⟩
      rw [if_pos hin, if_pos hin2]
    · rw [if_neg hin]
      by_cases hpi : p.2 * width + p.1 = (i : Int)
      · have hin2 : ∃ q ∈ p :: ps, q.2 * width + q.1 = (i : Int) :=
          ⟨p, List.mem_cons_self _ _, hpi⟩
        rw [if_pos hin2]
        have hdec := @index_decode width p.1 p.2 hp.1 hp.2.1
        rw [hpi] at hdec
        rw [hdec.1, hdec.2]
        have htn : (p.2 * width + p.1).toNat = i := by omega
        simp only [Buffer.store, htn, List.getElem?_set, if_true]
      · have hin2 : ¬ ∃ q ∈ p :: ps, q.2 * width + q.1 = (i : Int) := by
          rintro ⟨q, hq, hqi⟩
          rcases List.mem_cons.1 hq with rfl | hq
          · exact hpi hqi
          · exact hin ⟨q, hq, hqi⟩
        rw [if_neg hin2]
        have htn : (p.2 * width + p.1).toNat ≠ i := by omega
        simp only [Buffer.store, List.getElem?_set, if_neg htn]

/-! ### Claims about the pixel loops of the two stages -/

/-- After the pixel loops of a tile that lies in valid columns and rows, the
buffer holds `val x y` at the index of every pixel of the tile. -/
theorem storePixels_load_tile (val : Int → Int → Pixel) (width height : Int) (buf : Buffer)
    (tile : Tile) (x y : Int)
    (hsize : buf.data.length = (width * height).toNat)
    (htile : 0 ≤ tile.startX ∧ tile.endX ≤ width ∧ 0 ≤ tile.startY ∧ tile.endY ≤ height)
    (hxy : tile.contains x y) :
    load (storePixels val width buf (tilePixels tile)).data (y * width + x) = val x y := by
  have hc := hxy
  simp only [Tile.contains] at hc
  have hx0 : 0 ≤ x := by omega
  have hx : x < width := by omega
  have hy0 : 0 ≤ y := by omega
  have hy : y < height := by omega
  obtain ⟨hi0, hi1⟩ := index_in_range hx0 hx hy0 hy
  have hps : ∀ p ∈ tilePixels tile, 0 ≤ p.1 ∧ p.1 < width ∧ 0 ≤ p.2 := by
    rintro ⟨a, b⟩ hp
    have := mem_tilePixels.1 hp
    simp only [Tile.contains] at this
    refine ⟨?_, ?_, ?_⟩ <;> simp only <;> omega
  have hget := storePixels_getElem? val width (tilePixels tile) buf hps (y * width + x).toNat
  have hcast : (((y * width + x).toNat : Nat) : Int) = y * width + x := Int.toNat_of_nonneg hi0
  rw [hcast] at hget
  have hex : ∃ p ∈ tilePixels tile, p.2 * width + p.1 = y * width + x :=
    ⟨(x, y), mem_tilePixels.2 hxy, rfl⟩
  have hlt : (y * width + x).toNat < buf.data.length := by
    rw [hsize]; omega
  rw [if_pos hex, if_pos hlt, (index_decode hx0 hx).1, (index_decode hx0 hx).2] at hget
  unfold load
  rw [List.getD_eq_getElem?_getD, hget]
  rfl

/-- The value the blur step computes, channel by channel, in terms of the
specification's sums, when the sums fit an `int`. -/
theorem blurPixel_channels (inputImage : List Pixel) (width height kernelSize x y : Int)
    (hk : 0 < kernelSize) (hk1 : kernelSize ≤ 2147483647)
    (hx0 : 0 ≤ x) (hx : x < width) (hw : width ≤ 2147483647)
    (hy0 : 0 ≤ y) (hy : y < height) (hh : height ≤ 2147483647)
    (hsum : 255 * ((neighbours width height kernelSize x y).card : Int) ≤ 2147483647) :
    ∃ p : Pixel, blurPixel inputImage width height kernelSize x y = some p ∧
      (p.r.val : Int) = Int.tdiv (channelSum Pixel.r inputImage width height kernelSize x y)
        ((neighbours width height kernelSize x y).card : Int) ∧
      (p.g.val : Int) = Int.tdiv (channelSum Pixel.g inputImage width height kernelSize x y)
        ((neighbours width height kernelSize x y).card : Int) ∧
      (p.b.val : Int) = Int.tdiv (channelSum Pixel.b inputImage width height kernelSize x y)
        ((neighbours width height kernelSize x y).card : Int) := by
  have hn : (1 : Int) ≤ ((neighbours width height kernelSize x y).card : Int) := by
    have := neighbours_card_pos hk hx0 hx hy0 hy
    omega
  have br := channelSum_bounds Pixel.r inputImage width height kernelSize x y
  have bg := channelSum_bounds Pixel.g inputImage width height kernelSize x y
  have bb := channelSum_bounds Pixel.b inputImage width height kernelSize x y
  have qr := quotient_bounds br.1 br.2 hn
  have qg := quotient_bounds bg.1 bg.2 hn
  have qb := quotient_bounds bb.1 bb.2 hn
  have he := blurPixel_eq inputImage width height kernelSize x y hk hk1 hx0 hx hw hy0 hy hh
  rw [wrapInt_of_range (z := ((neighbours width height kernelSize x y).card : Int))
      (by omega) (by omega),
    wrapInt_of_range (z := channelSum Pixel.r inputImage width height kernelSize x y)
      (by omega) (by omega),
    wrapInt_of_range (z := channelSum Pixel.g inputImage width height kernelSize x y)
      (by omega) (by omega),
    wrapInt_of_range (z := channelSum Pixel.b inputImage width height kernelSize x y)
      (by omega) (by omega)] at he
  simp only [divTraps] at he
  rw [if_neg (by omega)] at he
  refine ⟨_, he, ?_, ?_, ?_⟩
  · exact toU8_of_range (by omega) (by omega)
  · exact toU8_of_range (by omega) (by omega)
  · exact toU8_of_range (by omega) (by omega)

/-- At a corner of the image at most `(r + 1)^2` neighbours are in bounds. -/
theorem neighbours_card_corner {width height kernelSize x y : Int} (hk : 0 < kernelSize)
    (hx : x = 0 ∨ x = width - 1) (hy : y = 0 ∨ y = height - 1) :
    ((neighbours width height kernelSize x y).card : Int) ≤ (kernelSize / 2 + 1) ^ 2 := by
  have hr := (halfKernel_eq hk).2
  set r := kernelSize / 2 with hrdef
  have hsub : neighbours width height kernelSize x y ⊆
      Finset.Icc (if x = 0 then 0 else width - 1 - r) (if x = 0 then r else width - 1) ×ˢ
      Finset.Icc (if y = 0 then 0 else height - 1 - r) (if y = 0 then r else height - 1) := by
    intro p hp
    simp only [neighbours, Finset.mem_filter, Finset.mem_product, Finset.mem_Ico, abs_le,
      ← hrdef] at hp
    simp only [Finset.mem_product, Finset.mem_Icc]
    split_ifs <;> omega
  have hcard := Finset.card_le_card hsub
  rw [Finset.card_product, Int.card_Icc, Int.card_Icc] at hcard
  have h1 : ((if x = 0 then r else width - 1) + 1 - (if x = 0 then 0 else width - 1 - r)).toNat
      = (r + 1).toNat := by
    split_ifs <;> congr 1 <;> omega
  have h2 : ((if y = 0 then r else height - 1) + 1 - (if y = 0 then 0 else height - 1 - r)).toNat
      = (r + 1).toNat := by
    split_ifs <;> congr 1 <;> omega
  rw [h1, h2] at hcard
  have hcast : (((r + 1).toNat * (r + 1).toNat : Nat) : Int) = (r + 1) ^ 2 := by
    push_cast
    rw [Int.toNat_of_nonneg (by omega)]
    ring
  calc ((neighbours width height kernelSize x y).card : Int)
      ≤ (((r + 1).toNat * (r + 1).toNat : Nat) : Int) := by exact_mod_cast hcard
    _ = (r + 1) ^ 2 := hcast

/-- At most `(2r + 1)^2` neighbours exist. -/
theorem neighbours_card_le {width height kernelSize x y : Int} (hk : 0 < kernelSize) :
    ((neighbours width height kernelSize x y).card : Int) ≤ (2 * (kernelSize / 2) + 1) ^ 2 := by
  have hr := (halfKernel_eq hk).2
  set r := kernelSize / 2 with hrdef
  have hsub : neighbours width height kernelSize x y ⊆
      Finset.Icc (x - r) (x + r) ×ˢ Finset.Icc (y - r) (y + r) := by
    intro p hp
    simp only [neighbours, Finset.mem_filter, Finset.mem_product, Finset.mem_Ico, abs_le,
      ← hrdef] at hp
    simp only [Finset.mem_product, Finset.mem_Icc]
    omega
  have hcard := Finset.card_le_card hsub
  rw [Finset.card_product, Int.card_Icc, Int.card_Icc] at hcard
  have h1 : (x + r + 1 - (x - r)).toNat = (2 * r + 1).toNat := by congr 1; omega
  have h2 : (y + r + 1 - (y - r)).toNat = (2 * r + 1).toNat := by congr 1; omega
  rw [h1, h2] at hcard
  have hcast : (((2 * r + 1).toNat * (2 * r + 1).toNat : Nat) : Int) = (2 * r + 1) ^ 2 := by
    push_cast
    rw [Int.toNat_of_nonneg (by omega)]
    ring
  calc ((neighbours width height kernelSize x y).card : Int)
      ≤ (((2 * r + 1).toNat * (2 * r + 1).toNat : Nat) : Int) := by exact_mod_cast hcard
    _ = (2 * r + 1) ^ 2 := hcast


/-- C2 (amended): for an image of positive width and height whose size
`width * height` is an `int`, held in buffers of exactly that many pixels, a
positive `int` kernel size and a pixel `(x, y)` of a tile inside the image at which 255 times the number of in-image
neighbours is at most `INT_MAX` (so that no channel sum overflows), the blur
step completes on the tile without a division by zero and stores at index
`y * width + x`, for each channel, exactly the truncated quotient of the
channel sum over the in-image neighbours within radius `kernelSize / 2` by the
number of those neighbours; that number is at least 1, the quotient lies in
`0..255` (the 8-bit store loses nothing), and at a corner with radius at least
1 fewer than `(2r+1)^2` neighbours are used. -/
theorem blur_stores_clamped_average (inputImage : List Pixel) (outputImage : Buffer)
    (width height kernelSize : Int) (tile : Tile) (x y : Int)
    (hw : 0 < width) (hh : 0 < height) (harea : width * height ≤ INT_MAX)
    (hk : 0 < kernelSize) (hk1 : kernelSize ≤ INT_MAX)
    (hin : inputImage.length = (width * height).toNat)
    (hsize : outputImage.data.length = (width * height).toNat)
    (htile : 0 ≤ tile.startX ∧ tile.endX ≤ width ∧ 0 ≤ tile.startY ∧ tile.endY ≤ height)
    (hxy : tile.contains x y)
    (hsum : 255 * ((neighbours width height kernelSize x y).card : Int) ≤ INT_MAX) :
    ∃ out : Buffer,
      blurTile inputImage outputImage width height kernelSize tile = some out ∧
      1 ≤ (neighbours width height kernelSize x y).card ∧
      ((neighbours width height kernelSize x y).card : Int) ≤ (2 * (kernelSize / 2) + 1) ^ 2 ∧
      ((load out.data (y * width + x)).r.val : Int) =
        Int.tdiv (channelSum Pixel.r inputImage width height kernelSize x y)
          ((neighbours width height kernelSize x y).card : Int) ∧
      ((load out.data (y * width + x)).g.val : Int) =
        Int.tdiv (channelSum Pixel.g inputImage width height kernelSize x y)
          ((neighbours width height kernelSize x y).card : Int) ∧
      ((load out.data (y * width + x)).b.val : Int) =
        Int.tdiv (channelSum Pixel.b inputImage width height kernelSize x y)
          ((neighbours width height kernelSize x y).card : Int) ∧
      (0 ≤ Int.tdiv (channelSum Pixel.r inputImage width height kernelSize x y)
          ((neighbours width height kernelSize x y).card : Int) ∧
        Int.tdiv (channelSum Pixel.r inputImage width height kernelSize x y)
          ((neighbours width height kernelSize x y).card : Int) ≤ 255) ∧
      (0 ≤ Int.tdiv (channelSum Pixel.g inputImage width height kernelSize x y)
          ((neighbours width height kernelSize x y).card : Int) ∧
        Int.tdiv (channelSum Pixel.g inputImage width height kernelSize x y)
          ((neighbours width height kernelSize x y).card : Int) ≤ 255) ∧
      (0 ≤ Int.tdiv (channelSum Pixel.b inputImage width height kernelSize x y)
          ((neighbours width height kernelSize x y).card : Int) ∧
        Int.tdiv (channelSum Pixel.b inputImage width height kernelSize x y)
          ((neighbours width height kernelSize x y).card : Int) ≤ 255) ∧
      (1 ≤ kernelSize / 2 → (x = 0 ∨ x = width - 1) → (y = 0 ∨ y = height - 1) →
        ((neighbours width height kernelSize x y).card : Int) <
          (2 * (kernelSize / 2) + 1) ^ 2) := by
  have harea2 : width * height ≤ 2147483647 := harea
  have hk2 : kernelSize ≤ 2147483647 := hk1
  have hsum2 : 255 * ((neighbours width height kernelSize x y).card : Int) ≤ 2147483647 := hsum
  have hw1 : width ≤ 2147483647 := by nlinarith
  have hh1 : height ≤ 2147483647 := by nlinarith
  have hc := hxy
  simp only [Tile.contains] at hc
  have hx0 : 0 ≤ x := by omega
  have hx : x < width := by omega
  have hy0 : 0 ≤ y := by omega
  have hy : y < height := by omega
  have hsafe : ∀ p ∈ tilePixels tile, blurPixel inputImage width height kernelSize p.1 p.2 =
      some (blurValue inputImage width height kernelSize p.1 p.2) := by
    rintro ⟨a, b⟩ hp
    have hm := mem_tilePixels.1 hp
    simp only [Tile.contains] at hm
    exact blurPixel_some inputImage width height kernelSize a b hk hk2 harea2
      (by omega) (by omega) (by omega) (by omega)
  have hrun := blurTile_eq inputImage outputImage width height kernelSize tile hsafe
  have hstored : load (storePixels (blurValue inputImage width height kernelSize) width
      outputImage (tilePixels tile)).data (y * width + x) =
      blurValue inputImage width height kernelSize x y :=
    storePixels_load_tile _ width height outputImage tile x y hsize htile hxy
  have hn := neighbours_card_pos hk hx0 hx hy0 hy
  have hn1 : (1 : Int) ≤ ((neighbours width height kernelSize x y).card : Int) := by omega
  obtain ⟨p, hp, er, eg, eb⟩ := blurPixel_channels inputImage width height kernelSize x y hk hk2
    hx0 hx hw1 hy0 hy hh1 hsum2
  have hval : blurValue inputImage width height kernelSize x y = p := by
    unfold blurValue
    rw [hp]
    rfl
  rw [hval] at hstored
  have qr := quotient_bounds (channelSum_bounds Pixel.r inputImage width height kernelSize x y).1
    (channelSum_bounds Pixel.r inputImage width height kernelSize x y).2 hn1
  have qg := quotient_bounds (channelSum_bounds Pixel.g inputImage width height kernelSize x y).1
    (channelSum_bounds Pixel.g inputImage width height kernelSize x y).2 hn1
  have qb := quotient_bounds (channelSum_bounds Pixel.b inputImage width height kernelSize x y).1
    (channelSum_bounds Pixel.b inputImage width height kernelSize x y).2 hn1
  refine ⟨_, hrun, hn, neighbours_card_le hk, ?_, ?_, ?_, ?_, ?_, ?_, ?_⟩
  · rw [hstored]; exact er
  · rw [hstored]; exact eg
  · rw [hstored]; exact eb
  · rw [qr.1]; exact qr.2
  · rw [qg.1]; exact qg.2
  · rw [qb.1]; exact qb.2
  · intro hr hxc hyc
    have hcard := @neighbours_card_corner width height kernelSize x y hk hxc hyc
    have : (kernelSize / 2 + 1) ^ 2 < (2 * (kernelSize / 2) + 1) ^ 2 := by nlinarith
    exact lt_of_le_of_lt hcard this

/-- Witness of C2: the corner `(0, 0)` of a 3 x 3 image with kernel size 3
(radius 1) averages its 4 in-image neighbours: `(0 + 10 + 30 + 41) / 4 = 20`. -/
theorem blur_stores_clamped_average_witness :
    (neighbours 3 3 3 0 0).card = 4 ∧
    (∃ out : Buffer, blurTile
      [⟨0, 0, 0⟩, ⟨10, 0, 0⟩, ⟨20, 0, 0⟩, ⟨30, 0, 0⟩, ⟨41, 0, 0⟩, ⟨50, 0, 0⟩,
       ⟨60, 0, 0⟩, ⟨70, 0, 0⟩, ⟨80, 0, 0⟩]
      ⟨List.replicate 9 default, []⟩ 3 3 3 ⟨0, 0, 3, 3⟩ = some out ∧
      load out.data 0 = ⟨20, 0, 0⟩) ∧
    (((neighbours 3 3 3 0 0).card : Int) < (2 * (3 / 2) + 1) ^ 2) := by
  obtain ⟨out, hout, h⟩ := blur_stores_clamped_average
    [⟨0, 0, 0⟩, ⟨10, 0, 0⟩, ⟨20, 0, 0⟩, ⟨30, 0, 0⟩, ⟨41, 0, 0⟩, ⟨50, 0, 0⟩,
     ⟨60, 0, 0⟩, ⟨70, 0, 0⟩, ⟨80, 0, 0⟩]
    ⟨List.replicate 9 default, []⟩ 3 3 3 ⟨0, 0, 3, 3⟩ 0 0
    (by decide) (by decide) (by decide) (by decide) (by decide) (by decide) (by decide)
    (by decide) (by decide) (by decide)
  have hval : (blurTile
      [⟨0, 0, 0⟩, ⟨10, 0, 0⟩, ⟨20, 0, 0⟩, ⟨30, 0, 0⟩, ⟨41, 0, 0⟩, ⟨50, 0, 0⟩,
       ⟨60, 0, 0⟩, ⟨70, 0, 0⟩, ⟨80, 0, 0⟩]
      ⟨List.replicate 9 default, []⟩ 3 3 3 ⟨0, 0, 3, 3⟩).map (fun b => load b.data 0) =
      some ⟨20, 0, 0⟩ := by decide
  rw [hout] at hval
  refine ⟨by decide, ⟨out, hout, Option.some.inj hval⟩, ?_⟩
  exact h.2.2.2.2.2.2.2.2 (by decide) (by decide) (by decide)

/-! ### A channel sum that overflows -/

theorem load_whiteImage (n : Nat) (i : Int) (h0 : 0 ≤ i) (h1 : i < (n : Int)) :
    load (whiteImage n) i = ⟨255, 255, 255⟩ := by
  unfold load whiteImage
  have hlt : i.toNat < n := by omega
  rw [List.getD_eq_getElem?_getD, List.getElem?_replicate, if_pos hlt]
  rfl

/-- With a radius that reaches across the whole image, every pixel is a
neighbour of the pixel `(0, 0)`. -/
theorem neighbours_all {width height kernelSize : Int} (hw : width - 1 ≤ kernelSize / 2)
    (hh : height - 1 ≤ kernelSize / 2) :
    neighbours width height kernelSize 0 0 = Finset.Ico 0 width ×ˢ Finset.Ico 0 height := by
  unfold neighbours
  apply Finset.filter_true_of_mem
  intro p hp
  simp only [Finset.mem_product, Finset.mem_Ico] at hp
  simp only [sub_zero, abs_le]
  omega

theorem neighbours_all_card {width height kernelSize : Int} (hw0 : 0 ≤ width) (hh0 : 0 ≤ height)
    (hw : width - 1 ≤ kernelSize / 2) (hh : height - 1 ≤ kernelSize / 2) :
    ((neighbours width height kernelSize 0 0).card : Int) = width * height := by
  rw [neighbours_all hw hh, Finset.card_product, Int.card_Ico, Int.card_Ico]
  push_cast
  rw [Int.toNat_of_nonneg (by omega), Int.toNat_of_nonneg (by omega)]
  ring

/-- On a white image every channel sum is 255 times the neighbour count. -/
theorem channelSum_white (chan : Pixel → U8) (hchan : ((chan ⟨255, 255, 255⟩).val : Int) = 255)
    (n : Nat) (width height kernelSize x y : Int) (hn : width * height = (n : Int)) :
    channelSum chan (whiteImage n) width height kernelSize x y =
      255 * ((neighbours width height kernelSize x y).card : Int) := by
  unfold channelSum
  rw [Finset.sum_congr rfl (g := fun _ => (255 : Int))]
  · rw [Finset.sum_const, nsmul_eq_mul]
    ring
  · intro p hp
    simp only [neighbours, Finset.mem_filter, Finset.mem_product, Finset.mem_Ico] at hp
    obtain ⟨hi0, hi1⟩ := index_in_range hp.1.1.1 hp.1.1.2 hp.1.2.1 hp.1.2.2
    rw [load_whiteImage n _ hi0 (by omega), hchan]

/-- Counterexample to C2 as stated: on the 2903 x 2903 image of pixels
`(255, 255, 255)` with kernel size 5807 (radius 2903) all 8427409 pixels are
neighbours of the pixel `(0, 0)`. Each channel sum is 2148989295, above
`INT_MAX`, so the `int` accumulator holds `-2145978001`, and the blur step
stores `-2145978001 / 8427409 = -254` converted to 8 bits, that is 2, where
the quotient of the claim is 255. -/
theorem blur_sum_overflows :
    (0 : Int) < 2903 ∧ (0 : Int) < 5807 ∧
    ((neighbours 2903 2903 5807 0 0).card : Int) = 8427409 ∧
    channelSum Pixel.r (whiteImage 8427409) 2903 2903 5807 0 0 = 2148989295 ∧
    Int.tdiv (channelSum Pixel.r (whiteImage 8427409) 2903 2903 5807 0 0)
      ((neighbours 2903 2903 5807 0 0).card : Int) = 255 ∧
    blurPixel (whiteImage 8427409) 2903 2903 5807 0 0 = some ⟨2, 2, 2⟩ ∧
    (∀ outputImage : Buffer, 0 < outputImage.data.length →
      ∃ out : Buffer,
        blurTile (whiteImage 8427409) outputImage 2903 2903 5807 ⟨0, 0, 1, 1⟩ = some out ∧
        load out.data (0 * 2903 + 0) = ⟨2, 2, 2⟩) := by
  have hcard : ((neighbours 2903 2903 5807 0 0).card : Int) = 8427409 := by
    rw [neighbours_all_card (by decide) (by decide) (by decide) (by decide)]
    decide
  have hsum : ∀ (chan : Pixel → U8), ((chan ⟨255, 255, 255⟩).val : Int) = 255 →
      channelSum chan (whiteImage 8427409) 2903 2903 5807 0 0 = 2148989295 := by
    intro chan hchan
    rw [channelSum_white chan hchan 8427409 2903 2903 5807 0 0 (by decide), hcard]
    decide
  have hpix : blurPixel (whiteImage 8427409) 2903 2903 5807 0 0 = some ⟨2, 2, 2⟩ := by
    rw [blurPixel_eq (whiteImage 8427409) 2903 2903 5807 0 0 (by decide) (by decide)
      (by decide) (by decide) (by decide) (by decide) (by decide) (by decide),
      hsum Pixel.r rfl, hsum Pixel.g rfl, hsum Pixel.b rfl, hcard]
    decide
  refine ⟨by decide, by decide, hcard, hsum Pixel.r rfl, ?_, hpix, ?_⟩
  · rw [hsum Pixel.r rfl, hcard]
    decide
  · intro outputImage hlen
    have htp : tilePixels ⟨0, 0, 1, 1⟩ = [(0, 0)] := by decide
    have hval : blurValue (whiteImage 8427409) 2903 2903 5807 0 0 = ⟨2, 2, 2⟩ := by
      unfold blurValue
      rw [hpix]
      rfl
    have hrun := blurTile_eq (whiteImage 8427409) outputImage 2903 2903 5807 ⟨0, 0, 1, 1⟩
      (by
        intro p hp
        rw [htp, List.mem_singleton] at hp
        subst hp
        rw [hpix, hval])
    refine ⟨_, hrun, ?_⟩
    rw [htp]
    simp only [storePixels, List.foldl_cons, List.foldl_nil, hval]
    unfold load Buffer.store
    rw [List.getD_eq_getElem?_getD, List.getElem?_set]
    simp [hlen]

/-! ### The whole grid as one run of stores -/

theorem foldl_tiles_storePixels (val : Int → Int → Pixel) (width : Int) (tiles : List Tile)
    (buf : Buffer) :
    tiles.foldl (fun b t => storePixels val width b (tilePixels t)) buf =
      storePixels val width buf (tiles.flatMap tilePixels) := by
  unfold storePixels
  rw [foldl_flatMap_eq]

theorem tilePixels_nodup (tile : Tile) : (tilePixels tile).Nodup := by
  unfold tilePixels
  rw [List.nodup_flatMap]
  constructor
  · intro ky _
    apply List.Nodup.map_on _ (List.nodup_range _)
    intro a _ b _ h
    simp only [Prod.mk.injEq] at h
    omega
  · apply (List.pairwise_lt_range _).imp
    intro a b hlt
    simp only [Function.onFun]
    intro p h1 h2
    simp only [List.mem_map, List.mem_range] at h1 h2
    obtain ⟨i, -, rfl⟩ := h1
    obtain ⟨j, -, h⟩ := h2
    simp only [Prod.mk.injEq] at h
    omega

theorem mem_gridPixels {width height tileSize : Int} (hT : 0 < tileSize) {p : Int × Int} :
    p ∈ (gridTiles width height tileSize).flatMap tilePixels ↔
      0 ≤ p.1 ∧ p.1 < width ∧ 0 ≤ p.2 ∧ p.2 < height := by
  obtain ⟨x, y⟩ := p
  simp only [List.mem_flatMap]
  constructor
  · rintro ⟨t, ht, hp⟩
    have hc := mem_tilePixels.1 hp
    have hs := grid_tile_inside hT ht
    simp only [Tile.contains] at hc
    omega
  · rintro ⟨hx0, hx, hy0, hy⟩
    obtain ⟨h1, h2⟩ := @grid_tile_at width height tileSize hT x y hx0 hx hy0 hy
    exact ⟨_, h1, mem_tilePixels.2 h2⟩

theorem gridPixels_nodup (width height tileSize : Int) (hT : 0 < tileSize) :
    ((gridTiles width height tileSize).flatMap tilePixels).Nodup := by
  rw [List.nodup_flatMap]
  constructor
  · intro t _
    exact tilePixels_nodup t
  · apply (gridTiles_nodup width height tileSize hT).pairwise_of_forall_ne
    intro t ht t2 ht2 hne
    simp only [Function.onFun]
    rintro ⟨x, y⟩ h1 h2
    have e1 := grid_tile_of_contains hT ht (mem_tilePixels.1 h1)
    have e2 := grid_tile_of_contains hT ht2 (mem_tilePixels.1 h2)
    exact hne (e1.trans e2.symm)

/-- The indices stored to while all grid tiles are processed are the indices
of the image, each exactly once. -/
theorem grid_indices_perm (width height tileSize : Int) (hw : 0 < width) (hT : 0 < tileSize) :
    (((gridTiles width height tileSize).flatMap tilePixels).map
        fun p => p.2 * width + p.1).Perm
      ((List.range (width * height).toNat).map fun (i : Nat) => (i : Int)) := by
  have hnd1 : (((gridTiles width height tileSize).flatMap tilePixels).map
      fun p => p.2 * width + p.1).Nodup := by
    apply List.Nodup.map_on _ (gridPixels_nodup width height tileSize hT)
    rintro ⟨x, y⟩ hp ⟨x2, y2⟩ hq h
    have h1 := (mem_gridPixels hT).1 hp
    have h2 := (mem_gridPixels hT).1 hq
    simp only at h h1 h2
    have d1 := @index_decode width x y h1.1 h1.2.1
    have d2 := @index_decode width x2 y2 h2.1 h2.2.1
    rw [h] at d1
    rw [Prod.mk.injEq]
    exact ⟨d1.1.symm.trans d2.1, d1.2.symm.trans d2.2⟩
  have hnd2 : ((List.range (width * height).toNat).map fun (i : Nat) => (i : Int)).Nodup := by
    apply List.Nodup.map_on _ (List.nodup_range _)
    intro a _ b _ h
    exact_mod_cast h
  rw [List.perm_ext_iff_of_nodup hnd1 hnd2]
  intro i
  simp only [List.mem_map, List.mem_range]
  constructor
  · rintro ⟨⟨x, y⟩, hp, rfl⟩
    have h1 := (mem_gridPixels hT).1 hp
    simp only at h1
    obtain ⟨hi0, hi1⟩ := index_in_range h1.1 h1.2.1 h1.2.2.1 h1.2.2.2
    refine ⟨(y * width + x).toNat, by omega, ?_⟩
    show (((y * width + x).toNat : Nat) : Int) = y * width + x
    omega
  · rintro ⟨k, hk, rfl⟩
    have hk2 : (k : Int) < width * height := by omega
    have hx0 : 0 ≤ (k : Int) % width := Int.emod_nonneg _ (by omega)
    have hx : (k : Int) % width < width := Int.emod_lt_of_pos _ hw
    have hy0 : 0 ≤ (k : Int) / width := Int.ediv_nonneg (by omega) (by omega)
    have hy : (k : Int) / width < height := by
      rw [Int.ediv_lt_iff_lt_mul hw]; linarith
    refine ⟨((k : Int) % width, (k : Int) / width), (mem_gridPixels hT).2 ⟨hx0, hx, hy0, hy⟩, ?_⟩
    simp only
    have := Int.ediv_add_emod (k : Int) width
    linarith


/-- C1 (amended): for positive width, height and tile size with
`width + tileSize ≤ INT_MAX` and `height + tileSize ≤ INT_MAX` (no `int`
addition of the enqueue loops overflows) the tiles enqueued by `process`
partition the image: every pixel `(x, y)` of the image (linear index
`y * width + x`) lies in the half-open rectangle of exactly one enqueued tile,
every pixel of every tile is a pixel of the image, so its linear index is an
index of the image, and the linear indices of the pixels of all tiles are the
indices `0 .. width*height-1`, each exactly once. -/
theorem tiles_partition_image (width height tileSize : Int)
    (hw : 0 < width) (hh : 0 < height) (hT : 0 < tileSize)
    (hWT : width + tileSize ≤ INT_MAX) (hHT : height + tileSize ≤ INT_MAX) :
    ∃ tiles : List Tile,
      (∃ fuel0 : Nat, ∀ fuel, fuel0 ≤ fuel →
        enqueueTiles fuel width height tileSize = some tiles) ∧
      (∀ x y : Int, 0 ≤ x → x < width → 0 ≤ y → y < height →
        (tiles.filter fun t => decide (t.contains x y)).length = 1) ∧
      (∀ t ∈ tiles, ∀ x y : Int, t.contains x y →
        0 ≤ x ∧ x < width ∧ 0 ≤ y ∧ y < height ∧
        0 ≤ y * width + x ∧ y * width + x < width * height) ∧
      (∀ (t : Tile) (x y : Int), (x, y) ∈ tilePixels t ↔ t.contains x y) ∧
      ((tiles.flatMap tilePixels).map fun p => p.2 * width + p.1).Perm
        ((List.range (width * height).toNat).map fun (i : Nat) => (i : Int)) := by
  refine ⟨gridTiles width height tileSize, ?_, ?_, ?_, fun t x y => mem_tilePixels,
    grid_indices_perm width height tileSize hw hT⟩
  · exact ⟨ceilDiv height tileSize + ceilDiv width tileSize + 2, fun fuel hf =>
      enqueueTiles_some width height tileSize hT hWT hHT fuel (by omega)⟩
  · exact fun x y hx0 hx hy0 hy => grid_count_one hT hx0 hx hy0 hy
  · intro t ht x y hc
    have hs := grid_tile_inside hT ht
    simp only [Tile.contains] at hc
    have hx0 : 0 ≤ x := by omega
    have hx : x < width := by omega
    have hy0 : 0 ≤ y := by omega
    have hy : y < height := by omega
    exact ⟨hx0, hx, hy0, hy, index_in_range hx0 hx hy0 hy⟩

/-- Witness of C1 on a 3 x 2 image with tile size 2. -/
theorem tiles_partition_image_witness :
    (0 : Int) < 3 ∧ (0 : Int) < 2 ∧ (3 : Int) + 2 ≤ INT_MAX ∧ (2 : Int) + 2 ≤ INT_MAX ∧
    ∃ tiles : List Tile, enqueueTiles 6 3 2 2 = some tiles ∧
      (tiles.filter fun t => decide (t.contains 2 1)).length = 1 := by
  refine ⟨by decide, by decide, by decide, by decide, ?_⟩
  obtain ⟨tiles, ⟨fuel0, hfuel⟩, hone, -, -, -⟩ :=
    tiles_partition_image 3 2 2 (by decide) (by decide) (by decide) (by decide) (by decide)
  have hrun : enqueueTiles 6 3 2 2 = some [⟨0, 0, 2, 2⟩, ⟨2, 0, 3, 2⟩] := by decide
  have h1 := hfuel (fuel0 + 6) (by omega)
  have h2 := enqueueTiles_mono 3 2 2 6 fuel0 _ hrun
  rw [Nat.add_comm] at h2
  rw [h1] at h2
  have := Option.some.inj h2
  subst this
  exact ⟨_, hrun, hone 2 1 (by decide) (by decide) (by decide) (by decide)⟩

/-- Counterexample to C1 as stated (width 2000000000, height 1, tile size
1500000000, all positive): the first three iterations of the inner enqueue
loop push the tiles `(0, 0, 1500000000, 1)`, `(1500000000, 0, -1294967296, 1)`
and `(-1294967296, 0, 205032704, 1)`, because `1500000000 + 1500000000`
overflows to `-1294967296`; these are the tiles in the blur queue after four
steps of the thread that runs `process`. So whatever the enqueue phase returns
holds the pixel `(0, 0)` in two tiles and the pixel `(-1, 0)`, which is
outside the image, in a tile. -/
theorem tiles_overflow_breaks_partition :
    (runProcess ⟨whiteImage 2000000000, 2000000000, 1, 1, 1500000000, 1⟩ freshGlobals
      (whiteImage 2000000000) (List.replicate 4 Thread.orchestrator)).map
        (fun s => s.blurQueue.pending) =
      some [⟨0, 0, 1500000000, 1⟩, ⟨1500000000, 0, -1294967296, 1⟩,
        ⟨-1294967296, 0, 205032704, 1⟩] ∧
    (∀ (fuel : Nat) (q : List Tile),
      enqueueRow (fuel + 3) 2000000000 1 1500000000 0 0 q =
        enqueueRow fuel 2000000000 1 1500000000 0 205032704
          (q ++ [⟨0, 0, 1500000000, 1⟩, ⟨1500000000, 0, -1294967296, 1⟩,
            ⟨-1294967296, 0, 205032704, 1⟩])) ∧
    (∀ (fuel : Nat) (r : List Tile), enqueueTiles fuel 2000000000 1 1500000000 = some r →
      (⟨0, 0, 1500000000, 1⟩ : Tile) ∈ r ∧ (⟨-1294967296, 0, 205032704, 1⟩ : Tile) ∈ r) ∧
    (⟨0, 0, 1500000000, 1⟩ : Tile).contains 0 0 ∧
    (⟨-1294967296, 0, 205032704, 1⟩ : Tile).contains 0 0 ∧
    (⟨-1294967296, 0, 205032704, 1⟩ : Tile).contains (-1) 0 := by
  have hk : ∀ (fuel : Nat) (q : List Tile),
      enqueueRow (fuel + 3) 2000000000 1 1500000000 0 0 q =
        enqueueRow fuel 2000000000 1 1500000000 0 205032704
          (q ++ [⟨0, 0, 1500000000, 1⟩, ⟨1500000000, 0, -1294967296, 1⟩,
            ⟨-1294967296, 0, 205032704, 1⟩]) := by
    intro fuel q
    rw [enqueueRow_step _ _ _ _ _ _ _ (by decide)]
    have w1 : wrapInt (0 + 1500000000) = 1500000000 := by decide
    have t1 : mkTile 2000000000 1 1500000000 0 0 = ⟨0, 0, 1500000000, 1⟩ := by decide
    rw [w1, t1, enqueueRow_step _ _ _ _ _ _ _ (by decide)]
    have w2 : wrapInt (1500000000 + 1500000000) = -1294967296 := by decide
    have t2 : mkTile 2000000000 1 1500000000 1500000000 0 =
        ⟨1500000000, 0, -1294967296, 1⟩ := by decide
    rw [w2, t2, enqueueRow_step _ _ _ _ _ _ _ (by decide)]
    have w3 : wrapInt (-1294967296 + 1500000000) = 205032704 := by decide
    have t3 : mkTile 2000000000 1 1500000000 (-1294967296) 0 =
        ⟨-1294967296, 0, 205032704, 1⟩ := by decide
    rw [w3, t3]
    simp
  refine ⟨by decide, hk, ?_, by decide, by decide, by decide⟩
  intro fuel r h
  have hmem := enqueueTiles_contains 2000000000 1 1500000000 (by decide) 3 _ _ hk fuel r h
  exact ⟨hmem _ (by simp), hmem _ (by simp)⟩

/-- The buffer after the pixels of all grid tiles were stored to a buffer of
the image size. -/
theorem storePixels_grid_data (val : Int → Int → Pixel) (width height tileSize : Int)
    (hw : 0 < width) (hT : 0 < tileSize) (buf : Buffer)
    (hsize : buf.data.length = (width * height).toNat) :
    (storePixels val width buf ((gridTiles width height tileSize).flatMap tilePixels)).data =
      (List.range (width * height).toNat).map fun (i : Nat) =>
        val ((i : Int) % width) ((i : Int) / width) := by
  apply List.ext_getElem?
  intro i
  have hps : ∀ p ∈ (gridTiles width height tileSize).flatMap tilePixels,
      0 ≤ p.1 ∧ p.1 < width ∧ 0 ≤ p.2 := by
    intro p hp
    have := (mem_gridPixels hT).1 hp
    omega
  rw [storePixels_getElem? val width _ buf hps i]
  by_cases hi : i < (width * height).toNat
  · have hmem : (i : Int) ∈ ((List.range (width * height).toNat).map fun (i : Nat) => (i : Int)) :=
      List.mem_map.2 ⟨i, List.mem_range.2 hi, rfl⟩
    rw [← (grid_indices_perm width height tileSize hw hT).mem_iff, List.mem_map] at hmem
    have hex : ∃ p ∈ (gridTiles width height tileSize).flatMap tilePixels,
        p.2 * width + p.1 = (i : Int) := by
      obtain ⟨p, hp, hpi⟩ := hmem
      exact ⟨p, hp, hpi⟩
    rw [if_pos hex, if_pos (by omega)]
    simp [List.getElem?_range hi]
  · have hnex : ¬ ∃ p ∈ (gridTiles width height tileSize).flatMap tilePixels,
        p.2 * width + p.1 = (i : Int) := by
      rintro ⟨p, hp, hpi⟩
      have hmem : (i : Int) ∈ (((gridTiles width height tileSize).flatMap tilePixels).map
          fun p => p.2 * width + p.1) := List.mem_map.2 ⟨p, hp, hpi⟩
      rw [(grid_indices_perm width height tileSize hw hT).mem_iff, List.mem_map] at hmem
      obtain ⟨k, hk, hki⟩ := hmem
      have := List.mem_range.1 hk
      omega
    rw [if_neg hnex, List.getElem?_eq_none (by omega), List.getElem?_eq_none (by simp; omega)]


theorem load_range_map (f : Nat → Pixel) (n : Nat) (i : Int) (h0 : 0 ≤ i) (h1 : i < (n : Int)) :
    load ((List.range n).map f) i = f i.toNat := by
  unfold load
  have : i.toNat < n := by omega
  rw [List.getD_eq_getElem?_getD, List.getElem?_map, List.getElem?_range this]
  rfl


/-! ### The blur of the whole image -/

theorem allSome_map_some (f : Nat → Option Pixel) (g : Nat → Pixel) :
    ∀ (l : List Nat), (∀ i ∈ l, f i = some (g i)) → allSome (l.map f) = some (l.map g) := by
  intro l
  induction l with
  | nil => intro _; rfl
  | cons a l ih =>
    intro h
    simp only [List.map_cons, h a (List.mem_cons_self _ _), allSome,
      ih (fun i hi => h i (List.mem_cons_of_mem _ hi))]

/-- The pixel of the image with linear index `i`. -/
theorem index_pixel {width height : Int} (hw : 0 < width) {i : Nat}
    (hi : i < (width * height).toNat) :
    (0 ≤ (i : Int) % width ∧ (i : Int) % width < width ∧ 0 ≤ (i : Int) / width ∧
      (i : Int) / width < height) ∧
    (i : Int) / width * width + (i : Int) % width = (i : Int) := by
  have hk2 : (i : Int) < width * height := by omega
  have hx0 : 0 ≤ (i : Int) % width := Int.emod_nonneg _ (by omega)
  have hx : (i : Int) % width < width := Int.emod_lt_of_pos _ hw
  have hy0 : 0 ≤ (i : Int) / width := Int.ediv_nonneg (by omega) (by omega)
  have hy : (i : Int) / width < height := by
    rw [Int.ediv_lt_iff_lt_mul hw]; linarith
  have hidx : (i : Int) / width * width + (i : Int) % width = (i : Int) := by
    have := Int.ediv_add_emod (i : Int) width
    linarith
  exact ⟨⟨hx0, hx, hy0, hy⟩, hidx⟩

/-- When no division traps at a pixel of the image, the blur of the whole
image is the list of the blurred pixels. -/
theorem blurImage_eq (inputImage : List Pixel) (width height kernelSize : Int) (hw : 0 < width)
    (hsafe : ∀ x y, 0 ≤ x → x < width → 0 ≤ y → y < height →
      blurPixel inputImage width height kernelSize x y =
        some (blurValue inputImage width height kernelSize x y)) :
    blurImage inputImage width height kernelSize =
      some ((List.range (width * height).toNat).map fun (i : Nat) =>
        blurValue inputImage width height kernelSize ((i : Int) % width) ((i : Int) / width)) := by
  unfold blurImage
  apply allSome_map_some
  intro i hi
  obtain ⟨⟨hx0, hx, hy0, hy⟩, -⟩ := @index_pixel width height hw _ (List.mem_range.1 hi)
  exact hsafe _ _ hx0 hx hy0 hy

/-! ### Kernel size 1 -/

theorem pop_cons (t : Tile) (rest : List Tile) (closed : Bool) :
    pop { pending := t :: rest, closed := closed } =
      PopResult.tile t { pending := rest, closed := closed } := by
  cases closed <;> simp [pop]

theorem pop_nil (closed : Bool) :
    pop { pending := [], closed := closed } =
      if closed then PopResult.noMoreWork else PopResult.blocked := by
  cases closed <;> simp [pop]

theorem workerLoop_closed (ts : List Tile) :
    ∀ fuel, ts.length < fuel →
      workerLoop fuel { pending := ts, closed := true } = some ts := by
  induction ts with
  | nil =>
    intro fuel hf
    obtain ⟨f, rfl⟩ : ∃ f, fuel = f + 1 := ⟨fuel - 1, by omega⟩
    simp [workerLoop, pop_nil]
  | cons t ts ih =>
    intro fuel hf
    obtain ⟨f, rfl⟩ : ∃ f, fuel = f + 1 := ⟨fuel - 1, by simp at hf; omega⟩
    simp only [workerLoop, pop_cons]
    rw [ih f (by simp at hf; omega)]
    rfl

theorem workerLoop_open (ts : List Tile) :
    ∀ fuel, workerLoop fuel { pending := ts, closed := false } = none := by
  induction ts with
  | nil =>
    intro fuel
    cases fuel with
    | zero => rfl
    | succ f => simp [workerLoop, pop_nil]
  | cons t ts ih =>
    intro fuel
    cases fuel with
    | zero => rfl
    | succ f =>
      simp only [workerLoop, pop_cons]
      rw [ih f]
      rfl

/-- C9: the pop at the top of a worker loop, on a queue modelled as (pending
list, closed flag). A non-empty queue yields its oldest tile and keeps the
rest, closed or not; the result is "no more work" exactly when the queue is
closed and empty; the worker gets past the wait exactly when the queue is
non-empty or closed; a pop never changes the closed flag; and a worker left
alone on a closed queue takes every pending tile, in order, before it exits,
while on an open queue it never exits. -/
theorem pop_contract :
    (∀ (t : Tile) (rest : List Tile) (closed : Bool),
      pop { pending := t :: rest, closed := closed } =
        PopResult.tile t { pending := rest, closed := closed }) ∧
    (∀ q : StageQueue, pop q = PopResult.noMoreWork ↔ (q.closed = true ∧ q.pending = [])) ∧
    (∀ q : StageQueue, pop q ≠ PopResult.blocked ↔ (q.pending ≠ [] ∨ q.closed = true)) ∧
    (∀ (q : StageQueue) (t : Tile) (rest : StageQueue), pop q = PopResult.tile t rest →
      rest.closed = q.closed ∧ q.pending = t :: rest.pending) ∧
    (∀ (ts : List Tile) (fuel : Nat), ts.length < fuel →
      workerLoop fuel { pending := ts, closed := true } = some ts) ∧
    (∀ (ts : List Tile) (fuel : Nat),
      workerLoop fuel { pending := ts, closed := false } = none) := by
  refine ⟨pop_cons, ?_, ?_, ?_, workerLoop_closed, workerLoop_open⟩
  · rintro ⟨pending, closed⟩
    cases pending with
    | nil => cases closed <;> simp [pop_nil]
    | cons t rest => simp [pop_cons]
  · rintro ⟨pending, closed⟩
    cases pending with
    | nil => cases closed <;> simp [pop_nil]
    | cons t rest => simp [pop_cons]
  · rintro ⟨pending, closed⟩ t rest h
    cases pending with
    | nil => cases closed <;> simp [pop_nil] at h
    | cons t2 rest2 =>
      rw [pop_cons] at h
      injection h with h1 h2
      subst h1 h2
      exact ⟨rfl, rfl⟩

/-! ### The step machine: stores and worker lists -/

theorem load_store_same (buf : Buffer) (i : Int) (p : Pixel) (h0 : 0 ≤ i)
    (h1 : i.toNat < buf.data.length) : load (buf.store i p).data i = p := by
  unfold load Buffer.store
  rw [List.getD_eq_getElem?_getD, List.getElem?_set]
  simp [h1]

theorem load_store_other (buf : Buffer) (i j : Int) (p : Pixel) (hi : 0 ≤ i) (hj : 0 ≤ j)
    (hne : i ≠ j) : load (buf.store i p).data j = load buf.data j := by
  unfold load Buffer.store
  have : i.toNat ≠ j.toNat := by omega
  rw [List.getD_eq_getElem?_getD, List.getD_eq_getElem?_getD, List.getElem?_set, if_neg this]

theorem store_length (buf : Buffer) (i : Int) (p : Pixel) :
    (buf.store i p).data.length = buf.data.length := by
  simp [Buffer.store]

/-- Storing the right value at an in-image pixel keeps every pixel that was
right, and makes the stored pixel right. -/
theorem load_after_store (width height : Int) (buf : Buffer) (val : Int → Int → Pixel)
    (hlen : buf.data.length = (width * height).toNat)
    {x0 y0 : Int} (hx0 : 0 ≤ x0) (hx1 : x0 < width) (hy0 : 0 ≤ y0) (hy1 : y0 < height)
    {x y : Int} (hx : 0 ≤ x) (hxw : x < width) (hy : 0 ≤ y)
    (hold : (x, y) ≠ (x0, y0) → load buf.data (y * width + x) = val x y) :
    load (buf.store (y0 * width + x0) (val x0 y0)).data (y * width + x) = val x y := by
  obtain ⟨hi0, hi1⟩ := index_in_range hx0 hx1 hy0 hy1
  have hj0 : 0 ≤ y * width + x := by
    have : 0 ≤ y * width := mul_nonneg hy (by omega)
    omega
  by_cases heq : y0 * width + x0 = y * width + x
  · have d1 := @index_decode width x0 y0 hx0 hx1
    have d2 := @index_decode width x y hx hxw
    rw [heq] at d1
    have ex : x = x0 := d2.1.symm.trans d1.1
    have ey : y = y0 := d2.2.symm.trans d1.2
    subst ex ey
    exact load_store_same _ _ _ hi0 (by rw [hlen]; omega)
  · rw [load_store_other _ _ _ _ hi0 hj0 heq]
    apply hold
    intro h
    rw [Prod.mk.injEq] at h
    exact heq (by rw [h.1, h.2])

theorem mem_set_cases {α : Type} {l : List α} {i : Nat} {a b : α} (h : b ∈ l.set i a) :
    b = a ∨ b ∈ l := by
  rcases List.mem_or_eq_of_mem_set h with h | h
  · exact Or.inr h
  · exact Or.inl h

theorem mem_set_of_mem {α : Type} {l : List α} {i : Nat} {old a b : α}
    (hi : l[i]? = some old) (h : b ∈ l) : b = old ∨ b ∈ l.set i a := by
  obtain ⟨j, hj, rfl⟩ := List.getElem_of_mem h
  by_cases hij : i = j
  · subst hij
    left
    rw [List.getElem?_eq_getElem hj] at hi
    exact Option.some.inj hi
  · right
    have hj2 : j < (l.set i a).length := by simpa using hj
    have : (l.set i a)[j] = l[j] := by
      rw [List.getElem_set]
      simp [hij]
    rw [← this]
    exact List.getElem_mem hj2

theorem new_mem_set {α : Type} {l : List α} {i : Nat} {old a : α} (hi : l[i]? = some old) :
    a ∈ l.set i a := by
  have hlt : i < l.length := by
    by_contra hcon
    rw [List.getElem?_eq_none (by omega)] at hi
    exact absurd hi (by simp)
  exact List.mem_set l i hlt a

theorem old_mem {α : Type} {l : List α} {i : Nat} {old : α} (hi : l[i]? = some old) :
    old ∈ l := List.getElem?_mem hi

theorem allExited_iff (workers : List WorkerPc) :
    allExited workers = true ↔ ∀ pc ∈ workers, pc = WorkerPc.exited := by
  simp [allExited]

/-! ### The invariant is kept by every step -/

theorem inv_stepOrchestrator (cfg : Config) (hT : 0 < cfg.tileSize)
    (hWT : cfg.width + cfg.tileSize ≤ 2147483647) (hHT : cfg.height + cfg.tileSize ≤ 2147483647)
    (s s1 : Pipeline) (hinv : Inv cfg s) (hstep : stepOrchestrator cfg s = some s1) :
    Inv cfg s1 := by
  have hok := hinv.orchOK
  have hst := hinv.stage
  have hbf := hinv.blurFlag
  have hif := hinv.invFlag
  have hbj := hinv.blurJoined
  unfold stepOrchestrator at hstep
  cases hpc : s.orch with
  | outerTest startY =>
    rw [hpc] at hstep hok hst hbf hif
    simp only [OrchOK, Covered, afterBlurClose, afterInversionClose] at hok hst hbf hif
    simp only at hstep
    by_cases hlt : startY < cfg.height
    · rw [if_pos hlt] at hstep
      obtain rfl := Option.some.inj hstep
      exact { hinv with
        orchOK := ⟨hok, hlt, le_refl _⟩
        stage := by
          intro x y him hcov
          simp only [Covered] at hcov
          have hx := him.1
          exact hst x y him (by omega)
        blurFlag := hbf
        invFlag := hif
        blurJoined := by intro h; simp [afterBlurJoin] at h
        invJoined := by intro h; simp at h }
    · rw [if_neg hlt] at hstep
      obtain rfl := Option.some.inj hstep
      exact { hinv with
        orchOK := trivial
        stage := by
          intro x y him _
          have hy := him.2.2.2
          exact hst x y him (by omega)
        blurFlag := hbf
        invFlag := hif
        blurJoined := by intro h; simp [afterBlurJoin] at h
        invJoined := by intro h; simp at h }
  | innerTest startY startX =>
    rw [hpc] at hstep hok hst hbf hif
    simp only [OrchOK, Covered, afterBlurClose, afterInversionClose] at hok hst hbf hif
    simp only at hstep
    by_cases hlt : startX < cfg.width
    · rw [if_pos hlt, wrapInt_of_range (z := startX + cfg.tileSize) (by omega) (by omega),
        mkTile_eq_tileAt (by omega) (by omega) (by omega) (by omega)] at hstep
      obtain rfl := Option.some.inj hstep
      exact { hinv with
        orchOK := ⟨hok.1, hok.2.1, by omega⟩
        blurQ := by
          intro t ht
          simp only [StageQueue.push, List.mem_append, List.mem_singleton] at ht
          rcases ht with ht | rfl
          · exact hinv.blurQ t ht
          · simp only [TileIn, tileAt]
            refine ⟨hok.2.2, min_le_right _ _, hok.1, min_le_right _ _⟩
        stage := by
          intro x y him hcov
          simp only [Covered] at hcov
          by_cases hold : y < startY ∨ (y < startY + cfg.tileSize ∧ x < startX)
          · rcases hst x y him hold with h | h
            · obtain ⟨t, ht, hc⟩ := h
              left
              exact ⟨t, by simp only [StageQueue.push, List.mem_append]; exact Or.inl ht, hc⟩
            · exact Or.inr h
          · left
            refine ⟨tileAt cfg.width cfg.height cfg.tileSize startX startY, ?_, ?_⟩
            · simp [StageQueue.push]
            · simp only [Tile.contains, tileAt]
              obtain ⟨h1, h2, h3, h4⟩ := him
              refine ⟨by omega, lt_min (by omega) h2, by omega, lt_min (by omega) h4⟩
        blurFlag := hbf
        invFlag := hif
        blurJoined := by intro h; simp [afterBlurJoin] at h
        invJoined := by intro h; simp at h
        blurExit := by
          intro h
          have := (hinv.blurExit h).1
          rw [hbf] at this
          exact absurd this (by simp) }
    · rw [if_neg hlt, wrapInt_of_range (z := startY + cfg.tileSize) (by omega) (by omega)]
        at hstep
      obtain rfl := Option.some.inj hstep
      exact { hinv with
        orchOK := by simp only [OrchOK]; omega
        stage := by
          intro x y him hcov
          simp only [Covered] at hcov
          have hx := him.2.1
          exact hst x y him (by omega)
        blurFlag := hbf
        invFlag := hif
        blurJoined := by intro h; simp [afterBlurJoin] at h
        invJoined := by intro h; simp at h }
  | closeBlur =>
    rw [hpc] at hstep hok hst hbf hif
    simp only [OrchOK, Covered, afterBlurClose, afterInversionClose] at hok hst hbf hif
    simp only at hstep
    obtain rfl := Option.some.inj hstep
    exact { hinv with
      orchOK := trivial
      stage := fun x y him _ => hst x y him trivial
      blurFlag := rfl
      invFlag := hif
      blurJoined := by intro h; simp [afterBlurJoin] at h
      invJoined := by intro h; simp at h
      blurExit := by
        intro h
        have := (hinv.blurExit h).1
        rw [hbf] at this
        exact absurd this (by simp) }
  | joinBlur =>
    rw [hpc] at hstep hok hst hbf hif
    simp only [OrchOK, Covered, afterBlurClose, afterInversionClose] at hok hst hbf hif
    simp only at hstep
    by_cases hall : allExited s.blurWorkers = true
    · rw [if_pos hall] at hstep
      obtain rfl := Option.some.inj hstep
      exact { hinv with
        orchOK := trivial
        stage := fun x y him _ => hst x y him trivial
        blurFlag := hbf
        invFlag := hif
        blurJoined := fun _ => (allExited_iff _).1 hall
        invJoined := by intro h; simp at h }
    · rw [if_neg hall] at hstep
      exact absurd hstep (by simp)
  | closeInversion =>
    rw [hpc] at hstep hok hst hbf hif hbj
    simp only [OrchOK, Covered, afterBlurClose, afterInversionClose] at hok hst hbf hif
    simp only at hstep
    obtain rfl := Option.some.inj hstep
    exact { hinv with
      orchOK := trivial
      stage := fun x y him _ => hst x y him trivial
      blurFlag := hbf
      invFlag := rfl
      blurJoined := fun _ => hbj rfl
      invJoined := by intro h; simp at h
      invExit := by
        intro h
        have := (hinv.invExit h).1
        rw [hif] at this
        exact absurd this (by simp) }
  | joinInversion =>
    rw [hpc] at hstep hok hst hbf hif hbj
    simp only [OrchOK, Covered, afterBlurClose, afterInversionClose] at hok hst hbf hif
    simp only at hstep
    by_cases hall : allExited s.inversionWorkers = true
    · rw [if_pos hall] at hstep
      obtain rfl := Option.some.inj hstep
      exact { hinv with
        orchOK := trivial
        stage := fun x y him _ => hst x y him trivial
        blurFlag := hbf
        invFlag := hif
        blurJoined := fun _ => hbj rfl
        invJoined := fun _ => (allExited_iff _).1 hall }
    · rw [if_neg hall] at hstep
      exact absurd hstep (by simp)
  | done =>
    rw [hpc] at hstep
    exact absurd hstep (by simp)


theorem pop_eq_noMoreWork {q : StageQueue} (h : pop q = PopResult.noMoreWork) :
    q.closed = true ∧ q.pending = [] := by
  obtain ⟨pending, closed⟩ := q
  cases pending with
  | nil => cases closed <;> simp [pop_nil] at h ⊢
  | cons t rest => simp [pop_cons] at h

theorem pop_eq_tile {q : StageQueue} {t : Tile} {rest : StageQueue}
    (h : pop q = PopResult.tile t rest) :
    rest.closed = q.closed ∧ q.pending = t :: rest.pending := by
  obtain ⟨pending, closed⟩ := q
  cases pending with
  | nil => cases closed <;> simp [pop_nil] at h
  | cons t2 rest2 =>
    rw [pop_cons] at h
    injection h with h1 h2
    subst h1 h2
    exact ⟨rfl, rfl⟩

theorem afterBlurJoin_of_afterInversionClose {pc : OrchPc}
    (h : afterInversionClose pc = true) : afterBlurJoin pc = true := by
  cases pc <;> simp [afterInversionClose, afterBlurJoin] at h ⊢

theorem inImage_of_contains {cfg : Config} {t : Tile} (ht : TileIn cfg t) {x y : Int}
    (hc : t.contains x y) : InImage cfg x y := by
  simp only [TileIn, Tile.contains, InImage] at *
  omega

/-- A blur store at an in-image pixel keeps `BlurOK` and establishes it at the
stored pixel. -/
theorem blurOK_store (cfg : Config) (buf : Buffer)
    (hlen : buf.data.length = (cfg.width * cfg.height).toNat)
    {x0 y0 : Int} (h0 : InImage cfg x0 y0) {x y : Int}
    (hold : (x, y) ≠ (x0, y0) → BlurOK cfg buf.data x y) :
    BlurOK cfg (buf.store (y0 * cfg.width + x0)
      (blurValue cfg.inputImage cfg.width cfg.height cfg.kernelSize x0 y0)).data x y := by
  intro him
  exact load_after_store cfg.width cfg.height buf
    (blurValue cfg.inputImage cfg.width cfg.height cfg.kernelSize) hlen
    h0.1 h0.2.1 h0.2.2.1 h0.2.2.2 him.1 him.2.1 him.2.2.1 (fun hne => hold hne him)

/-- An inversion store at an in-image pixel whose blurred value is in place
keeps `OutOK` and establishes it at the stored pixel. -/
theorem outOK_store (cfg : Config) (buf : Buffer) (blurred : List Pixel)
    (hlen : buf.data.length = (cfg.width * cfg.height).toNat)
    {x0 y0 : Int} (h0 : InImage cfg x0 y0) (hb : BlurOK cfg blurred x0 y0) {x y : Int}
    (hold : (x, y) ≠ (x0, y0) → OutOK cfg buf.data x y) :
    OutOK cfg (buf.store (y0 * cfg.width + x0)
      (invertPixel (load blurred (y0 * cfg.width + x0)))).data x y := by
  intro him
  rw [hb h0]
  exact load_after_store cfg.width cfg.height buf
    (fun a b => invertPixel (blurValue cfg.inputImage cfg.width cfg.height cfg.kernelSize a b))
    hlen h0.1 h0.2.1 h0.2.2.1 h0.2.2.2 him.1 him.2.1 him.2.2.1 (fun hne => hold hne him)

theorem holds_set {l : List WorkerPc} {i : Nat} {old : WorkerPc} (new : WorkerPc)
    (hi : l[i]? = some old) {x y : Int} (h : ∃ pc ∈ l, Holds pc x y) :
    Holds old x y ∨ ∃ pc ∈ l.set i new, Holds pc x y := by
  obtain ⟨pc, hpc, hh⟩ := h
  rcases mem_set_of_mem (a := new) hi hpc with rfl | hmem
  · exact Or.inl hh
  · exact Or.inr ⟨pc, hmem, hh⟩


theorem inv_stepBlur (cfg : Config) (hsafe : NoTrap cfg) (s s1 : Pipeline) (i : Nat)
    (hinv : Inv cfg s) (hstep : stepBlur cfg s i = some s1) : Inv cfg s1 := by
  unfold stepBlur at hstep
  cases hw : s.blurWorkers[i]? with
  | none => rw [hw] at hstep; exact absurd hstep (by simp)
  | some pc =>
    rw [hw] at hstep
    have hold_mem : pc ∈ s.blurWorkers := old_mem hw
    have hnotjoined : pc ≠ WorkerPc.exited → afterBlurJoin s.orch = false := by
      intro hne
      cases hj : afterBlurJoin s.orch with
      | false => rfl
      | true => exact absurd (hinv.blurJoined hj pc hold_mem) hne
    have hnotclosedinv : pc ≠ WorkerPc.exited → afterInversionClose s.orch = false := by
      intro hne
      cases hj : afterInversionClose s.orch with
      | false => rfl
      | true =>
        have := hnotjoined hne
        rw [afterBlurJoin_of_afterInversionClose hj] at this
        exact absurd this (by simp)
    cases pc with
    | waiting =>
      simp only at hstep
      cases hpop : pop s.blurQueue with
      | blocked => rw [hpop] at hstep; exact absurd hstep (by simp)
      | noMoreWork =>
        rw [hpop] at hstep
        obtain rfl := Option.some.inj hstep
        exact { hinv with
          blurCount := by simp only [List.length_set]; exact hinv.blurCount
          blurW := by
            intro pc hpc
            rcases mem_set_cases hpc with rfl | hpc
            · exact ⟨trivial, fun x y h => absurd h (by simp [DonePart])⟩
            · exact hinv.blurW pc hpc
          stage := by
            intro x y him hcov
            rcases hinv.stage x y him hcov with h | h | h
            · exact Or.inl h
            · rcases holds_set WorkerPc.exited hw h with h | h
              · exact absurd h (by simp [Holds])
              · exact Or.inr (Or.inl h)
            · exact Or.inr (Or.inr h)
          blurJoined := by
            intro hj pc hpc
            rcases mem_set_cases hpc with rfl | hpc
            · rfl
            · exact hinv.blurJoined hj pc hpc
          blurExit := fun _ => pop_eq_noMoreWork hpop }
      | tile t rest =>
        rw [hpop] at hstep
        obtain rfl := Option.some.inj hstep
        obtain ⟨hcl, hpend⟩ := pop_eq_tile hpop
        have htin : TileIn cfg t := hinv.blurQ t (by rw [hpend]; exact List.mem_cons_self _ _)
        exact { hinv with
          blurCount := by simp only [List.length_set]; exact hinv.blurCount
          blurQ := by
            intro t2 ht2
            exact hinv.blurQ t2 (by rw [hpend]; exact List.mem_cons_of_mem _ ht2)
          blurW := by
            intro pc hpc
            rcases mem_set_cases hpc with rfl | hpc
            · refine ⟨⟨htin, le_refl _⟩, ?_⟩
              intro x y h
              simp only [DonePart, Tile.contains] at h
              omega
            · exact hinv.blurW pc hpc
          stage := by
            intro x y him hcov
            rcases hinv.stage x y him hcov with h | h | h
            · obtain ⟨t2, ht2, hc⟩ := h
              rw [hpend] at ht2
              rcases List.mem_cons.1 ht2 with rfl | ht2
              · right; left
                exact ⟨_, new_mem_set hw, hc⟩
              · exact Or.inl ⟨t2, ht2, hc⟩
            · rcases holds_set (WorkerPc.rowTest t t.startY) hw h with h | h
              · exact absurd h (by simp [Holds])
              · exact Or.inr (Or.inl h)
            · exact Or.inr (Or.inr h)
          blurFlag := by rw [← hinv.blurFlag]; exact hcl
          blurJoined := by
            intro hj
            have := hnotjoined (by simp)
            rw [hj] at this
            exact absurd this (by simp)
          blurExit := by
            intro h
            rcases mem_set_cases h with h | h
            · exact absurd h (by simp)
            · have := (hinv.blurExit h).2
              rw [hpend] at this
              exact absurd this (by simp) }
    | rowTest t y0 =>
      simp only at hstep
      obtain ⟨⟨htin, hy0⟩, hdone⟩ := hinv.blurW _ hold_mem
      by_cases hlt : y0 < t.endY
      · rw [if_pos hlt] at hstep
        obtain rfl := Option.some.inj hstep
        exact { hinv with
          blurCount := by simp only [List.length_set]; exact hinv.blurCount
          blurW := by
            intro pc hpc
            rcases mem_set_cases hpc with rfl | hpc
            · refine ⟨⟨htin, hy0, hlt, le_refl _⟩, ?_⟩
              intro x y h
              apply hdone x y
              simp only [DonePart, Tile.contains] at h ⊢
              omega
            · exact hinv.blurW pc hpc
          stage := by
            intro x y him hcov
            rcases hinv.stage x y him hcov with h | h | h
            · exact Or.inl h
            · rcases holds_set (WorkerPc.colTest t y0 t.startX) hw h with h | h
              · right; left
                exact ⟨_, new_mem_set hw, h⟩
              · exact Or.inr (Or.inl h)
            · exact Or.inr (Or.inr h)
          blurJoined := by
            intro hj
            have := hnotjoined (by simp)
            rw [hj] at this
            exact absurd this (by simp)
          blurExit := by
            intro h
            rcases mem_set_cases h with h | h
            · exact absurd h (by simp)
            · exact hinv.blurExit h }
      · rw [if_neg hlt] at hstep
        obtain rfl := Option.some.inj hstep
        exact { hinv with
          blurCount := by simp only [List.length_set]; exact hinv.blurCount
          invQ := by
            intro t2 ht2
            simp only [StageQueue.push, List.mem_append, List.mem_singleton] at ht2
            rcases ht2 with ht2 | rfl
            · exact hinv.invQ t2 ht2
            · refine ⟨htin, fun x y hc => hdone x y ?_⟩
              simp only [DonePart, Tile.contains] at hc ⊢
              omega
          blurW := by
            intro pc hpc
            rcases mem_set_cases hpc with rfl | hpc
            · exact ⟨trivial, fun x y h => absurd h (by simp [DonePart])⟩
            · exact hinv.blurW pc hpc
          stage := by
            intro x y him hcov
            rcases hinv.stage x y him hcov with h | h | h | h
            · exact Or.inl h
            · rcases holds_set WorkerPc.waiting hw h with h | h
              · right; right; left
                exact ⟨t, by simp [StageQueue.push], h⟩
              · exact Or.inr (Or.inl h)
            · obtain ⟨t2, ht2, hc⟩ := h
              right; right; left
              exact ⟨t2, by simp only [StageQueue.push, List.mem_append]; exact Or.inl ht2, hc⟩
            · exact Or.inr (Or.inr (Or.inr h))
          invFlag := hinv.invFlag
          blurJoined := by
            intro hj
            have := hnotjoined (by simp)
            rw [hj] at this
            exact absurd this (by simp)
          blurExit := by
            intro h
            rcases mem_set_cases h with h | h
            · exact absurd h (by simp)
            · exact hinv.blurExit h
          invExit := by
            intro h
            have h1 := (hinv.invExit h).1
            rw [hinv.invFlag, hnotclosedinv (by simp)] at h1
            exact absurd h1 (by simp) }
    | colTest t y0 x0 =>
      simp only at hstep
      obtain ⟨⟨htin, hy0, hy1, hx0⟩, hdone⟩ := hinv.blurW _ hold_mem
      by_cases hlt : x0 < t.endX
      · have h0 : InImage cfg x0 y0 := by
          simp only [TileIn, InImage] at *
          omega
        rw [if_pos hlt, hsafe x0 y0 h0] at hstep
        simp only at hstep
        obtain rfl := Option.some.inj hstep
        have hmono : ∀ x y, BlurOK cfg s.blurredImage.data x y →
            BlurOK cfg (s.blurredImage.store (y0 * cfg.width + x0)
              (blurValue cfg.inputImage cfg.width cfg.height cfg.kernelSize x0 y0)).data x y :=
          fun x y h => blurOK_store cfg s.blurredImage hinv.blurLen h0 (fun _ => h)
        exact { hinv with
          blurLen := by rw [store_length]; exact hinv.blurLen
          blurCount := by simp only [List.length_set]; exact hinv.blurCount
          invQ := fun t2 ht2 =>
            ⟨(hinv.invQ t2 ht2).1, fun x y hc => hmono x y ((hinv.invQ t2 ht2).2 x y hc)⟩
          blurW := by
            intro pc hpc
            rcases mem_set_cases hpc with rfl | hpc
            · refine ⟨⟨htin, hy0, hy1, by omega⟩, ?_⟩
              intro x y h
              apply blurOK_store cfg s.blurredImage hinv.blurLen h0
              intro hne
              apply hdone x y
              simp only [DonePart, Tile.contains] at h ⊢
              have hne2 : ¬ (x = x0 ∧ y = y0) := by
                intro hxy
                exact hne (by rw [hxy.1, hxy.2])
              omega
            · exact ⟨(hinv.blurW pc hpc).1, fun x y h => hmono x y ((hinv.blurW pc hpc).2 x y h)⟩
          invW := fun pc hpc =>
            ⟨(hinv.invW pc hpc).1, fun x y h => hmono x y ((hinv.invW pc hpc).2.1 x y h),
              (hinv.invW pc hpc).2.2⟩
          stage := by
            intro x y him hcov
            rcases hinv.stage x y him hcov with h | h | h
            · exact Or.inl h
            · rcases holds_set (WorkerPc.colTest t y0 (x0 + 1)) hw h with h | h
              · right; left
                exact ⟨_, new_mem_set hw, h⟩
              · exact Or.inr (Or.inl h)
            · exact Or.inr (Or.inr h)
          blurJoined := by
            intro hj
            have := hnotjoined (by simp)
            rw [hj] at this
            exact absurd this (by simp)
          blurExit := by
            intro h
            rcases mem_set_cases h with h | h
            · exact absurd h (by simp)
            · exact hinv.blurExit h }
      · rw [if_neg hlt] at hstep
        obtain rfl := Option.some.inj hstep
        exact { hinv with
          blurCount := by simp only [List.length_set]; exact hinv.blurCount
          blurW := by
            intro pc hpc
            rcases mem_set_cases hpc with rfl | hpc
            · refine ⟨⟨htin, by omega⟩, ?_⟩
              intro x y h
              apply hdone x y
              simp only [DonePart, Tile.contains] at h ⊢
              omega
            · exact hinv.blurW pc hpc
          stage := by
            intro x y him hcov
            rcases hinv.stage x y him hcov with h | h | h
            · exact Or.inl h
            · rcases holds_set (WorkerPc.rowTest t (y0 + 1)) hw h with h | h
              · right; left
                exact ⟨_, new_mem_set hw, h⟩
              · exact Or.inr (Or.inl h)
            · exact Or.inr (Or.inr h)
          blurJoined := by
            intro hj
            have := hnotjoined (by simp)
            rw [hj] at this
            exact absurd this (by simp)
          blurExit := by
            intro h
            rcases mem_set_cases h with h | h
            · exact absurd h (by simp)
            · exact hinv.blurExit h }
    | exited => exact absurd hstep (by simp)


theorem inv_stepInversion (cfg : Config) (s s1 : Pipeline) (i : Nat) (hinv : Inv cfg s)
    (hstep : stepInversion cfg s i = some s1) : Inv cfg s1 := by
  unfold stepInversion at hstep
  cases hw : s.inversionWorkers[i]? with
  | none => rw [hw] at hstep; exact absurd hstep (by simp)
  | some pc =>
    rw [hw] at hstep
    have hold_mem : pc ∈ s.inversionWorkers := old_mem hw
    have hnotdone : pc ≠ WorkerPc.exited → s.orch ≠ OrchPc.done :=
      fun hne hd => hne (hinv.invJoined hd pc hold_mem)
    cases pc with
    | waiting =>
      simp only at hstep
      cases hpop : pop s.inversionQueue with
      | blocked => rw [hpop] at hstep; exact absurd hstep (by simp)
      | noMoreWork =>
        rw [hpop] at hstep
        obtain rfl := Option.some.inj hstep
        exact { hinv with
          invCount := by simp only [List.length_set]; exact hinv.invCount
          invW := by
            intro pc hpc
            rcases mem_set_cases hpc with rfl | hpc
            · exact ⟨trivial, fun x y h => absurd h (by simp [Holds]),
                fun x y h => absurd h (by simp [DonePart])⟩
            · exact hinv.invW pc hpc
          stage := by
            intro x y him hcov
            rcases hinv.stage x y him hcov with h | h | h | h | h
            · exact Or.inl h
            · exact Or.inr (Or.inl h)
            · exact Or.inr (Or.inr (Or.inl h))
            · rcases holds_set WorkerPc.exited hw h with h | h
              · exact absurd h (by simp [Holds])
              · exact Or.inr (Or.inr (Or.inr (Or.inl h)))
            · exact Or.inr (Or.inr (Or.inr (Or.inr h)))
          invJoined := by
            intro hd pc hpc
            rcases mem_set_cases hpc with rfl | hpc
            · rfl
            · exact hinv.invJoined hd pc hpc
          invExit := fun _ => pop_eq_noMoreWork hpop }
      | tile t rest =>
        rw [hpop] at hstep
        obtain rfl := Option.some.inj hstep
        obtain ⟨hcl, hpend⟩ := pop_eq_tile hpop
        have htq := hinv.invQ t (by rw [hpend]; exact List.mem_cons_self _ _)
        exact { hinv with
          invCount := by simp only [List.length_set]; exact hinv.invCount
          invQ := by
            intro t2 ht2
            exact hinv.invQ t2 (by rw [hpend]; exact List.mem_cons_of_mem _ ht2)
          invW := by
            intro pc hpc
            rcases mem_set_cases hpc with rfl | hpc
            · refine ⟨⟨htq.1, le_refl _⟩, fun x y h => htq.2 x y h, ?_⟩
              intro x y h
              simp only [DonePart, Tile.contains] at h
              omega
            · exact hinv.invW pc hpc
          stage := by
            intro x y him hcov
            rcases hinv.stage x y him hcov with h | h | h | h | h
            · exact Or.inl h
            · exact Or.inr (Or.inl h)
            · obtain ⟨t2, ht2, hc⟩ := h
              rw [hpend] at ht2
              rcases List.mem_cons.1 ht2 with rfl | ht2
              · right; right; right; left
                exact ⟨_, new_mem_set hw, hc⟩
              · exact Or.inr (Or.inr (Or.inl ⟨t2, ht2, hc⟩))
            · rcases holds_set (WorkerPc.rowTest t t.startY) hw h with h | h
              · exact absurd h (by simp [Holds])
              · exact Or.inr (Or.inr (Or.inr (Or.inl h)))
            · exact Or.inr (Or.inr (Or.inr (Or.inr h)))
          invFlag := by rw [← hinv.invFlag]; exact hcl
          invJoined := fun hd => absurd hd (hnotdone (by simp))
          invExit := by
            intro h
            rcases mem_set_cases h with h | h
            · exact absurd h (by simp)
            · have := (hinv.invExit h).2
              rw [hpend] at this
              exact absurd this (by simp) }
    | rowTest t y0 =>
      simp only at hstep
      obtain ⟨⟨htin, hy0⟩, hblur, hdone⟩ := hinv.invW _ hold_mem
      by_cases hlt : y0 < t.endY
      · rw [if_pos hlt] at hstep
        obtain rfl := Option.some.inj hstep
        exact { hinv with
          invCount := by simp only [List.length_set]; exact hinv.invCount
          invW := by
            intro pc hpc
            rcases mem_set_cases hpc with rfl | hpc
            · refine ⟨⟨htin, hy0, hlt, le_refl _⟩, fun x y h => hblur x y h, ?_⟩
              intro x y h
              apply hdone x y
              simp only [DonePart, Tile.contains] at h ⊢
              omega
            · exact hinv.invW pc hpc
          stage := by
            intro x y him hcov
            rcases hinv.stage x y him hcov with h | h | h | h | h
            · exact Or.inl h
            · exact Or.inr (Or.inl h)
            · exact Or.inr (Or.inr (Or.inl h))
            · rcases holds_set (WorkerPc.colTest t y0 t.startX) hw h with h | h
              · right; right; right; left
                exact ⟨_, new_mem_set hw, h⟩
              · exact Or.inr (Or.inr (Or.inr (Or.inl h)))
            · exact Or.inr (Or.inr (Or.inr (Or.inr h)))
          invJoined := fun hd => absurd hd (hnotdone (by simp))
          invExit := by
            intro h
            rcases mem_set_cases h with h | h
            · exact absurd h (by simp)
            · exact hinv.invExit h }
      · rw [if_neg hlt] at hstep
        obtain rfl := Option.some.inj hstep
        exact { hinv with
          invCount := by simp only [List.length_set]; exact hinv.invCount
          invW := by
            intro pc hpc
            rcases mem_set_cases hpc with rfl | hpc
            · exact ⟨trivial, fun x y h => absurd h (by simp [Holds]),
                fun x y h => absurd h (by simp [DonePart])⟩
            · exact hinv.invW pc hpc
          stage := by
            intro x y him hcov
            rcases hinv.stage x y him hcov with h | h | h | h | h
            · exact Or.inl h
            · exact Or.inr (Or.inl h)
            · exact Or.inr (Or.inr (Or.inl h))
            · rcases holds_set WorkerPc.waiting hw h with h | h
              · right; right; right; right
                apply hdone x y
                simp only [Holds, DonePart, Tile.contains] at h ⊢
                omega
              · exact Or.inr (Or.inr (Or.inr (Or.inl h)))
            · exact Or.inr (Or.inr (Or.inr (Or.inr h)))
          invJoined := fun hd => absurd hd (hnotdone (by simp))
          invExit := by
            intro h
            rcases mem_set_cases h with h | h
            · exact absurd h (by simp)
            · exact hinv.invExit h }
    | colTest t y0 x0 =>
      simp only at hstep
      obtain ⟨⟨htin, hy0, hy1, hx0⟩, hblur, hdone⟩ := hinv.invW _ hold_mem
      by_cases hlt : x0 < t.endX
      · rw [if_pos hlt] at hstep
        obtain rfl := Option.some.inj hstep
        have h0 : InImage cfg x0 y0 := by
          simp only [TileIn, InImage] at *
          omega
        have hb0 : BlurOK cfg s.blurredImage.data x0 y0 := by
          apply hblur x0 y0
          simp only [Holds, Tile.contains]
          omega
        have hmono : ∀ x y, OutOK cfg s.outputImage.data x y →
            OutOK cfg (s.outputImage.store (y0 * cfg.width + x0)
              (invertPixel (load s.blurredImage.data (y0 * cfg.width + x0)))).data x y :=
          fun x y h => outOK_store cfg s.outputImage _ hinv.outLen h0 hb0 (fun _ => h)
        exact { hinv with
          outLen := by rw [store_length]; exact hinv.outLen
          invCount := by simp only [List.length_set]; exact hinv.invCount
          invW := by
            intro pc hpc
            rcases mem_set_cases hpc with rfl | hpc
            · refine ⟨⟨htin, hy0, hy1, by omega⟩, fun x y h => hblur x y h, ?_⟩
              intro x y h
              apply outOK_store cfg s.outputImage _ hinv.outLen h0 hb0
              intro hne
              apply hdone x y
              simp only [DonePart, Tile.contains] at h ⊢
              have hne2 : ¬ (x = x0 ∧ y = y0) := by
                intro hxy
                exact hne (by rw [hxy.1, hxy.2])
              omega
            · exact ⟨(hinv.invW pc hpc).1, (hinv.invW pc hpc).2.1,
                fun x y h => hmono x y ((hinv.invW pc hpc).2.2 x y h)⟩
          stage := by
            intro x y him hcov
            rcases hinv.stage x y him hcov with h | h | h | h | h
            · exact Or.inl h
            · exact Or.inr (Or.inl h)
            · exact Or.inr (Or.inr (Or.inl h))
            · rcases holds_set (WorkerPc.colTest t y0 (x0 + 1)) hw h with h | h
              · right; right; right; left
                exact ⟨_, new_mem_set hw, h⟩
              · exact Or.inr (Or.inr (Or.inr (Or.inl h)))
            · exact Or.inr (Or.inr (Or.inr (Or.inr (hmono x y h))))
          invJoined := fun hd => absurd hd (hnotdone (by simp))
          invExit := by
            intro h
            rcases mem_set_cases h with h | h
            · exact absurd h (by simp)
            · exact hinv.invExit h }
      · rw [if_neg hlt] at hstep
        obtain rfl := Option.some.inj hstep
        exact { hinv with
          invCount := by simp only [List.length_set]; exact hinv.invCount
          invW := by
            intro pc hpc
            rcases mem_set_cases hpc with rfl | hpc
            · refine ⟨⟨htin, by omega⟩, fun x y h => hblur x y h, ?_⟩
              intro x y h
              apply hdone x y
              simp only [DonePart, Tile.contains] at h ⊢
              omega
            · exact hinv.invW pc hpc
          stage := by
            intro x y him hcov
            rcases hinv.stage x y him hcov with h | h | h | h | h
            · exact Or.inl h
            · exact Or.inr (Or.inl h)
            · exact Or.inr (Or.inr (Or.inl h))
            · rcases holds_set (WorkerPc.rowTest t (y0 + 1)) hw h with h | h
              · right; right; right; left
                exact ⟨_, new_mem_set hw, h⟩
              · exact Or.inr (Or.inr (Or.inr (Or.inl h)))
            · exact Or.inr (Or.inr (Or.inr (Or.inr h)))
          invJoined := fun hd => absurd hd (hnotdone (by simp))
          invExit := by
            intro h
            rcases mem_set_cases h with h | h
            · exact absurd h (by simp)
            · exact hinv.invExit h }
    | exited => exact absurd hstep (by simp)


theorem inv_step (cfg : Config) (hT : 0 < cfg.tileSize)
    (hWT : cfg.width + cfg.tileSize ≤ 2147483647) (hHT : cfg.height + cfg.tileSize ≤ 2147483647)
    (hsafe : NoTrap cfg) (s s1 : Pipeline) (th : Thread)
    (hinv : Inv cfg s) (hstep : step cfg s th = some s1) : Inv cfg s1 := by
  unfold step at hstep
  rw [hinv.alive] at hstep
  simp only [Bool.false_eq_true, if_false] at hstep
  cases th with
  | orchestrator => exact inv_stepOrchestrator cfg hT hWT hHT s s1 hinv hstep
  | blur i => exact inv_stepBlur cfg hsafe s s1 i hinv hstep
  | inversion i => exact inv_stepInversion cfg s s1 i hinv hstep

theorem inv_run (cfg : Config) (hT : 0 < cfg.tileSize)
    (hWT : cfg.width + cfg.tileSize ≤ 2147483647) (hHT : cfg.height + cfg.tileSize ≤ 2147483647)
    (hsafe : NoTrap cfg) :
    ∀ (schedule : List Thread) (s s1 : Pipeline), Inv cfg s → run cfg s schedule = some s1 →
      Inv cfg s1 := by
  intro schedule
  induction schedule with
  | nil =>
    intro s s1 hinv hrun
    simp only [run] at hrun
    obtain rfl := Option.some.inj hrun
    exact hinv
  | cons th rest ih =>
    intro s s1 hinv hrun
    simp only [run] at hrun
    cases hs : step cfg s th with
    | none => rw [hs] at hrun; exact absurd hrun (by simp)
    | some s2 =>
      rw [hs] at hrun
      exact ih s2 s1 (inv_step cfg hT hWT hHT hsafe s s2 th hinv hs) hrun

/-- The set-up of a call that finds fresh globals, for an image whose size is
an `int`. -/
theorem initPipeline_fresh (cfg : Config) (outputImage : List Pixel)
    (h0 : 0 ≤ cfg.width * cfg.height) (harea : cfg.width * cfg.height ≤ 2147483647) :
    initPipeline cfg freshGlobals outputImage =
      some ⟨OrchPc.outerTest 0, List.replicate cfg.numThreads WorkerPc.waiting,
        List.replicate cfg.numThreads WorkerPc.waiting, ⟨[], false⟩, ⟨[], false⟩,
        ⟨List.replicate (cfg.width * cfg.height).toNat default, []⟩, ⟨outputImage, []⟩,
        false⟩ := by
  unfold initPipeline allocPixels
  rw [wrapInt_of_range (by omega) harea, if_neg (by omega)]
  rfl

theorem inv_init (cfg : Config) (outputImage : List Pixel) (s0 : Pipeline)
    (h0 : 0 ≤ cfg.width * cfg.height) (harea : cfg.width * cfg.height ≤ 2147483647)
    (hout : outputImage.length = (cfg.width * cfg.height).toNat)
    (hinit : initPipeline cfg freshGlobals outputImage = some s0) : Inv cfg s0 := by
  rw [initPipeline_fresh cfg outputImage h0 harea] at hinit
  obtain rfl := Option.some.inj hinit
  exact {
    alive := rfl
    orchOK := le_refl _
    blurLen := by simp
    outLen := hout
    blurCount := by simp
    invCount := by simp
    blurQ := by intro t ht; simp at ht
    invQ := by intro t ht; simp at ht
    blurW := by
      intro pc hpc
      obtain rfl := List.eq_of_mem_replicate hpc
      exact ⟨trivial, fun x y h => absurd h (by simp [DonePart])⟩
    invW := by
      intro pc hpc
      obtain rfl := List.eq_of_mem_replicate hpc
      exact ⟨trivial, fun x y h => absurd h (by simp [Holds]),
        fun x y h => absurd h (by simp [DonePart])⟩
    stage := by
      intro x y him hcov
      simp only [Covered] at hcov
      have := him.2.2.1
      omega
    blurFlag := rfl
    invFlag := rfl
    blurJoined := by intro h; simp [afterBlurJoin] at h
    invJoined := by intro h; simp at h
    blurExit := by
      intro h
      have := List.eq_of_mem_replicate h
      exact absurd this (by simp)
    invExit := by
      intro h
      have := List.eq_of_mem_replicate h
      exact absurd this (by simp) }


/-- No division traps when the sizes are well-formed. -/
theorem noTrap_of_wellSized (cfg : Config) (hsz : WellSized cfg) : NoTrap cfg := by
  intro x y him
  exact blurPixel_some cfg.inputImage cfg.width cfg.height cfg.kernelSize x y hsz.kernelPos
    hsz.kernelInt hsz.area him.1 him.2.1 him.2.2.1 him.2.2.2

/-- Every state of an execution that started with fresh globals satisfies the
invariant. -/
theorem runProcess_inv (cfg : Config) (hsz : WellSized cfg) (outputImage : List Pixel)
    (schedule : List Thread) (s : Pipeline)
    (hout : outputImage.length = (cfg.width * cfg.height).toNat)
    (hrun : runProcess cfg freshGlobals outputImage schedule = some s) : Inv cfg s := by
  have h0 : 0 ≤ cfg.width * cfg.height := le_of_lt (mul_pos hsz.widthPos hsz.heightPos)
  unfold runProcess at hrun
  cases hinit : initPipeline cfg freshGlobals outputImage with
  | none => rw [hinit] at hrun; exact absurd hrun (by simp)
  | some s0 =>
    rw [hinit] at hrun
    simp only at hrun
    exact inv_run cfg hsz.tilePos hsz.widthTile hsz.heightTile (noTrap_of_wellSized cfg hsz)
      schedule s0 s (inv_init cfg outputImage s0 h0 hsz.area hout hinit) hrun

/-- In a state where `process` has returned, with at least one worker per
pool, every pixel of the output is the inverted blurred input pixel. -/
theorem inv_done_output (cfg : Config) (hw : 0 < cfg.width) (hn : 1 ≤ cfg.numThreads)
    (hsafe : NoTrap cfg) (s : Pipeline) (hinv : Inv cfg s) (hdone : s.orch = OrchPc.done) :
    (blurImage cfg.inputImage cfg.width cfg.height cfg.kernelSize).map invertImage =
      some s.outputImage.data := by
  have hbj : ∀ pc ∈ s.blurWorkers, pc = WorkerPc.exited :=
    hinv.blurJoined (by rw [hdone]; rfl)
  have hij : ∀ pc ∈ s.inversionWorkers, pc = WorkerPc.exited := hinv.invJoined hdone
  have hbne : WorkerPc.exited ∈ s.blurWorkers := by
    have hlen := hinv.blurCount
    cases hl : s.blurWorkers with
    | nil => rw [hl] at hlen; simp at hlen; omega
    | cons pc rest =>
      have := hbj pc (by rw [hl]; exact List.mem_cons_self _ _)
      rw [this]
      exact List.mem_cons_self _ _
  have hine : WorkerPc.exited ∈ s.inversionWorkers := by
    have hlen := hinv.invCount
    cases hl : s.inversionWorkers with
    | nil => rw [hl] at hlen; simp at hlen; omega
    | cons pc rest =>
      have := hij pc (by rw [hl]; exact List.mem_cons_self _ _)
      rw [this]
      exact List.mem_cons_self _ _
  have hbq := (hinv.blurExit hbne).2
  have hiq := (hinv.invExit hine).2
  have hpix : ∀ x y, InImage cfg x y → OutOK cfg s.outputImage.data x y := by
    intro x y him
    have hcov : Covered cfg s.orch x y := by rw [hdone]; trivial
    rcases hinv.stage x y him hcov with h | h | h | h | h
    · obtain ⟨t, ht, -⟩ := h
      rw [hbq] at ht
      exact absurd ht (by simp)
    · obtain ⟨pc, hpc, hh⟩ := h
      rw [hbj pc hpc] at hh
      exact absurd hh (by simp [Holds])
    · obtain ⟨t, ht, -⟩ := h
      rw [hiq] at ht
      exact absurd ht (by simp)
    · obtain ⟨pc, hpc, hh⟩ := h
      rw [hij pc hpc] at hh
      exact absurd hh (by simp [Holds])
    · exact h
  rw [blurImage_eq _ _ _ _ hw (fun x y hx0 hx hy0 hy => hsafe x y ⟨hx0, hx, hy0, hy⟩)]
  simp only [Option.map_some']
  congr 1
  symm
  apply List.ext_getElem?
  intro i
  unfold invertImage
  by_cases hi : i < (cfg.width * cfg.height).toNat
  · obtain ⟨him, hidx⟩ := @index_pixel cfg.width cfg.height hw _ hi
    have h := hpix _ _ him him
    rw [hidx] at h
    unfold load at h
    have hlt : i < s.outputImage.data.length := by rw [hinv.outLen]; exact hi
    rw [List.getD_eq_getElem?_getD, Int.toNat_ofNat, List.getElem?_eq_getElem hlt] at h
    simp only [Option.getD_some] at h
    rw [List.getElem?_eq_getElem hlt, h]
    simp [List.getElem?_range hi]
  · rw [List.getElem?_eq_none (by rw [hinv.outLen]; omega),
      List.getElem?_eq_none (by simp; omega)]

/-- Every completed execution that started with fresh globals, with at least
one worker per pool, leaves the inverted blur of the input in the output
buffer. -/
theorem runProcess_output (cfg : Config) (hsz : WellSized cfg) (outputImage : List Pixel)
    (schedule : List Thread) (s : Pipeline) (hn : 1 ≤ cfg.numThreads)
    (hout : outputImage.length = (cfg.width * cfg.height).toNat)
    (hrun : runProcess cfg freshGlobals outputImage schedule = some s)
    (hdone : s.orch = OrchPc.done) :
    (blurImage cfg.inputImage cfg.width cfg.height cfg.kernelSize).map invertImage =
      some s.outputImage.data :=
  inv_done_output cfg hsz.widthPos hn (noTrap_of_wellSized cfg hsz) s
    (runProcess_inv cfg hsz outputImage schedule s hout hrun) hdone

/-- In every reachable state each tile of the inversion queue has all its blur
stores in place. -/
theorem runProcess_handoff (cfg : Config) (hsz : WellSized cfg) (outputImage : List Pixel)
    (schedule : List Thread) (s : Pipeline)
    (hout : outputImage.length = (cfg.width * cfg.height).toNat)
    (hrun : runProcess cfg freshGlobals outputImage schedule = some s) :
    ∀ t ∈ s.inversionQueue.pending, ∀ x y, t.contains x y →
      blurPixel cfg.inputImage cfg.width cfg.height cfg.kernelSize x y =
        some (load s.blurredImage.data (y * cfg.width + x)) := by
  have hinv := runProcess_inv cfg hsz outputImage schedule s hout hrun
  intro t ht x y hc
  obtain ⟨htin, hb⟩ := hinv.invQ t ht
  have him := inImage_of_contains htin hc
  rw [hb x y hc him]
  exact noTrap_of_wellSized cfg hsz x y him

/-! ### A pool of zero workers -/

/-- The orchestrator never stores to the output buffer and never changes the
worker lists. -/
theorem stepOrchestrator_keeps (cfg : Config) (s s1 : Pipeline)
    (h : stepOrchestrator cfg s = some s1) :
    s1.outputImage = s.outputImage ∧ s1.blurWorkers = s.blurWorkers ∧
      s1.inversionWorkers = s.inversionWorkers := by
  unfold stepOrchestrator at h
  cases hpc : s.orch <;> rw [hpc] at h <;> simp only at h
  · split at h <;> (obtain rfl := Option.some.inj h; exact ⟨rfl, rfl, rfl⟩)
  · split at h <;> (obtain rfl := Option.some.inj h; exact ⟨rfl, rfl, rfl⟩)
  · obtain rfl := Option.some.inj h; exact ⟨rfl, rfl, rfl⟩
  · split at h
    · obtain rfl := Option.some.inj h; exact ⟨rfl, rfl, rfl⟩
    · exact absurd h (by simp)
  · obtain rfl := Option.some.inj h; exact ⟨rfl, rfl, rfl⟩
  · split at h
    · obtain rfl := Option.some.inj h; exact ⟨rfl, rfl, rfl⟩
    · exact absurd h (by simp)
  · exact absurd h (by simp)


theorem run_without_workers (cfg : Config) :
    ∀ (schedule : List Thread) (s s1 : Pipeline), s.blurWorkers = [] →
      s.inversionWorkers = [] → run cfg s schedule = some s1 →
      s1.outputImage = s.outputImage := by
  intro schedule
  induction schedule with
  | nil =>
    intro s s1 _ _ h
    simp only [run] at h
    obtain rfl := Option.some.inj h
    rfl
  | cons th rest ih =>
    intro s s1 hb hi h
    simp only [run] at h
    cases hs : step cfg s th with
    | none => rw [hs] at h; exact absurd h (by simp)
    | some s2 =>
      rw [hs] at h
      unfold step at hs
      cases hkill : s.killed with
      | true => rw [hkill] at hs; exact absurd hs (by simp)
      | false =>
        rw [hkill] at hs
        simp only [Bool.false_eq_true, if_false] at hs
        cases th with
        | orchestrator =>
          obtain ⟨k1, k2, k3⟩ := stepOrchestrator_keeps cfg s s2 hs
          rw [ih s2 s1 (by rw [k2, hb]) (by rw [k3, hi]) h, k1]
        | blur i =>
          simp only [stepBlur, hb, List.getElem?_nil] at hs
          exact absurd hs (by simp)
        | inversion i =>
          simp only [stepInversion, hi, List.getElem?_nil] at hs
          exact absurd hs (by simp)

/-- C8 (the code at the failing input): with `numThreads = 0` no worker exists,
so whatever the schedule and whatever state the globals are in, the output
buffer stays as the caller passed it; on the 1 x 1 image `(10, 20, 30)` the
first call of `process` completes, leaves the tile in the blur queue and
returns the output `(0, 0, 0)` where `invert(blur(input))` is
`(245, 235, 225)`. -/
theorem zero_workers_leave_output_untouched :
    (∀ (cfg : Config) (globals : Globals) (outputImage : List Pixel) (schedule : List Thread)
      (s : Pipeline),
      cfg.numThreads = 0 → runProcess cfg globals outputImage schedule = some s →
      s.outputImage.data = outputImage) ∧
    runProcess ⟨[⟨10, 20, 30⟩], 1, 1, 1, 1, 0⟩ freshGlobals [⟨0, 0, 0⟩]
        (List.replicate 8 Thread.orchestrator) = some
      { orch := OrchPc.done, blurWorkers := [], inversionWorkers := [],
        blurQueue := { pending := [⟨0, 0, 1, 1⟩], closed := true },
        inversionQueue := { pending := [], closed := true },
        blurredImage := { data := [⟨0, 0, 0⟩], writes := [] },
        outputImage := { data := [⟨0, 0, 0⟩], writes := [] },
        killed := false } ∧
    (blurImage [⟨10, 20, 30⟩] 1 1 1).map invertImage = some [⟨245, 235, 225⟩] := by
  refine ⟨?_, by decide, by decide⟩
  intro cfg globals outputImage schedule s hzero hrun
  unfold runProcess at hrun
  cases hinit : initPipeline cfg globals outputImage with
  | none => rw [hinit] at hrun; exact absurd hrun (by simp)
  | some s0 =>
    rw [hinit] at hrun
    simp only at hrun
    unfold initPipeline at hinit
    cases ha : allocPixels (wrapInt (cfg.width * cfg.height)) with
    | none => rw [ha] at hinit; exact absurd hinit (by simp)
    | some d =>
      rw [ha] at hinit
      simp only at hinit
      obtain rfl := Option.some.inj hinit
      rw [run_without_workers cfg schedule _ s (by simp [hzero]) (by simp [hzero]) hrun]

/-! ### A complete execution exists: the serial schedule -/

theorem run_append (cfg : Config) {a b : List Thread} {s s1 s2 : Pipeline}
    (h1 : run cfg s a = some s1) (h2 : run cfg s1 b = some s2) :
    run cfg s (a ++ b) = some s2 := by
  induction a generalizing s with
  | nil =>
    simp only [run] at h1
    obtain rfl := Option.some.inj h1
    exact h2
  | cons th rest ih =>
    simp only [run, List.cons_append] at h1 ⊢
    cases hs : step cfg s th with
    | none => rw [hs] at h1; exact absurd h1 (by simp)
    | some s3 =>
      rw [hs] at h1
      simp only at h1 ⊢
      exact ih h1

theorem run_one (cfg : Config) {s s1 : Pipeline} {th : Thread} (h : step cfg s th = some s1) :
    run cfg s [th] = some s1 := by
  simp [run, h]


/-- The inner enqueue loop, run to its end by the orchestrator alone. -/
theorem orch_row (cfg : Config) (hT : 0 < cfg.tileSize)
    (hWT : cfg.width + cfg.tileSize ≤ 2147483647) (startY : Int)
    (hy0 : -2147483648 ≤ startY + cfg.tileSize) (hy : startY + cfg.tileSize ≤ 2147483647)
    (bw iw : List WorkerPc) (closed : Bool) (iq : StageQueue) (bi oi : Buffer) :
    ∀ (n j : Nat) (pend : List Tile), j + n = ceilDiv cfg.width cfg.tileSize →
      ∃ sched, run cfg ⟨OrchPc.innerTest startY (cfg.tileSize * (j : Int)), bw, iw,
          ⟨pend, closed⟩, iq, bi, oi, false⟩ sched =
        some ⟨OrchPc.outerTest (startY + cfg.tileSize), bw, iw,
          ⟨pend ++ (List.range' j n).map fun (j : Nat) =>
            tileAt cfg.width cfg.height cfg.tileSize (cfg.tileSize * (j : Int)) startY, closed⟩,
          iq, bi, oi, false⟩ := by
  intro n
  induction n with
  | zero =>
    intro j pend hj
    have hge : ¬ cfg.tileSize * (j : Int) < cfg.width := by
      rw [lt_ceilDiv hT]; omega
    refine ⟨[Thread.orchestrator], run_one cfg ?_⟩
    simp [step, stepOrchestrator, hge, wrapInt_of_range hy0 hy]
  | succ n ih =>
    intro j pend hj
    have hlt : cfg.tileSize * (j : Int) < cfg.width := by
      rw [lt_ceilDiv hT]; omega
    have hj0 : (0 : Int) ≤ cfg.tileSize * (j : Int) := by positivity
    have hstep : cfg.tileSize * (j : Int) + cfg.tileSize =
        cfg.tileSize * ((j + 1 : Nat) : Int) := by
      push_cast; ring
    have hwrap : wrapInt (cfg.tileSize * (j : Int) + cfg.tileSize) =
        cfg.tileSize * ((j + 1 : Nat) : Int) := by
      rw [wrapInt_of_range (by omega) (by omega), hstep]
    have htile : mkTile cfg.width cfg.height cfg.tileSize (cfg.tileSize * (j : Int)) startY =
        tileAt cfg.width cfg.height cfg.tileSize (cfg.tileSize * (j : Int)) startY :=
      mkTile_eq_tileAt (by omega) (by omega) hy0 hy
    obtain ⟨sched, hs⟩ := ih (j + 1)
      (pend ++ [tileAt cfg.width cfg.height cfg.tileSize (cfg.tileSize * (j : Int)) startY])
      (by omega)
    have h1 : step cfg ⟨OrchPc.innerTest startY (cfg.tileSize * (j : Int)), bw, iw,
        ⟨pend, closed⟩, iq, bi, oi, false⟩ Thread.orchestrator =
        some ⟨OrchPc.innerTest startY (cfg.tileSize * ((j + 1 : Nat) : Int)), bw, iw,
          ⟨pend ++ [tileAt cfg.width cfg.height cfg.tileSize (cfg.tileSize * (j : Int)) startY],
            closed⟩, iq, bi, oi, false⟩ := by
      simp only [step, stepOrchestrator, if_pos hlt, StageQueue.push, hwrap, htile,
        Bool.false_eq_true, if_false]
    refine ⟨[Thread.orchestrator] ++ sched, run_append cfg (run_one cfg h1) (hs.trans ?_)⟩
    simp [List.range'_succ]

/-- The outer enqueue loop, run to its end by the orchestrator alone. -/
theorem orch_rows (cfg : Config) (hT : 0 < cfg.tileSize)
    (hWT : cfg.width + cfg.tileSize ≤ 2147483647) (hHT : cfg.height + cfg.tileSize ≤ 2147483647)
    (bw iw : List WorkerPc) (closed : Bool) (iq : StageQueue) (bi oi : Buffer) :
    ∀ (n i : Nat) (pend : List Tile), i + n = ceilDiv cfg.height cfg.tileSize →
      ∃ sched, run cfg ⟨OrchPc.outerTest (cfg.tileSize * (i : Int)), bw, iw,
          ⟨pend, closed⟩, iq, bi, oi, false⟩ sched =
        some ⟨OrchPc.closeBlur, bw, iw,
          ⟨pend ++ (List.range' i n).flatMap (gridRow cfg.width cfg.height cfg.tileSize),
            closed⟩, iq, bi, oi, false⟩ := by
  intro n
  induction n with
  | zero =>
    intro i pend hi
    have hge : ¬ cfg.tileSize * (i : Int) < cfg.height := by
      rw [lt_ceilDiv hT]; omega
    refine ⟨[Thread.orchestrator], run_one cfg ?_⟩
    simp [step, stepOrchestrator, hge]
  | succ n ih =>
    intro i pend hi
    have hlt : cfg.tileSize * (i : Int) < cfg.height := by
      rw [lt_ceilDiv hT]; omega
    have hi0 : (0 : Int) ≤ cfg.tileSize * (i : Int) := by positivity
    have hstep : cfg.tileSize * (i : Int) + cfg.tileSize =
        cfg.tileSize * ((i + 1 : Nat) : Int) := by
      push_cast; ring
    obtain ⟨sched1, hs1⟩ := orch_row cfg hT hWT (cfg.tileSize * (i : Int)) (by omega) (by omega)
      bw iw closed iq bi oi (ceilDiv cfg.width cfg.tileSize) 0 pend (by omega)
    obtain ⟨sched2, hs2⟩ := ih (i + 1)
      (pend ++ (List.range' 0 (ceilDiv cfg.width cfg.tileSize)).map fun (j : Nat) =>
        tileAt cfg.width cfg.height cfg.tileSize (cfg.tileSize * (j : Int))
          (cfg.tileSize * (i : Int))) (by omega)
    have h1 : step cfg ⟨OrchPc.outerTest (cfg.tileSize * (i : Int)), bw, iw,
        ⟨pend, closed⟩, iq, bi, oi, false⟩ Thread.orchestrator =
        some ⟨OrchPc.innerTest (cfg.tileSize * (i : Int)) (cfg.tileSize * ((0 : Nat) : Int)),
          bw, iw, ⟨pend, closed⟩, iq, bi, oi, false⟩ := by
      simp only [step, stepOrchestrator, if_pos hlt, Nat.cast_zero, mul_zero,
        Bool.false_eq_true, if_false]
    rw [hstep] at hs1
    refine ⟨[Thread.orchestrator] ++ (sched1 ++ sched2),
      run_append cfg (run_one cfg h1) (run_append cfg hs1 (hs2.trans ?_))⟩
    simp [List.range'_succ, gridRow, List.range_eq_range']

/-- The enqueue phase and the closing of the blur queue. -/
theorem orch_enqueue (cfg : Config) (hT : 0 < cfg.tileSize)
    (hWT : cfg.width + cfg.tileSize ≤ 2147483647) (hHT : cfg.height + cfg.tileSize ≤ 2147483647)
    (bw iw : List WorkerPc) (iq : StageQueue) (bi oi : Buffer) :
    ∃ sched, run cfg ⟨OrchPc.outerTest 0, bw, iw, ⟨[], false⟩, iq, bi, oi, false⟩ sched =
      some ⟨OrchPc.joinBlur, bw, iw, ⟨gridTiles cfg.width cfg.height cfg.tileSize, true⟩,
        iq, bi, oi, false⟩ := by
  obtain ⟨sched, hs⟩ := orch_rows cfg hT hWT hHT bw iw false iq bi oi
    (ceilDiv cfg.height cfg.tileSize) 0 [] (by omega)
  simp only [Nat.cast_zero, mul_zero, List.nil_append] at hs
  refine ⟨sched ++ [Thread.orchestrator], run_append cfg hs (run_one cfg ?_)⟩
  simp [step, stepOrchestrator, StageQueue.close, gridTiles, List.range_eq_range']


/-- The column loop of a blur worker, run to its end by that worker alone. -/
theorem blur_col (cfg : Config) (hsafe : NoTrap cfg) (o : OrchPc) (bw iw : List WorkerPc)
    (bq iq : StageQueue) (oi : Buffer) (i : Nat) (hi : i < bw.length) (t : Tile) (y : Int)
    (ht : TileIn cfg t) (hy0 : t.startY ≤ y) (hy : y < t.endY) :
    ∀ (n : Nat) (x0 : Int) (bi : Buffer), t.startX ≤ x0 → (t.endX - x0).toNat = n →
      ∃ sched, run cfg ⟨o, bw.set i (WorkerPc.colTest t y x0), iw, bq, iq, bi, oi, false⟩ sched =
        some ⟨o, bw.set i (WorkerPc.rowTest t (y + 1)), iw, bq, iq,
          storePixels (blurValue cfg.inputImage cfg.width cfg.height cfg.kernelSize) cfg.width bi
            ((List.range n).map fun (k : Nat) => (x0 + (k : Int), y)), oi, false⟩ := by
  intro n
  induction n with
  | zero =>
    intro x0 bi _ hn
    have hge : ¬ x0 < t.endX := by omega
    refine ⟨[Thread.blur i], run_one cfg ?_⟩
    simp [step, stepBlur, List.getElem?_set_self hi, hge, storePixels]
  | succ n ih =>
    intro x0 bi hx0 hn
    have hlt : x0 < t.endX := by omega
    have h0 : InImage cfg x0 y := by
      simp only [TileIn, InImage] at *
      omega
    obtain ⟨sched, hs⟩ := ih (x0 + 1)
      (bi.store (y * cfg.width + x0)
        (blurValue cfg.inputImage cfg.width cfg.height cfg.kernelSize x0 y)) (by omega)
      (by omega)
    have h1 : step cfg ⟨o, bw.set i (WorkerPc.colTest t y x0), iw, bq, iq, bi, oi, false⟩
        (Thread.blur i) =
        some ⟨o, bw.set i (WorkerPc.colTest t y (x0 + 1)), iw, bq, iq,
          bi.store (y * cfg.width + x0)
            (blurValue cfg.inputImage cfg.width cfg.height cfg.kernelSize x0 y), oi, false⟩ := by
      simp [step, stepBlur, List.getElem?_set_self hi, hlt, hsafe x0 y h0]
    refine ⟨[Thread.blur i] ++ sched, run_append cfg (run_one cfg h1) (hs.trans ?_)⟩
    have hmap : (List.range n).map (fun (k : Nat) => (x0 + 1 + (k : Int), y)) =
        (List.range n).map ((fun (k : Nat) => (x0 + (k : Int), y)) ∘ Nat.succ) := by
      apply List.map_congr_left
      intro k _
      simp only [Function.comp, Nat.succ_eq_add_one, Nat.cast_add, Nat.cast_one, Prod.mk.injEq,
        and_true]
      ring
    rw [List.range_succ_eq_map, List.map_cons, List.map_map, ← hmap]
    simp [storePixels]

theorem flatMap_range_succ {α : Type} (f : Nat → List α) (m : Nat) :
    (List.range (m + 1)).flatMap f = f 0 ++ (List.range m).flatMap fun k => f (k + 1) := by
  rw [List.range_succ_eq_map, List.flatMap_cons, List.flatMap_map]


/-- The row loop of a blur worker and the hand-over of the tile to the
inversion queue, run by that worker alone. -/
theorem blur_rows (cfg : Config) (hsafe : NoTrap cfg) (o : OrchPc) (bw iw : List WorkerPc)
    (bq : StageQueue) (ipend : List Tile) (iclosed : Bool) (oi : Buffer) (i : Nat)
    (hi : i < bw.length) (t : Tile) (ht : TileIn cfg t) :
    ∀ (m : Nat) (y0 : Int) (bi : Buffer), t.startY ≤ y0 → (t.endY - y0).toNat = m →
      ∃ sched, run cfg ⟨o, bw.set i (WorkerPc.rowTest t y0), iw, bq, ⟨ipend, iclosed⟩, bi, oi, false⟩
          sched =
        some ⟨o, bw.set i WorkerPc.waiting, iw, bq, ⟨ipend ++ [t], iclosed⟩,
          storePixels (blurValue cfg.inputImage cfg.width cfg.height cfg.kernelSize) cfg.width bi
            ((List.range m).flatMap fun (ky : Nat) =>
              (List.range (t.endX - t.startX).toNat).map fun (kx : Nat) =>
                (t.startX + (kx : Int), y0 + (ky : Int))), oi, false⟩ := by
  intro m
  induction m with
  | zero =>
    intro y0 bi _ hm
    have hge : ¬ y0 < t.endY := by omega
    refine ⟨[Thread.blur i], run_one cfg ?_⟩
    simp [step, stepBlur, List.getElem?_set_self hi, hge, storePixels, StageQueue.push]
  | succ m ih =>
    intro y0 bi hy0 hm
    have hlt : y0 < t.endY := by omega
    have h1 : step cfg ⟨o, bw.set i (WorkerPc.rowTest t y0), iw, bq, ⟨ipend, iclosed⟩, bi, oi, false⟩
        (Thread.blur i) =
        some ⟨o, bw.set i (WorkerPc.colTest t y0 t.startX), iw, bq, ⟨ipend, iclosed⟩, bi,
          oi, false⟩ := by
      simp [step, stepBlur, List.getElem?_set_self hi, hlt]
    obtain ⟨sched1, hs1⟩ := blur_col cfg hsafe o bw iw bq ⟨ipend, iclosed⟩ oi i hi t y0 ht hy0
      hlt (t.endX - t.startX).toNat t.startX bi (le_refl _) rfl
    obtain ⟨sched2, hs2⟩ := ih (y0 + 1)
      (storePixels (blurValue cfg.inputImage cfg.width cfg.height cfg.kernelSize) cfg.width bi
        ((List.range (t.endX - t.startX).toNat).map fun (k : Nat) =>
          (t.startX + (k : Int), y0))) (by omega) (by omega)
    refine ⟨[Thread.blur i] ++ (sched1 ++ sched2),
      run_append cfg (run_one cfg h1) (run_append cfg hs1 (hs2.trans ?_))⟩
    have hlist : ((List.range (m + 1)).flatMap fun (ky : Nat) =>
          (List.range (t.endX - t.startX).toNat).map fun (kx : Nat) =>
            (t.startX + (kx : Int), y0 + (ky : Int))) =
        ((List.range (t.endX - t.startX).toNat).map fun (k : Nat) =>
          (t.startX + (k : Int), y0)) ++
        ((List.range m).flatMap fun (ky : Nat) =>
          (List.range (t.endX - t.startX).toNat).map fun (kx : Nat) =>
            (t.startX + (kx : Int), y0 + 1 + (ky : Int))) := by
      rw [flatMap_range_succ]
      congr 1
      · simp
      · congr 1
        funext ky
        apply List.map_congr_left
        intro kx _
        rw [Prod.mk.injEq]
        refine ⟨rfl, ?_⟩
        push_cast
        ring
    rw [hlist, storePixels_append]


/-- A waiting blur worker takes the oldest tile, blurs it and hands it over. -/
theorem blur_tile (cfg : Config) (hsafe : NoTrap cfg) (o : OrchPc) (bw iw : List WorkerPc)
    (t : Tile) (ht : TileIn cfg t)
    (rest : List Tile) (closed : Bool) (ipend : List Tile) (iclosed : Bool) (bi oi : Buffer)
    (i : Nat) (hi : i < bw.length) :
    ∃ sched, run cfg ⟨o, bw.set i WorkerPc.waiting, iw, ⟨t :: rest, closed⟩,
        ⟨ipend, iclosed⟩, bi, oi, false⟩ sched =
      some ⟨o, bw.set i WorkerPc.waiting, iw, ⟨rest, closed⟩, ⟨ipend ++ [t], iclosed⟩,
        storePixels (blurValue cfg.inputImage cfg.width cfg.height cfg.kernelSize) cfg.width bi
          (tilePixels t), oi, false⟩ := by
  have h1 : step cfg ⟨o, bw.set i WorkerPc.waiting, iw, ⟨t :: rest, closed⟩,
      ⟨ipend, iclosed⟩, bi, oi, false⟩ (Thread.blur i) =
      some ⟨o, bw.set i (WorkerPc.rowTest t t.startY), iw, ⟨rest, closed⟩, ⟨ipend, iclosed⟩,
        bi, oi, false⟩ := by
    simp [step, stepBlur, List.getElem?_set_self hi, pop_cons]
  obtain ⟨sched, hs⟩ := blur_rows cfg hsafe o bw iw ⟨rest, closed⟩ ipend iclosed oi i hi t ht
    (t.endY - t.startY).toNat t.startY bi (le_refl _) rfl
  exact ⟨[Thread.blur i] ++ sched, run_append cfg (run_one cfg h1) hs⟩

/-- A waiting blur worker drains the blur queue. -/
theorem blur_drain (cfg : Config) (hsafe : NoTrap cfg) (o : OrchPc) (bw iw : List WorkerPc)
    (closed : Bool) (iclosed : Bool) (oi : Buffer) (i : Nat) (hi : i < bw.length) :
    ∀ (ts ipend : List Tile) (bi : Buffer), (∀ t ∈ ts, TileIn cfg t) →
      ∃ sched, run cfg ⟨o, bw.set i WorkerPc.waiting, iw, ⟨ts, closed⟩, ⟨ipend, iclosed⟩,
          bi, oi, false⟩ sched =
        some ⟨o, bw.set i WorkerPc.waiting, iw, ⟨[], closed⟩, ⟨ipend ++ ts, iclosed⟩,
          storePixels (blurValue cfg.inputImage cfg.width cfg.height cfg.kernelSize) cfg.width
            bi (ts.flatMap tilePixels), oi, false⟩ := by
  intro ts
  induction ts with
  | nil =>
    intro ipend bi _
    exact ⟨[], by simp [run, storePixels]⟩
  | cons t rest ih =>
    intro ipend bi hts
    obtain ⟨sched1, hs1⟩ := blur_tile cfg hsafe o bw iw t (hts t (List.mem_cons_self _ _))
      rest closed ipend iclosed bi oi i hi
    obtain ⟨sched2, hs2⟩ := ih (ipend ++ [t])
      (storePixels (blurValue cfg.inputImage cfg.width cfg.height cfg.kernelSize) cfg.width bi
        (tilePixels t)) (fun t2 h2 => hts t2 (List.mem_cons_of_mem _ h2))
    refine ⟨sched1 ++ sched2, run_append cfg hs1 (hs2.trans ?_)⟩
    simp [storePixels_append]

/-- The column loop of an inversion worker, run to its end by that worker
alone. -/
theorem inv_col (cfg : Config) (o : OrchPc) (bw iw : List WorkerPc) (bq iq : StageQueue)
    (bi : Buffer) (i : Nat) (hi : i < iw.length) (t : Tile) (y : Int) :
    ∀ (n : Nat) (x0 : Int) (oi : Buffer), (t.endX - x0).toNat = n →
      ∃ sched, run cfg ⟨o, bw, iw.set i (WorkerPc.colTest t y x0), bq, iq, bi, oi, false⟩ sched =
        some ⟨o, bw, iw.set i (WorkerPc.rowTest t (y + 1)), bq, iq, bi,
          storePixels (fun a b => invertPixel (load bi.data (b * cfg.width + a))) cfg.width oi
            ((List.range n).map fun (k : Nat) => (x0 + (k : Int), y)), false⟩ := by
  intro n
  induction n with
  | zero =>
    intro x0 oi hn
    have hge : ¬ x0 < t.endX := by omega
    refine ⟨[Thread.inversion i], run_one cfg ?_⟩
    simp [step, stepInversion, List.getElem?_set_self hi, hge, storePixels]
  | succ n ih =>
    intro x0 oi hn
    have hlt : x0 < t.endX := by omega
    obtain ⟨sched, hs⟩ := ih (x0 + 1)
      (oi.store (y * cfg.width + x0) (invertPixel (load bi.data (y * cfg.width + x0))))
      (by omega)
    have h1 : step cfg ⟨o, bw, iw.set i (WorkerPc.colTest t y x0), bq, iq, bi, oi, false⟩
        (Thread.inversion i) =
        some ⟨o, bw, iw.set i (WorkerPc.colTest t y (x0 + 1)), bq, iq, bi,
          oi.store (y * cfg.width + x0)
            (invertPixel (load bi.data (y * cfg.width + x0))), false⟩ := by
      simp [step, stepInversion, List.getElem?_set_self hi, hlt]
    refine ⟨[Thread.inversion i] ++ sched, run_append cfg (run_one cfg h1) (hs.trans ?_)⟩
    have hmap : (List.range n).map (fun (k : Nat) => (x0 + 1 + (k : Int), y)) =
        (List.range n).map ((fun (k : Nat) => (x0 + (k : Int), y)) ∘ Nat.succ) := by
      apply List.map_congr_left
      intro k _
      simp only [Function.comp, Nat.succ_eq_add_one, Nat.cast_add, Nat.cast_one, Prod.mk.injEq,
        and_true]
      ring
    rw [List.range_succ_eq_map, List.map_cons, List.map_map, ← hmap]
    simp [storePixels]

/-- The row loop of an inversion worker, run to its end by that worker alone. -/
theorem inv_rows (cfg : Config) (o : OrchPc) (bw iw : List WorkerPc) (bq iq : StageQueue)
    (bi : Buffer) (i : Nat) (hi : i < iw.length) (t : Tile) :
    ∀ (m : Nat) (y0 : Int) (oi : Buffer), (t.endY - y0).toNat = m →
      ∃ sched, run cfg ⟨o, bw, iw.set i (WorkerPc.rowTest t y0), bq, iq, bi, oi, false⟩ sched =
        some ⟨o, bw, iw.set i WorkerPc.waiting, bq, iq, bi,
          storePixels (fun a b => invertPixel (load bi.data (b * cfg.width + a))) cfg.width oi
            ((List.range m).flatMap fun (ky : Nat) =>
              (List.range (t.endX - t.startX).toNat).map fun (kx : Nat) =>
                (t.startX + (kx : Int), y0 + (ky : Int))), false⟩ := by
  intro m
  induction m with
  | zero =>
    intro y0 oi hm
    have hge : ¬ y0 < t.endY := by omega
    refine ⟨[Thread.inversion i], run_one cfg ?_⟩
    simp [step, stepInversion, List.getElem?_set_self hi, hge, storePixels]
  | succ m ih =>
    intro y0 oi hm
    have hlt : y0 < t.endY := by omega
    have h1 : step cfg ⟨o, bw, iw.set i (WorkerPc.rowTest t y0), bq, iq, bi, oi, false⟩
        (Thread.inversion i) =
        some ⟨o, bw, iw.set i (WorkerPc.colTest t y0 t.startX), bq, iq, bi, oi, false⟩ := by
      simp [step, stepInversion, List.getElem?_set_self hi, hlt]
    obtain ⟨sched1, hs1⟩ := inv_col cfg o bw iw bq iq bi i hi t y0
      (t.endX - t.startX).toNat t.startX oi rfl
    obtain ⟨sched2, hs2⟩ := ih (y0 + 1)
      (storePixels (fun a b => invertPixel (load bi.data (b * cfg.width + a))) cfg.width oi
        ((List.range (t.endX - t.startX).toNat).map fun (k : Nat) =>
          (t.startX + (k : Int), y0))) (by omega)
    refine ⟨[Thread.inversion i] ++ (sched1 ++ sched2),
      run_append cfg (run_one cfg h1) (run_append cfg hs1 (hs2.trans ?_))⟩
    have hlist : ((List.range (m + 1)).flatMap fun (ky : Nat) =>
          (List.range (t.endX - t.startX).toNat).map fun (kx : Nat) =>
            (t.startX + (kx : Int), y0 + (ky : Int))) =
        ((List.range (t.endX - t.startX).toNat).map fun (k : Nat) =>
          (t.startX + (k : Int), y0)) ++
        ((List.range m).flatMap fun (ky : Nat) =>
          (List.range (t.endX - t.startX).toNat).map fun (kx : Nat) =>
            (t.startX + (kx : Int), y0 + 1 + (ky : Int))) := by
      rw [flatMap_range_succ]
      congr 1
      · simp
      · congr 1
        funext ky
        apply List.map_congr_left
        intro kx _
        rw [Prod.mk.injEq]
        refine ⟨rfl, ?_⟩
        push_cast
        ring
    rw [hlist, storePixels_append]


/-- A waiting inversion worker takes the oldest tile and inverts it. -/
theorem inv_tile (cfg : Config) (o : OrchPc) (bw iw : List WorkerPc) (bq : StageQueue)
    (t : Tile) (rest : List Tile) (closed : Bool) (bi oi : Buffer)
    (i : Nat) (hi : i < iw.length) :
    ∃ sched, run cfg ⟨o, bw, iw.set i WorkerPc.waiting, bq, ⟨t :: rest, closed⟩, bi, oi,
        false⟩ sched =
      some ⟨o, bw, iw.set i WorkerPc.waiting, bq, ⟨rest, closed⟩, bi,
        storePixels (fun a b => invertPixel (load bi.data (b * cfg.width + a))) cfg.width oi
          (tilePixels t), false⟩ := by
  have h1 : step cfg ⟨o, bw, iw.set i WorkerPc.waiting, bq, ⟨t :: rest, closed⟩, bi, oi, false⟩
      (Thread.inversion i) =
      some ⟨o, bw, iw.set i (WorkerPc.rowTest t t.startY), bq, ⟨rest, closed⟩, bi, oi,
        false⟩ := by
    simp [step, stepInversion, List.getElem?_set_self hi, pop_cons]
  obtain ⟨sched, hs⟩ := inv_rows cfg o bw iw bq ⟨rest, closed⟩ bi i hi t
    (t.endY - t.startY).toNat t.startY oi rfl
  exact ⟨[Thread.inversion i] ++ sched, run_append cfg (run_one cfg h1) hs⟩

/-- A waiting inversion worker drains the inversion queue. -/
theorem inv_drain (cfg : Config) (o : OrchPc) (bw iw : List WorkerPc) (bq : StageQueue)
    (closed : Bool) (bi : Buffer) (i : Nat) (hi : i < iw.length) :
    ∀ (ts : List Tile) (oi : Buffer),
      ∃ sched, run cfg ⟨o, bw, iw.set i WorkerPc.waiting, bq, ⟨ts, closed⟩, bi, oi, false⟩
          sched =
        some ⟨o, bw, iw.set i WorkerPc.waiting, bq, ⟨[], closed⟩, bi,
          storePixels (fun a b => invertPixel (load bi.data (b * cfg.width + a))) cfg.width oi
            (ts.flatMap tilePixels), false⟩ := by
  intro ts
  induction ts with
  | nil =>
    intro oi
    exact ⟨[], by simp [run, storePixels]⟩
  | cons t rest ih =>
    intro oi
    obtain ⟨sched1, hs1⟩ := inv_tile cfg o bw iw bq t rest closed bi oi i hi
    obtain ⟨sched2, hs2⟩ := ih
      (storePixels (fun a b => invertPixel (load bi.data (b * cfg.width + a))) cfg.width oi
        (tilePixels t))
    refine ⟨sched1 ++ sched2, run_append cfg hs1 (hs2.trans ?_)⟩
    simp [storePixels_append]

theorem getElem?_append_cons_length {α : Type} (pre rest : List α) (a : α) :
    (pre ++ a :: rest)[pre.length]? = some a := by
  rw [List.getElem?_append_right (le_refl _)]
  simp

theorem set_append_cons_length {α : Type} (pre rest : List α) (a b : α) :
    (pre ++ a :: rest).set pre.length b = pre ++ b :: rest := by
  induction pre with
  | nil => rfl
  | cons p pre ih => simp [ih]

/-- On a closed and empty blur queue every waiting blur worker leaves its
loop. -/
theorem blur_exit_all (cfg : Config) (o : OrchPc) (iw : List WorkerPc) (iq : StageQueue)
    (bi oi : Buffer) :
    ∀ (k : Nat) (pre : List WorkerPc),
      ∃ sched, run cfg ⟨o, pre ++ List.replicate k WorkerPc.waiting, iw, ⟨[], true⟩, iq, bi,
          oi, false⟩ sched =
        some ⟨o, pre ++ List.replicate k WorkerPc.exited, iw, ⟨[], true⟩, iq, bi, oi, false⟩ := by
  intro k
  induction k with
  | zero => intro pre; exact ⟨[], by simp [run]⟩
  | succ k ih =>
    intro pre
    obtain ⟨sched, hs⟩ := ih (pre ++ [WorkerPc.exited])
    have h1 : step cfg ⟨o, pre ++ List.replicate (k + 1) WorkerPc.waiting, iw, ⟨[], true⟩, iq,
        bi, oi, false⟩ (Thread.blur pre.length) =
        some ⟨o, (pre ++ [WorkerPc.exited]) ++ List.replicate k WorkerPc.waiting, iw,
          ⟨[], true⟩, iq, bi, oi, false⟩ := by
      simp only [step, stepBlur, List.replicate_succ, getElem?_append_cons_length, pop_nil,
        if_true, set_append_cons_length, List.append_assoc, List.singleton_append,
        Bool.false_eq_true, if_false]
    refine ⟨[Thread.blur pre.length] ++ sched, run_append cfg (run_one cfg h1) (hs.trans ?_)⟩
    simp [List.replicate_succ]

/-- On a closed and empty inversion queue every waiting inversion worker
leaves its loop. -/
theorem inv_exit_all (cfg : Config) (o : OrchPc) (bw : List WorkerPc) (bq : StageQueue)
    (bi oi : Buffer) :
    ∀ (k : Nat) (pre : List WorkerPc),
      ∃ sched, run cfg ⟨o, bw, pre ++ List.replicate k WorkerPc.waiting, bq, ⟨[], true⟩, bi,
          oi, false⟩ sched =
        some ⟨o, bw, pre ++ List.replicate k WorkerPc.exited, bq, ⟨[], true⟩, bi, oi, false⟩ := by
  intro k
  induction k with
  | zero => intro pre; exact ⟨[], by simp [run]⟩
  | succ k ih =>
    intro pre
    obtain ⟨sched, hs⟩ := ih (pre ++ [WorkerPc.exited])
    have h1 : step cfg ⟨o, bw, pre ++ List.replicate (k + 1) WorkerPc.waiting, bq, ⟨[], true⟩,
        bi, oi, false⟩ (Thread.inversion pre.length) =
        some ⟨o, bw, (pre ++ [WorkerPc.exited]) ++ List.replicate k WorkerPc.waiting, bq,
          ⟨[], true⟩, bi, oi, false⟩ := by
      simp only [step, stepInversion, List.replicate_succ, getElem?_append_cons_length,
        pop_nil, if_true, set_append_cons_length, List.append_assoc, List.singleton_append,
        Bool.false_eq_true, if_false]
    refine ⟨[Thread.inversion pre.length] ++ sched,
      run_append cfg (run_one cfg h1) (hs.trans ?_)⟩
    simp [List.replicate_succ]

theorem replicate_set_zero {α : Type} (n : Nat) (a : α) :
    (List.replicate n a).set 0 a = List.replicate n a := by
  cases n with
  | zero => rfl
  | succ n => simp [List.replicate_succ]

theorem allExited_replicate (n : Nat) : allExited (List.replicate n WorkerPc.exited) = true := by
  rw [allExited_iff]
  intro pc hpc
  exact List.eq_of_mem_replicate hpc


/-- The serial execution of a call that finds fresh globals: the orchestrator
enqueues every tile and closes the blur queue, blur worker 0 drains it, all
blur workers leave, the orchestrator closes the inversion queue, inversion
worker 0 drains it, all inversion workers leave, and `process` returns. -/
theorem serial_run (cfg : Config) (hsz : WellSized cfg) (outputImage : List Pixel)
    (hn : 1 ≤ cfg.numThreads) :
    ∃ sched, runProcess cfg freshGlobals outputImage sched =
      some ⟨OrchPc.done, List.replicate cfg.numThreads WorkerPc.exited,
        List.replicate cfg.numThreads WorkerPc.exited, ⟨[], true⟩, ⟨[], true⟩,
        storePixels (blurValue cfg.inputImage cfg.width cfg.height cfg.kernelSize) cfg.width
          ⟨List.replicate (cfg.width * cfg.height).toNat default, []⟩
          ((gridTiles cfg.width cfg.height cfg.tileSize).flatMap tilePixels),
        storePixels
          (fun a b => invertPixel (load
            (storePixels (blurValue cfg.inputImage cfg.width cfg.height cfg.kernelSize) cfg.width
              ⟨List.replicate (cfg.width * cfg.height).toNat default, []⟩
              ((gridTiles cfg.width cfg.height cfg.tileSize).flatMap tilePixels)).data
            (b * cfg.width + a)))
          cfg.width ⟨outputImage, []⟩
          ((gridTiles cfg.width cfg.height cfg.tileSize).flatMap tilePixels), false⟩ := by
  have hT := hsz.tilePos
  have hsafe := noTrap_of_wellSized cfg hsz
  have h0 : 0 ≤ cfg.width * cfg.height := le_of_lt (mul_pos hsz.widthPos hsz.heightPos)
  have hlen : 0 < (List.replicate cfg.numThreads WorkerPc.waiting).length := by
    simp; omega
  have hinit := initPipeline_fresh cfg outputImage h0 hsz.area
  have htiles : ∀ t ∈ gridTiles cfg.width cfg.height cfg.tileSize, TileIn cfg t := by
    intro t ht
    have hs := grid_tile_inside hT ht
    exact ⟨hs.1, hs.2.2.1, hs.2.2.2.1, hs.2.2.2.2.2.1⟩
  obtain ⟨sc1, h1⟩ := orch_enqueue cfg hT hsz.widthTile hsz.heightTile
    (List.replicate cfg.numThreads WorkerPc.waiting)
    (List.replicate cfg.numThreads WorkerPc.waiting) ⟨[], false⟩
    ⟨List.replicate (cfg.width * cfg.height).toNat default, []⟩ ⟨outputImage, []⟩
  obtain ⟨sc2, h2⟩ := blur_drain cfg hsafe OrchPc.joinBlur
    (List.replicate cfg.numThreads WorkerPc.waiting)
    (List.replicate cfg.numThreads WorkerPc.waiting) true false ⟨outputImage, []⟩ 0 hlen
    (gridTiles cfg.width cfg.height cfg.tileSize) []
    ⟨List.replicate (cfg.width * cfg.height).toNat default, []⟩ htiles
  rw [replicate_set_zero, List.nil_append] at h2
  generalize hB : storePixels (blurValue cfg.inputImage cfg.width cfg.height cfg.kernelSize)
    cfg.width ⟨List.replicate (cfg.width * cfg.height).toNat default, []⟩
    ((gridTiles cfg.width cfg.height cfg.tileSize).flatMap tilePixels) = B at h2 ⊢
  obtain ⟨sc3, h3⟩ := blur_exit_all cfg OrchPc.joinBlur
    (List.replicate cfg.numThreads WorkerPc.waiting)
    ⟨gridTiles cfg.width cfg.height cfg.tileSize, false⟩ B ⟨outputImage, []⟩
    cfg.numThreads []
  rw [List.nil_append, List.nil_append] at h3
  have h4 : run cfg ⟨OrchPc.joinBlur, List.replicate cfg.numThreads WorkerPc.exited,
      List.replicate cfg.numThreads WorkerPc.waiting, ⟨[], true⟩,
      ⟨gridTiles cfg.width cfg.height cfg.tileSize, false⟩, B, ⟨outputImage, []⟩, false⟩
      [Thread.orchestrator, Thread.orchestrator] =
      some ⟨OrchPc.joinInversion, List.replicate cfg.numThreads WorkerPc.exited,
        List.replicate cfg.numThreads WorkerPc.waiting, ⟨[], true⟩,
        ⟨gridTiles cfg.width cfg.height cfg.tileSize, true⟩, B, ⟨outputImage, []⟩, false⟩ := by
    simp [run, step, stepOrchestrator, allExited_replicate, StageQueue.close]
  obtain ⟨sc5, h5⟩ := inv_drain cfg OrchPc.joinInversion
    (List.replicate cfg.numThreads WorkerPc.exited)
    (List.replicate cfg.numThreads WorkerPc.waiting) ⟨[], true⟩ true B 0 hlen
    (gridTiles cfg.width cfg.height cfg.tileSize) ⟨outputImage, []⟩
  rw [replicate_set_zero] at h5
  generalize storePixels (fun a b => invertPixel (load B.data (b * cfg.width + a))) cfg.width
    ⟨outputImage, []⟩ ((gridTiles cfg.width cfg.height cfg.tileSize).flatMap tilePixels) = O
    at h5 ⊢
  obtain ⟨sc6, h6⟩ := inv_exit_all cfg OrchPc.joinInversion
    (List.replicate cfg.numThreads WorkerPc.exited) ⟨[], true⟩ B O cfg.numThreads []
  rw [List.nil_append, List.nil_append] at h6
  have h7 : run cfg ⟨OrchPc.joinInversion, List.replicate cfg.numThreads WorkerPc.exited,
      List.replicate cfg.numThreads WorkerPc.exited, ⟨[], true⟩, ⟨[], true⟩, B, O, false⟩
      [Thread.orchestrator] =
      some ⟨OrchPc.done, List.replicate cfg.numThreads WorkerPc.exited,
        List.replicate cfg.numThreads WorkerPc.exited, ⟨[], true⟩, ⟨[], true⟩, B, O, false⟩ := by
    simp [run, step, stepOrchestrator, allExited_replicate]
  refine ⟨sc1 ++ (sc2 ++ (sc3 ++ ([Thread.orchestrator, Thread.orchestrator] ++
    (sc5 ++ (sc6 ++ [Thread.orchestrator]))))), ?_⟩
  unfold runProcess
  rw [hinit]
  exact run_append cfg h1 (run_append cfg h2 (run_append cfg h3 (run_append cfg h4
    (run_append cfg h5 (run_append cfg h6 h7)))))

/-- From any point of the inner enqueue loop the orchestrator reaches the end
of the loop. -/
theorem orch_row_any (cfg : Config) (hT : 0 < cfg.tileSize)
    (hWT : cfg.width + cfg.tileSize ≤ 2147483647) (startY : Int)
    (bw iw : List WorkerPc) (closed : Bool) (iq : StageQueue) (bi oi : Buffer) :
    ∀ (m : Nat) (startX : Int) (pend : List Tile), 0 ≤ startX →
      (cfg.width - startX).toNat ≤ m →
      ∃ sched pend1, run cfg ⟨OrchPc.innerTest startY startX, bw, iw, ⟨pend, closed⟩, iq, bi,
          oi, false⟩ sched =
        some ⟨OrchPc.outerTest (wrapInt (startY + cfg.tileSize)), bw, iw, ⟨pend1, closed⟩, iq,
          bi, oi, false⟩ := by
  intro m
  induction m with
  | zero =>
    intro startX pend _ hm
    have hge : ¬ startX < cfg.width := by omega
    refine ⟨[Thread.orchestrator], pend, run_one cfg ?_⟩
    simp [step, stepOrchestrator, hge]
  | succ m ih =>
    intro startX pend hx0 hm
    by_cases hlt : startX < cfg.width
    · have hwrap : wrapInt (startX + cfg.tileSize) = startX + cfg.tileSize :=
        wrapInt_of_range (by omega) (by omega)
      obtain ⟨sched, pend1, hs⟩ := ih (startX + cfg.tileSize)
        (pend ++ [mkTile cfg.width cfg.height cfg.tileSize startX startY]) (by omega) (by omega)
      have h1 : step cfg ⟨OrchPc.innerTest startY startX, bw, iw, ⟨pend, closed⟩, iq, bi, oi,
          false⟩ Thread.orchestrator =
          some ⟨OrchPc.innerTest startY (startX + cfg.tileSize), bw, iw,
            ⟨pend ++ [mkTile cfg.width cfg.height cfg.tileSize startX startY], closed⟩, iq,
            bi, oi, false⟩ := by
        simp only [step, stepOrchestrator, if_pos hlt, StageQueue.push, hwrap,
          Bool.false_eq_true, if_false]
      exact ⟨[Thread.orchestrator] ++ sched, pend1, run_append cfg (run_one cfg h1) hs⟩
    · refine ⟨[Thread.orchestrator], pend, run_one cfg ?_⟩
      simp [step, stepOrchestrator, hlt]

/-- From any point of the outer enqueue loop the orchestrator reaches the
closing of the blur queue. -/
theorem orch_rows_any (cfg : Config) (hT : 0 < cfg.tileSize)
    (hWT : cfg.width + cfg.tileSize ≤ 2147483647) (hHT : cfg.height + cfg.tileSize ≤ 2147483647)
    (bw iw : List WorkerPc) (closed : Bool) (iq : StageQueue) (bi oi : Buffer) :
    ∀ (m : Nat) (startY : Int) (pend : List Tile), 0 ≤ startY →
      (cfg.height - startY).toNat ≤ m →
      ∃ sched pend1, run cfg ⟨OrchPc.outerTest startY, bw, iw, ⟨pend, closed⟩, iq, bi, oi,
          false⟩ sched =
        some ⟨OrchPc.closeBlur, bw, iw, ⟨pend1, closed⟩, iq, bi, oi, false⟩ := by
  intro m
  induction m with
  | zero =>
    intro startY pend _ hm
    have hge : ¬ startY < cfg.height := by omega
    refine ⟨[Thread.orchestrator], pend, run_one cfg ?_⟩
    simp [step, stepOrchestrator, hge]
  | succ m ih =>
    intro startY pend hy0 hm
    by_cases hlt : startY < cfg.height
    · have hwrap : wrapInt (startY + cfg.tileSize) = startY + cfg.tileSize :=
        wrapInt_of_range (by omega) (by omega)
      have h1 : step cfg ⟨OrchPc.outerTest startY, bw, iw, ⟨pend, closed⟩, iq, bi, oi, false⟩
          Thread.orchestrator =
          some ⟨OrchPc.innerTest startY 0, bw, iw, ⟨pend, closed⟩, iq, bi, oi, false⟩ := by
        simp only [step, stepOrchestrator, if_pos hlt, Bool.false_eq_true, if_false]
      obtain ⟨sched1, pend1, hs1⟩ := orch_row_any cfg hT hWT startY bw iw closed iq bi oi
        (cfg.width - 0).toNat 0 pend (le_refl _) (le_refl _)
      rw [hwrap] at hs1
      obtain ⟨sched2, pend2, hs2⟩ := ih (startY + cfg.tileSize) pend1 (by omega) (by omega)
      exact ⟨[Thread.orchestrator] ++ (sched1 ++ sched2), pend2,
        run_append cfg (run_one cfg h1) (run_append cfg hs1 hs2)⟩
    · refine ⟨[Thread.orchestrator], pend, run_one cfg ?_⟩
      simp [step, stepOrchestrator, hlt]

/-- A blur worker, wherever it stands, finishes its tile, drains the closed
blur queue and leaves its loop. -/
theorem blur_finish (cfg : Config) (hsafe : NoTrap cfg) (o : OrchPc)
    (pre post iw : List WorkerPc)
    (icl : Bool) (oi : Buffer) (pc : WorkerPc) (pend ipend : List Tile) (bi : Buffer)
    (hex : pc = WorkerPc.exited → pend = []) (hpc : WorkerOK cfg pc)
    (hpend : ∀ t ∈ pend, TileIn cfg t) :
    ∃ sched ipend1 bi1, run cfg ⟨o, pre ++ pc :: post, iw, ⟨pend, true⟩, ⟨ipend, icl⟩, bi,
        oi, false⟩ sched =
      some ⟨o, pre ++ WorkerPc.exited :: post, iw, ⟨[], true⟩, ⟨ipend1, icl⟩, bi1, oi, false⟩ := by
  have hi : pre.length < (pre ++ WorkerPc.waiting :: post).length := by simp
  have hset : ∀ x : WorkerPc,
      (pre ++ WorkerPc.waiting :: post).set pre.length x = pre ++ x :: post :=
    fun x => set_append_cons_length pre post WorkerPc.waiting x
  -- from the top of the loop
  have hwait : ∀ (pend ipend : List Tile) (bi : Buffer), (∀ t ∈ pend, TileIn cfg t) →
      ∃ sched ipend1 bi1, run cfg ⟨o, pre ++ WorkerPc.waiting :: post, iw, ⟨pend, true⟩,
          ⟨ipend, icl⟩, bi, oi, false⟩ sched =
        some ⟨o, pre ++ WorkerPc.exited :: post, iw, ⟨[], true⟩, ⟨ipend1, icl⟩, bi1, oi,
          false⟩ := by
    intro pend ipend bi hpend
    obtain ⟨sched, hs⟩ := blur_drain cfg hsafe o (pre ++ WorkerPc.waiting :: post) iw true icl
      oi pre.length hi pend ipend bi hpend
    rw [hset] at hs
    have h1 : ∀ B : Buffer, step cfg ⟨o, pre ++ WorkerPc.waiting :: post, iw, ⟨[], true⟩,
        ⟨ipend ++ pend, icl⟩, B, oi, false⟩ (Thread.blur pre.length) =
        some ⟨o, pre ++ WorkerPc.exited :: post, iw, ⟨[], true⟩, ⟨ipend ++ pend, icl⟩, B, oi,
          false⟩ := by
      intro B
      simp only [step, stepBlur, getElem?_append_cons_length, pop_nil, if_true,
        set_append_cons_length, Bool.false_eq_true, if_false]
    exact ⟨sched ++ [Thread.blur pre.length], _, _, run_append cfg hs (run_one cfg (h1 _))⟩
  -- from a row test
  have hrow : ∀ (t : Tile) (y0 : Int) (pend ipend : List Tile) (bi : Buffer), TileIn cfg t →
      t.startY ≤ y0 → (∀ t ∈ pend, TileIn cfg t) →
      ∃ sched ipend1 bi1, run cfg ⟨o, pre ++ WorkerPc.rowTest t y0 :: post, iw, ⟨pend, true⟩,
          ⟨ipend, icl⟩, bi, oi, false⟩ sched =
        some ⟨o, pre ++ WorkerPc.exited :: post, iw, ⟨[], true⟩, ⟨ipend1, icl⟩, bi1, oi,
          false⟩ := by
    intro t y0 pend ipend bi ht hy0 hpend
    obtain ⟨sched1, hs1⟩ := blur_rows cfg hsafe o (pre ++ WorkerPc.waiting :: post) iw
      ⟨pend, true⟩ ipend icl oi pre.length hi t ht (t.endY - y0).toNat y0 bi hy0 rfl
    rw [hset, hset] at hs1
    obtain ⟨sched2, ipend1, bi1, hs2⟩ := hwait pend (ipend ++ [t]) _ hpend
    exact ⟨sched1 ++ sched2, ipend1, bi1, run_append cfg hs1 hs2⟩
  cases pc with
  | waiting => exact hwait pend ipend bi hpend
  | rowTest t y0 => exact hrow t y0 pend ipend bi hpc.1 hpc.2 hpend
  | colTest t y x0 =>
    obtain ⟨ht, hy0, hy1, hx0⟩ := hpc
    obtain ⟨sched1, hs1⟩ := blur_col cfg hsafe o (pre ++ WorkerPc.waiting :: post) iw
      ⟨pend, true⟩ ⟨ipend, icl⟩ oi pre.length hi t y ht hy0 hy1 (t.endX - x0).toNat x0 bi hx0 rfl
    rw [hset, hset] at hs1
    obtain ⟨sched2, ipend1, bi1, hs2⟩ := hrow t (y + 1) pend ipend _ ht (by omega) hpend
    exact ⟨sched1 ++ sched2, ipend1, bi1, run_append cfg hs1 hs2⟩
  | exited =>
    rw [hex rfl]
    exact ⟨[], ipend, bi, rfl⟩

/-- All blur workers finish and leave once the blur queue is closed. -/
theorem blur_finish_all (cfg : Config) (hsafe : NoTrap cfg) (o : OrchPc) (iw : List WorkerPc)
    (icl : Bool) (oi : Buffer) :
    ∀ (post pre : List WorkerPc) (pend ipend : List Tile) (bi : Buffer),
      (WorkerPc.exited ∈ post → pend = []) → (∀ pc ∈ post, WorkerOK cfg pc) →
      (∀ t ∈ pend, TileIn cfg t) →
      ∃ sched pend1 ipend1 bi1, run cfg ⟨o, pre ++ post, iw, ⟨pend, true⟩, ⟨ipend, icl⟩, bi,
          oi, false⟩ sched =
        some ⟨o, pre ++ List.replicate post.length WorkerPc.exited, iw, ⟨pend1, true⟩,
          ⟨ipend1, icl⟩, bi1, oi, false⟩ := by
  intro post
  induction post with
  | nil =>
    intro pre pend ipend bi _ _ _
    exact ⟨[], pend, ipend, bi, by simp [run]⟩
  | cons pc post ih =>
    intro pre pend ipend bi hex hok hpend
    obtain ⟨sched1, ipend1, bi1, hs1⟩ := blur_finish cfg hsafe o pre post iw icl oi pc pend
      ipend bi (fun h => hex (by rw [h]; exact List.mem_cons_self _ _))
      (hok pc (List.mem_cons_self _ _)) hpend
    obtain ⟨sched2, pend2, ipend2, bi2, hs2⟩ := ih (pre ++ [WorkerPc.exited]) [] ipend1 bi1
      (fun _ => rfl) (fun pc2 h2 => hok pc2 (List.mem_cons_of_mem _ h2))
      (fun t ht => absurd ht (by simp))
    refine ⟨sched1 ++ sched2, pend2, ipend2, bi2, run_append cfg hs1 ?_⟩
    have e1 : pre ++ WorkerPc.exited :: post = pre ++ [WorkerPc.exited] ++ post := by simp
    have e2 : pre ++ List.replicate (pc :: post).length WorkerPc.exited =
        pre ++ [WorkerPc.exited] ++ List.replicate post.length WorkerPc.exited := by
      simp [List.replicate_succ]
    rw [e1, e2]
    exact hs2


/-- An inversion worker, wherever it stands, finishes its tile, drains the
closed inversion queue and leaves its loop. -/
theorem inv_finish (cfg : Config) (o : OrchPc) (bw pre post : List WorkerPc)
    (bq : StageQueue) (bi : Buffer) (pc : WorkerPc) (ipend : List Tile) (oi : Buffer)
    (hex : pc = WorkerPc.exited → ipend = []) :
    ∃ sched oi1, run cfg ⟨o, bw, pre ++ pc :: post, bq, ⟨ipend, true⟩, bi, oi, false⟩ sched =
      some ⟨o, bw, pre ++ WorkerPc.exited :: post, bq, ⟨[], true⟩, bi, oi1, false⟩ := by
  have hi : pre.length < (pre ++ WorkerPc.waiting :: post).length := by simp
  have hset : ∀ x : WorkerPc,
      (pre ++ WorkerPc.waiting :: post).set pre.length x = pre ++ x :: post :=
    fun x => set_append_cons_length pre post WorkerPc.waiting x
  have hwait : ∀ (ipend : List Tile) (oi : Buffer),
      ∃ sched oi1, run cfg ⟨o, bw, pre ++ WorkerPc.waiting :: post, bq, ⟨ipend, true⟩, bi,
          oi, false⟩ sched =
        some ⟨o, bw, pre ++ WorkerPc.exited :: post, bq, ⟨[], true⟩, bi, oi1, false⟩ := by
    intro ipend oi
    obtain ⟨sched, hs⟩ := inv_drain cfg o bw (pre ++ WorkerPc.waiting :: post) bq true bi
      pre.length hi ipend oi
    rw [hset] at hs
    have h1 : ∀ O : Buffer, step cfg ⟨o, bw, pre ++ WorkerPc.waiting :: post, bq, ⟨[], true⟩,
        bi, O, false⟩ (Thread.inversion pre.length) =
        some ⟨o, bw, pre ++ WorkerPc.exited :: post, bq, ⟨[], true⟩, bi, O, false⟩ := by
      intro O
      simp only [step, stepInversion, getElem?_append_cons_length, pop_nil, if_true,
        set_append_cons_length, Bool.false_eq_true, if_false]
    exact ⟨sched ++ [Thread.inversion pre.length], _, run_append cfg hs (run_one cfg (h1 _))⟩
  have hrow : ∀ (t : Tile) (y0 : Int) (ipend : List Tile) (oi : Buffer),
      ∃ sched oi1, run cfg ⟨o, bw, pre ++ WorkerPc.rowTest t y0 :: post, bq, ⟨ipend, true⟩,
          bi, oi, false⟩ sched =
        some ⟨o, bw, pre ++ WorkerPc.exited :: post, bq, ⟨[], true⟩, bi, oi1, false⟩ := by
    intro t y0 ipend oi
    obtain ⟨sched1, hs1⟩ := inv_rows cfg o bw (pre ++ WorkerPc.waiting :: post) bq
      ⟨ipend, true⟩ bi pre.length hi t (t.endY - y0).toNat y0 oi rfl
    rw [hset, hset] at hs1
    obtain ⟨sched2, oi1, hs2⟩ := hwait ipend _
    exact ⟨sched1 ++ sched2, oi1, run_append cfg hs1 hs2⟩
  cases pc with
  | waiting => exact hwait ipend oi
  | rowTest t y0 => exact hrow t y0 ipend oi
  | colTest t y x0 =>
    obtain ⟨sched1, hs1⟩ := inv_col cfg o bw (pre ++ WorkerPc.waiting :: post) bq
      ⟨ipend, true⟩ bi pre.length hi t y (t.endX - x0).toNat x0 oi rfl
    rw [hset, hset] at hs1
    obtain ⟨sched2, oi1, hs2⟩ := hrow t (y + 1) ipend _
    exact ⟨sched1 ++ sched2, oi1, run_append cfg hs1 hs2⟩
  | exited =>
    rw [hex rfl]
    exact ⟨[], oi, rfl⟩

/-- All inversion workers finish and leave once the inversion queue is
closed. -/
theorem inv_finish_all (cfg : Config) (o : OrchPc) (bw : List WorkerPc) (bq : StageQueue)
    (bi : Buffer) :
    ∀ (post pre : List WorkerPc) (ipend : List Tile) (oi : Buffer),
      (WorkerPc.exited ∈ post → ipend = []) →
      ∃ sched ipend1 oi1, run cfg ⟨o, bw, pre ++ post, bq, ⟨ipend, true⟩, bi, oi, false⟩ sched =
        some ⟨o, bw, pre ++ List.replicate post.length WorkerPc.exited, bq, ⟨ipend1, true⟩,
          bi, oi1, false⟩ := by
  intro post
  induction post with
  | nil =>
    intro pre ipend oi _
    exact ⟨[], ipend, oi, by simp [run]⟩
  | cons pc post ih =>
    intro pre ipend oi hex
    obtain ⟨sched1, oi1, hs1⟩ := inv_finish cfg o bw pre post bq bi pc ipend oi
      (fun h => hex (by rw [h]; exact List.mem_cons_self _ _))
    obtain ⟨sched2, ipend2, oi2, hs2⟩ := ih (pre ++ [WorkerPc.exited]) [] oi1 (fun _ => rfl)
    refine ⟨sched1 ++ sched2, ipend2, oi2, run_append cfg hs1 ?_⟩
    have e1 : pre ++ WorkerPc.exited :: post = pre ++ [WorkerPc.exited] ++ post := by simp
    have e2 : pre ++ List.replicate (pc :: post).length WorkerPc.exited =
        pre ++ [WorkerPc.exited] ++ List.replicate post.length WorkerPc.exited := by
      simp [List.replicate_succ]
    rw [e1, e2]
    exact hs2


/-- Completion from the join of the inversion workers. -/
theorem complete_from_joinInversion (cfg : Config) (bw iw : List WorkerPc) (bq : StageQueue)
    (ipend : List Tile) (bi oi : Buffer) (hex : WorkerPc.exited ∈ iw → ipend = []) :
    ∃ sched s1, run cfg ⟨OrchPc.joinInversion, bw, iw, bq, ⟨ipend, true⟩, bi, oi, false⟩ sched =
      some s1 ∧ s1.orch = OrchPc.done := by
  obtain ⟨sched, ipend1, oi1, hs⟩ := inv_finish_all cfg OrchPc.joinInversion bw bq bi iw []
    ipend oi hex
  rw [List.nil_append, List.nil_append] at hs
  have h1 : step cfg ⟨OrchPc.joinInversion, bw, List.replicate iw.length WorkerPc.exited, bq,
      ⟨ipend1, true⟩, bi, oi1, false⟩ Thread.orchestrator =
      some ⟨OrchPc.done, bw, List.replicate iw.length WorkerPc.exited, bq, ⟨ipend1, true⟩,
        bi, oi1, false⟩ := by
    simp [step, stepOrchestrator, allExited_replicate]
  exact ⟨sched ++ [Thread.orchestrator], _, run_append cfg hs (run_one cfg h1), rfl⟩

/-- Completion from the closing of the inversion queue. -/
theorem complete_from_closeInversion (cfg : Config) (bw iw : List WorkerPc) (bq : StageQueue)
    (ipend : List Tile) (icl : Bool) (bi oi : Buffer) (hno : WorkerPc.exited ∉ iw) :
    ∃ sched s1, run cfg ⟨OrchPc.closeInversion, bw, iw, bq, ⟨ipend, icl⟩, bi, oi, false⟩ sched =
      some s1 ∧ s1.orch = OrchPc.done := by
  have h1 : step cfg ⟨OrchPc.closeInversion, bw, iw, bq, ⟨ipend, icl⟩, bi, oi, false⟩
      Thread.orchestrator =
      some ⟨OrchPc.joinInversion, bw, iw, bq, ⟨ipend, true⟩, bi, oi, false⟩ := by
    simp [step, stepOrchestrator, StageQueue.close]
  obtain ⟨sched, s1, hs, hd⟩ := complete_from_joinInversion cfg bw iw bq ipend bi oi
    (fun h => absurd h hno)
  exact ⟨[Thread.orchestrator] ++ sched, s1, run_append cfg (run_one cfg h1) hs, hd⟩

/-- Completion from the join of the blur workers. -/
theorem complete_from_joinBlur (cfg : Config) (hsafe : NoTrap cfg) (bw iw : List WorkerPc)
    (pend ipend : List Tile)
    (icl : Bool) (bi oi : Buffer) (hex : WorkerPc.exited ∈ bw → pend = [])
    (hno : WorkerPc.exited ∉ iw) (hok : ∀ pc ∈ bw, WorkerOK cfg pc)
    (hpend : ∀ t ∈ pend, TileIn cfg t) :
    ∃ sched s1, run cfg ⟨OrchPc.joinBlur, bw, iw, ⟨pend, true⟩, ⟨ipend, icl⟩, bi, oi, false⟩ sched =
      some s1 ∧ s1.orch = OrchPc.done := by
  obtain ⟨sched, pend1, ipend1, bi1, hs⟩ := blur_finish_all cfg hsafe OrchPc.joinBlur iw icl oi
    bw [] pend ipend bi hex hok hpend
  rw [List.nil_append, List.nil_append] at hs
  have h1 : step cfg ⟨OrchPc.joinBlur, List.replicate bw.length WorkerPc.exited, iw,
      ⟨pend1, true⟩, ⟨ipend1, icl⟩, bi1, oi, false⟩ Thread.orchestrator =
      some ⟨OrchPc.closeInversion, List.replicate bw.length WorkerPc.exited, iw,
        ⟨pend1, true⟩, ⟨ipend1, icl⟩, bi1, oi, false⟩ := by
    simp [step, stepOrchestrator, allExited_replicate]
  obtain ⟨sched2, s1, hs2, hd⟩ := complete_from_closeInversion cfg
    (List.replicate bw.length WorkerPc.exited) iw ⟨pend1, true⟩ ipend1 icl bi1 oi hno
  exact ⟨sched ++ ([Thread.orchestrator] ++ sched2), s1,
    run_append cfg hs (run_append cfg (run_one cfg h1) hs2), hd⟩

/-- Completion from the closing of the blur queue. -/
theorem complete_from_closeBlur (cfg : Config) (hsafe : NoTrap cfg) (bw iw : List WorkerPc)
    (pend ipend : List Tile)
    (bcl icl : Bool) (bi oi : Buffer) (hnob : WorkerPc.exited ∉ bw)
    (hno : WorkerPc.exited ∉ iw) (hok : ∀ pc ∈ bw, WorkerOK cfg pc)
    (hpend : ∀ t ∈ pend, TileIn cfg t) :
    ∃ sched s1, run cfg ⟨OrchPc.closeBlur, bw, iw, ⟨pend, bcl⟩, ⟨ipend, icl⟩, bi, oi, false⟩ sched =
      some s1 ∧ s1.orch = OrchPc.done := by
  have h1 : step cfg ⟨OrchPc.closeBlur, bw, iw, ⟨pend, bcl⟩, ⟨ipend, icl⟩, bi, oi, false⟩
      Thread.orchestrator =
      some ⟨OrchPc.joinBlur, bw, iw, ⟨pend, true⟩, ⟨ipend, icl⟩, bi, oi, false⟩ := by
    simp [step, stepOrchestrator, StageQueue.close]
  obtain ⟨sched, s1, hs, hd⟩ := complete_from_joinBlur cfg hsafe bw iw pend ipend icl bi oi
    (fun h => absurd h hnob) hno hok hpend
  exact ⟨[Thread.orchestrator] ++ sched, s1, run_append cfg (run_one cfg h1) hs, hd⟩


/-- No state that satisfies the invariant is stuck: some continuation of the
schedule lets `process` return. -/
theorem complete_from_inv (cfg : Config) (hsz : WellSized cfg) (s : Pipeline)
    (hinv : Inv cfg s) : ∃ sched s1, run cfg s sched = some s1 ∧ s1.orch = OrchPc.done := by
  have hT := hsz.tilePos
  have hWT := hsz.widthTile
  have hHT := hsz.heightTile
  have hsafe := noTrap_of_wellSized cfg hsz
  -- once the enqueue loops are over
  have hclose : ∀ s2 : Pipeline, Inv cfg s2 → s2.orch = OrchPc.closeBlur →
      ∃ sched s1, run cfg s2 sched = some s1 ∧ s1.orch = OrchPc.done := by
    rintro ⟨orch, bw, iw, ⟨pend, bcl⟩, ⟨ipend, icl⟩, bi, oi, killed⟩ hinv2 horch
    have hk := hinv2.alive
    have hbf := hinv2.blurFlag
    have hif := hinv2.invFlag
    have hbe := hinv2.blurExit
    have hie := hinv2.invExit
    simp only at horch hk hbf hif hbe hie
    subst horch hk
    simp only [afterBlurClose, afterInversionClose] at hbf hif
    have hnob : WorkerPc.exited ∉ bw := by
      intro hmem
      have := (hbe hmem).1
      rw [hbf] at this
      exact absurd this (by simp)
    have hno : WorkerPc.exited ∉ iw := by
      intro hmem
      have := (hie hmem).1
      rw [hif] at this
      exact absurd this (by simp)
    exact complete_from_closeBlur cfg hsafe bw iw pend ipend bcl icl bi oi hnob hno
      (fun pc hpc => (hinv2.blurW pc hpc).1) hinv2.blurQ
  obtain ⟨orch, bw, iw, ⟨pend, bcl⟩, ⟨ipend, icl⟩, bi, oi, killed⟩ := s
  have hk := hinv.alive
  have hok := hinv.orchOK
  have hbf := hinv.blurFlag
  have hif := hinv.invFlag
  have hbe := hinv.blurExit
  have hie := hinv.invExit
  simp only at hk hok hbf hif hbe hie
  subst hk
  have hno : icl = false → WorkerPc.exited ∉ iw := by
    intro hcl hmem
    have := (hie hmem).1
    rw [hcl] at this
    exact absurd this (by simp)
  cases orch with
  | outerTest startY =>
    simp only [OrchOK] at hok
    obtain ⟨sched1, pend1, hs1⟩ := orch_rows_any cfg hT hWT hHT bw iw bcl ⟨ipend, icl⟩ bi oi
      (cfg.height - startY).toNat startY pend hok (le_refl _)
    obtain ⟨sched2, s1, hs2, hd⟩ := hclose _
      (inv_run cfg hT hWT hHT hsafe sched1 _ _ hinv hs1) rfl
    exact ⟨sched1 ++ sched2, s1, run_append cfg hs1 hs2, hd⟩
  | innerTest startY startX =>
    simp only [OrchOK] at hok
    obtain ⟨sched0, pend0, hs0⟩ := orch_row_any cfg hT hWT startY bw iw bcl ⟨ipend, icl⟩ bi oi
      (cfg.width - startX).toNat startX pend hok.2.2 (le_refl _)
    rw [wrapInt_of_range (z := startY + cfg.tileSize) (by omega) (by omega)] at hs0
    obtain ⟨sched1, pend1, hs1⟩ := orch_rows_any cfg hT hWT hHT bw iw bcl ⟨ipend, icl⟩ bi oi
      (cfg.height - (startY + cfg.tileSize)).toNat (startY + cfg.tileSize) pend0 (by omega)
      (le_refl _)
    have hs01 := run_append cfg hs0 hs1
    obtain ⟨sched2, s1, hs2, hd⟩ := hclose _
      (inv_run cfg hT hWT hHT hsafe (sched0 ++ sched1) _ _ hinv hs01) rfl
    exact ⟨(sched0 ++ sched1) ++ sched2, s1, run_append cfg hs01 hs2, hd⟩
  | closeBlur => exact hclose _ hinv rfl
  | joinBlur =>
    simp only [afterBlurClose, afterInversionClose] at hbf hif
    subst hbf
    exact complete_from_joinBlur cfg hsafe bw iw pend ipend icl bi oi (fun h => (hbe h).2)
      (hno hif) (fun pc hpc => (hinv.blurW pc hpc).1) hinv.blurQ
  | closeInversion =>
    simp only [afterBlurClose, afterInversionClose] at hbf hif
    exact complete_from_closeInversion cfg bw iw ⟨pend, bcl⟩ ipend icl bi oi (hno hif)
  | joinInversion =>
    simp only [afterBlurClose, afterInversionClose] at hbf hif
    subst hif
    exact complete_from_joinInversion cfg bw iw ⟨pend, bcl⟩ ipend bi oi (fun h => (hie h).2)
  | done => exact ⟨[], _, rfl, rfl⟩

/-- Every execution that started with fresh globals extends to a completed
execution. -/
theorem runProcess_completable (cfg : Config) (hsz : WellSized cfg) (outputImage : List Pixel)
    (schedule : List Thread) (s : Pipeline)
    (hout : outputImage.length = (cfg.width * cfg.height).toNat)
    (hrun : runProcess cfg freshGlobals outputImage schedule = some s) :
    ∃ more s1, runProcess cfg freshGlobals outputImage (schedule ++ more) = some s1 ∧
      s1.orch = OrchPc.done := by
  have hinv := runProcess_inv cfg hsz outputImage schedule s hout hrun
  obtain ⟨more, s1, hs, hd⟩ := complete_from_inv cfg hsz s hinv
  refine ⟨more, s1, ?_, hd⟩
  unfold runProcess at hrun ⊢
  cases hinit : initPipeline cfg freshGlobals outputImage with
  | none => rw [hinit] at hrun; exact absurd hrun (by simp)
  | some s0 =>
    rw [hinit] at hrun
    simp only at hrun ⊢
    exact run_append cfg hrun hs

/-! ### A division by zero -/

/-- A killed process takes no step. -/
theorem step_killed (cfg : Config) (s : Pipeline) (th : Thread) (h : s.killed = true) :
    step cfg s th = none := by
  simp [step, h]

/-- With kernel size `-2` the radius is `-1`, the kernel loops are empty and
the count is 0: the first blur store divides by zero. On the 1 x 1 image the
blur worker kills the process at its first pixel, and `process` never
returns. -/
theorem negative_kernel_kills :
    blurPixel [⟨10, 20, 30⟩] 1 1 (-2) 0 0 = none ∧
    (∃ s : Pipeline,
      runProcess ⟨[⟨10, 20, 30⟩], 1, 1, -2, 1, 1⟩ freshGlobals [⟨0, 0, 0⟩]
        (List.replicate 5 Thread.orchestrator ++ List.replicate 3 (Thread.blur 0)) = some s ∧
      s.killed = true ∧ s.orch = OrchPc.joinBlur ∧
      ∀ th, step ⟨[⟨10, 20, 30⟩], 1, 1, -2, 1, 1⟩ s th = none) := by
  refine ⟨by decide, _,
    (by decide : runProcess ⟨[⟨10, 20, 30⟩], 1, 1, -2, 1, 1⟩ freshGlobals [⟨0, 0, 0⟩]
      (List.replicate 5 Thread.orchestrator ++ List.replicate 3 (Thread.blur 0)) = some
      { orch := OrchPc.joinBlur,
        blurWorkers := [WorkerPc.colTest ⟨0, 0, 1, 1⟩ 0 0],
        inversionWorkers := [WorkerPc.waiting],
        blurQueue := { pending := [], closed := true },
        inversionQueue := { pending := [], closed := false },
        blurredImage := { data := [⟨0, 0, 0⟩], writes := [] },
        outputImage := { data := [⟨0, 0, 0⟩], writes := [] },
        killed := true }), rfl, rfl, fun th => step_killed _ _ th rfl⟩

/-! ### Independence of the schedule -/

/-- C10 (amended): for a call of `process` that finds the global queues empty
and both `...Done` flags unset, with an input buffer of exactly
`width * height` pixels, positive `int` width, height, kernel size and tile
size with `width * height ≤ INT_MAX`, `width + tileSize ≤ INT_MAX` and
`height + tileSize ≤ INT_MAX`, there is one buffer content, the inverted blur
of the input, such that for every pool size of at least 1 and every initial
output buffer of `width * height` pixels a completed execution of `process`
exists and every completed execution, whatever its schedule, ends with
exactly that content in the output buffer; no execution is killed by a
division by zero; in every reachable state each tile of the inversion queue
has all its blur stores in place; and every execution extends to a completed
execution (no reachable state is stuck). -/
theorem output_independent_of_schedule (inputImage : List Pixel)
    (width height kernelSize tileSize : Int) (globals : Globals)
    (hw : 0 < width) (hh : 0 < height) (harea : width * height ≤ INT_MAX)
    (hk : 0 < kernelSize) (hk1 : kernelSize ≤ INT_MAX)
    (hT : 0 < tileSize) (hWT : width + tileSize ≤ INT_MAX) (hHT : height + tileSize ≤ INT_MAX)
    (hin : inputImage.length = (width * height).toNat)
    (hfresh : globals = freshGlobals) :
    ∃ result : List Pixel,
      (blurImage inputImage width height kernelSize).map invertImage = some result ∧
      ∀ (numThreads : Nat) (outputImage : List Pixel), 1 ≤ numThreads →
        outputImage.length = (width * height).toNat →
        (∃ sched s, runProcess ⟨inputImage, width, height, kernelSize, tileSize, numThreads⟩
          globals outputImage sched = some s ∧ s.orch = OrchPc.done) ∧
        (∀ (sched : List Thread) (s : Pipeline),
          runProcess ⟨inputImage, width, height, kernelSize, tileSize, numThreads⟩
            globals outputImage sched = some s →
          s.orch = OrchPc.done → s.outputImage.data = result) ∧
        (∀ (sched : List Thread) (s : Pipeline),
          runProcess ⟨inputImage, width, height, kernelSize, tileSize, numThreads⟩
            globals outputImage sched = some s → s.killed = false) ∧
        (∀ (sched : List Thread) (s : Pipeline),
          runProcess ⟨inputImage, width, height, kernelSize, tileSize, numThreads⟩
            globals outputImage sched = some s →
          ∀ t ∈ s.inversionQueue.pending, ∀ x y, t.contains x y →
            blurPixel inputImage width height kernelSize x y =
              some (load s.blurredImage.data (y * width + x))) ∧
        (∀ (sched : List Thread) (s : Pipeline),
          runProcess ⟨inputImage, width, height, kernelSize, tileSize, numThreads⟩
            globals outputImage sched = some s →
          ∃ more s1,
            runProcess ⟨inputImage, width, height, kernelSize, tileSize, numThreads⟩
              globals outputImage (sched ++ more) = some s1 ∧ s1.orch = OrchPc.done) := by
  subst hfresh
  have hsz : ∀ numThreads : Nat,
      WellSized ⟨inputImage, width, height, kernelSize, tileSize, numThreads⟩ :=
    fun numThreads => ⟨hw, hh, harea, hk, hk1, hT, hWT, hHT⟩
  have hsafe := noTrap_of_wellSized _ (hsz 0)
  have hb := blurImage_eq inputImage width height kernelSize hw
    (fun x y hx0 hx hy0 hy => hsafe x y ⟨hx0, hx, hy0, hy⟩)
  refine ⟨_, by rw [hb]; rfl, ?_⟩
  intro numThreads outputImage hn hout
  refine ⟨?_, ?_, ?_, ?_, ?_⟩
  · obtain ⟨sched, hs⟩ := serial_run _ (hsz numThreads) outputImage hn
    exact ⟨sched, _, hs, rfl⟩
  · intro sched s hrun hdone
    have h := runProcess_output _ (hsz numThreads) outputImage sched s hn hout hrun hdone
    simp only at h
    rw [hb] at h
    exact (Option.some.inj h).symm
  · intro sched s hrun
    exact (runProcess_inv _ (hsz numThreads) outputImage sched s hout hrun).alive
  · intro sched s hrun
    exact runProcess_handoff _ (hsz numThreads) outputImage sched s hout hrun
  · intro sched s hrun
    exact runProcess_completable _ (hsz numThreads) outputImage sched s hout hrun

/-- Witness of C10: on the 2 x 1 image `(1,2,3), (250,0,255)` with tile size 1,
a first call with one worker per pool and an interleaved first call with two
workers per pool, started on different output buffers, both complete and
leave `(254,253,252), (5,255,0)`. -/
theorem output_independent_of_schedule_witness :
    ∃ s1 s2 : Pipeline,
      runProcess ⟨[⟨1, 2, 3⟩, ⟨250, 0, 255⟩], 2, 1, 1, 1, 1⟩ freshGlobals
        [⟨0, 0, 0⟩, ⟨0, 0, 0⟩] scheduleOneWorker = some s1 ∧
      runProcess ⟨[⟨1, 2, 3⟩, ⟨250, 0, 255⟩], 2, 1, 1, 1, 2⟩ freshGlobals
        [⟨9, 9, 9⟩, ⟨0, 0, 0⟩] scheduleTwoWorkers = some s2 ∧
      s1.orch = OrchPc.done ∧ s2.orch = OrchPc.done ∧
      s1.outputImage.data = s2.outputImage.data ∧
      s1.outputImage.data = [⟨254, 253, 252⟩, ⟨5, 255, 0⟩] := by
  have h1 : runProcess ⟨[⟨1, 2, 3⟩, ⟨250, 0, 255⟩], 2, 1, 1, 1, 1⟩ freshGlobals
      [⟨0, 0, 0⟩, ⟨0, 0, 0⟩] scheduleOneWorker = some
        { orch := OrchPc.done, blurWorkers := [WorkerPc.exited],
          inversionWorkers := [WorkerPc.exited],
          blurQueue := { pending := [], closed := true },
          inversionQueue := { pending := [], closed := true },
          blurredImage := { data := [⟨1, 2, 3⟩, ⟨250, 0, 255⟩], writes := [0, 1] },
          outputImage := { data := [⟨254, 253, 252⟩, ⟨5, 255, 0⟩], writes := [0, 1] },
          killed := false } := by
    decide
  have h2 : runProcess ⟨[⟨1, 2, 3⟩, ⟨250, 0, 255⟩], 2, 1, 1, 1, 2⟩ freshGlobals
      [⟨9, 9, 9⟩, ⟨0, 0, 0⟩] scheduleTwoWorkers = some
        { orch := OrchPc.done, blurWorkers := [WorkerPc.exited, WorkerPc.exited],
          inversionWorkers := [WorkerPc.exited, WorkerPc.exited],
          blurQueue := { pending := [], closed := true },
          inversionQueue := { pending := [], closed := true },
          blurredImage := { data := [⟨1, 2, 3⟩, ⟨250, 0, 255⟩], writes := [0, 1] },
          outputImage := { data := [⟨254, 253, 252⟩, ⟨5, 255, 0⟩], writes := [0, 1] },
          killed := false } := by
    decide
  obtain ⟨result, -, hall⟩ := output_independent_of_schedule [⟨1, 2, 3⟩, ⟨250, 0, 255⟩]
    2 1 1 1 freshGlobals (by decide) (by decide) (by decide) (by decide) (by decide) (by decide)
    (by decide) (by decide) (by decide) rfl
  have e1 := (hall 1 [⟨0, 0, 0⟩, ⟨0, 0, 0⟩] (by decide) (by decide)).2.1 _ _ h1 rfl
  have e2 := (hall 2 [⟨9, 9, 9⟩, ⟨0, 0, 0⟩] (by decide) (by decide)).2.1 _ _ h2 rfl
  exact ⟨_, _, h1, h2, rfl, rfl, e1.trans e2.symm, rfl⟩

/-- Counterexample to C10 as stated: a second call of `process`. With both
`...Done` flags left set by a completed call, two schedules of the same call
(the 1 x 1 image `(10, 20, 30)`, kernel size 1, tile size 1, one worker per
pool, output buffer `(0, 0, 0)`) both complete and end with different output
buffers: with the workers scheduled first each worker leaves at once and the
output stays `(0, 0, 0)`; with the orchestrator scheduled first the tile is
blurred and inverted and the output is `(245, 235, 225)`. Besides, in a first
call with kernel size `-2` the first blur store divides by zero and the
process is killed, so that no schedule completes; and in a first call with
width 2000000000, height 1 and tile size 1500000000 the tile arithmetic
overflows and two of the enqueued tiles overlap. -/
theorem second_call_output_depends_on_schedule :
    (∃ s1 s2 : Pipeline,
      runProcess ⟨[⟨10, 20, 30⟩], 1, 1, 1, 1, 1⟩ usedGlobals [⟨0, 0, 0⟩]
        scheduleWorkersFirst = some s1 ∧
      runProcess ⟨[⟨10, 20, 30⟩], 1, 1, 1, 1, 1⟩ usedGlobals [⟨0, 0, 0⟩]
        scheduleSerial = some s2 ∧
      s1.orch = OrchPc.done ∧ s2.orch = OrchPc.done ∧
      s1.outputImage.data = [⟨0, 0, 0⟩] ∧ s2.outputImage.data = [⟨245, 235, 225⟩] ∧
      s1.outputImage.data ≠ s2.outputImage.data) ∧
    (∃ s : Pipeline,
      runProcess ⟨[⟨10, 20, 30⟩], 1, 1, -2, 1, 1⟩ freshGlobals [⟨0, 0, 0⟩]
        (List.replicate 5 Thread.orchestrator ++ List.replicate 3 (Thread.blur 0)) = some s ∧
      s.killed = true ∧ s.orch = OrchPc.joinBlur ∧
      ∀ th, step ⟨[⟨10, 20, 30⟩], 1, 1, -2, 1, 1⟩ s th = none) ∧
    (runProcess ⟨whiteImage 2000000000, 2000000000, 1, 5, 1500000000, 2⟩ freshGlobals
      (whiteImage 2000000000) (List.replicate 4 Thread.orchestrator)).map
        (fun s => s.blurQueue.pending) =
      some [⟨0, 0, 1500000000, 1⟩, ⟨1500000000, 0, -1294967296, 1⟩,
        ⟨-1294967296, 0, 205032704, 1⟩] := by
  refine ⟨?_, negative_kernel_kills.2, by decide⟩
  refine ⟨_, _,
    (by decide : runProcess ⟨[⟨10, 20, 30⟩], 1, 1, 1, 1, 1⟩ usedGlobals [⟨0, 0, 0⟩]
      scheduleWorkersFirst = some
      { orch := OrchPc.done, blurWorkers := [WorkerPc.exited],
        inversionWorkers := [WorkerPc.exited],
        blurQueue := { pending := [⟨0, 0, 1, 1⟩], closed := true },
        inversionQueue := { pending := [], closed := true },
        blurredImage := { data := [⟨0, 0, 0⟩], writes := [] },
        outputImage := { data := [⟨0, 0, 0⟩], writes := [] },
        killed := false }),
    (by decide : runProcess ⟨[⟨10, 20, 30⟩], 1, 1, 1, 1, 1⟩ usedGlobals [⟨0, 0, 0⟩]
      scheduleSerial = some
      { orch := OrchPc.done, blurWorkers := [WorkerPc.exited],
        inversionWorkers := [WorkerPc.exited],
        blurQueue := { pending := [], closed := true },
        inversionQueue := { pending := [], closed := true },
        blurredImage := { data := [⟨10, 20, 30⟩], writes := [0] },
        outputImage := { data := [⟨245, 235, 225⟩], writes := [0] },
        killed := false }), rfl, rfl, rfl, rfl, by decide⟩

/-! ### Degenerate sizes -/

theorem nowork_stepOrchestrator (cfg : Config) (outputImage : List Pixel) (s s1 : Pipeline)
    (hnw : NoWork cfg outputImage s) (hstep : stepOrchestrator cfg s = some s1) :
    NoWork cfg outputImage s1 := by
  have hrow := hnw.noRow
  have htile := hnw.noTile
  unfold stepOrchestrator at hstep
  cases hpc : s.orch with
  | outerTest startY =>
    rw [hpc] at hstep
    simp only at hstep
    by_cases hlt : startY < cfg.height
    · rw [if_pos hlt] at hstep
      obtain rfl := Option.some.inj hstep
      have hw : cfg.width ≤ 0 := by
        rcases hrow startY hpc with h | h
        · omega
        · exact h
      exact { hnw with
        noRow := by intro y h; simp at h
        noTile := by
          intro y x h
          simp only [OrchPc.innerTest.injEq] at h
          rw [← h.2]
          exact ⟨hw, hw⟩ }
    · rw [if_neg hlt] at hstep
      obtain rfl := Option.some.inj hstep
      exact { hnw with
        noRow := by intro y h; simp at h
        noTile := by intro y x h; simp at h }
  | innerTest startY startX =>
    rw [hpc] at hstep
    simp only at hstep
    obtain ⟨hw, hx⟩ := htile startY startX hpc
    rw [if_neg (by omega)] at hstep
    obtain rfl := Option.some.inj hstep
    exact { hnw with
      noRow := fun _ _ => Or.inr hw
      noTile := by intro y x h; simp at h }
  | closeBlur =>
    rw [hpc] at hstep
    simp only at hstep
    obtain rfl := Option.some.inj hstep
    exact { hnw with
      noRow := by intro y h; simp at h
      noTile := by intro y x h; simp at h
      blurQ := hnw.blurQ }
  | joinBlur =>
    rw [hpc] at hstep
    simp only at hstep
    by_cases hall : allExited s.blurWorkers = true
    · rw [if_pos hall] at hstep
      obtain rfl := Option.some.inj hstep
      exact { hnw with
        noRow := by intro y h; simp at h
        noTile := by intro y x h; simp at h }
    · rw [if_neg hall] at hstep
      exact absurd hstep (by simp)
  | closeInversion =>
    rw [hpc] at hstep
    simp only at hstep
    obtain rfl := Option.some.inj hstep
    exact { hnw with
      noRow := by intro y h; simp at h
      noTile := by intro y x h; simp at h
      invQ := hnw.invQ }
  | joinInversion =>
    rw [hpc] at hstep
    simp only at hstep
    by_cases hall : allExited s.inversionWorkers = true
    · rw [if_pos hall] at hstep
      obtain rfl := Option.some.inj hstep
      exact { hnw with
        noRow := by intro y h; simp at h
        noTile := by intro y x h; simp at h }
    · rw [if_neg hall] at hstep
      exact absurd hstep (by simp)
  | done =>
    rw [hpc] at hstep
    exact absurd hstep (by simp)

theorem nowork_stepBlur (cfg : Config) (outputImage : List Pixel) (s s1 : Pipeline) (i : Nat)
    (hnw : NoWork cfg outputImage s) (hstep : stepBlur cfg s i = some s1) :
    NoWork cfg outputImage s1 := by
  unfold stepBlur at hstep
  cases hw : s.blurWorkers[i]? with
  | none => rw [hw] at hstep; exact absurd hstep (by simp)
  | some pc =>
    rw [hw] at hstep
    rcases hnw.blurW pc (old_mem hw) with rfl | rfl
    · simp only at hstep
      cases hpop : pop s.blurQueue with
      | blocked => rw [hpop] at hstep; exact absurd hstep (by simp)
      | noMoreWork =>
        rw [hpop] at hstep
        obtain rfl := Option.some.inj hstep
        exact { hnw with
          blurW := by
            intro pc hpc
            rcases mem_set_cases hpc with rfl | hpc
            · exact Or.inr rfl
            · exact hnw.blurW pc hpc }
      | tile t rest =>
        have := (pop_eq_tile hpop).2
        rw [hnw.blurQ] at this
        exact absurd this (by simp)
    · exact absurd hstep (by simp)

theorem nowork_stepInversion (cfg : Config) (outputImage : List Pixel) (s s1 : Pipeline)
    (i : Nat) (hnw : NoWork cfg outputImage s) (hstep : stepInversion cfg s i = some s1) :
    NoWork cfg outputImage s1 := by
  unfold stepInversion at hstep
  cases hw : s.inversionWorkers[i]? with
  | none => rw [hw] at hstep; exact absurd hstep (by simp)
  | some pc =>
    rw [hw] at hstep
    rcases hnw.invW pc (old_mem hw) with rfl | rfl
    · simp only at hstep
      cases hpop : pop s.inversionQueue with
      | blocked => rw [hpop] at hstep; exact absurd hstep (by simp)
      | noMoreWork =>
        rw [hpop] at hstep
        obtain rfl := Option.some.inj hstep
        exact { hnw with
          invW := by
            intro pc hpc
            rcases mem_set_cases hpc with rfl | hpc
            · exact Or.inr rfl
            · exact hnw.invW pc hpc }
      | tile t rest =>
        have := (pop_eq_tile hpop).2
        rw [hnw.invQ] at this
        exact absurd this (by simp)
    · exact absurd hstep (by simp)

theorem nowork_run (cfg : Config) (outputImage : List Pixel) :
    ∀ (schedule : List Thread) (s s1 : Pipeline), NoWork cfg outputImage s →
      run cfg s schedule = some s1 → NoWork cfg outputImage s1 := by
  intro schedule
  induction schedule with
  | nil =>
    intro s s1 hnw hrun
    simp only [run] at hrun
    obtain rfl := Option.some.inj hrun
    exact hnw
  | cons th rest ih =>
    intro s s1 hnw hrun
    simp only [run] at hrun
    cases hs : step cfg s th with
    | none => rw [hs] at hrun; exact absurd hrun (by simp)
    | some s2 =>
      rw [hs] at hrun
      refine ih s2 s1 ?_ hrun
      unfold step at hs
      rw [hnw.alive] at hs
      simp only [Bool.false_eq_true, if_false] at hs
      cases th with
      | orchestrator => exact nowork_stepOrchestrator cfg outputImage s s2 hnw hs
      | blur i => exact nowork_stepBlur cfg outputImage s s2 i hnw hs
      | inversion i => exact nowork_stepInversion cfg outputImage s s2 i hnw hs

/-- The set-up of a call that finds fresh globals, when the allocation does
not throw. -/
theorem initPipeline_fresh_of_nonneg (cfg : Config) (outputImage : List Pixel)
    (h0 : 0 ≤ wrapInt (cfg.width * cfg.height)) :
    initPipeline cfg freshGlobals outputImage =
      some ⟨OrchPc.outerTest 0, List.replicate cfg.numThreads WorkerPc.waiting,
        List.replicate cfg.numThreads WorkerPc.waiting, ⟨[], false⟩, ⟨[], false⟩,
        ⟨List.replicate (wrapInt (cfg.width * cfg.height)).toNat default, []⟩,
        ⟨outputImage, []⟩, false⟩ := by
  unfold initPipeline allocPixels
  rw [if_neg (by omega)]
  rfl

/-- C7 (amended): `process` does not validate its sizes. When the `int`
product `width * height` is negative, the allocation of the intermediate
buffer throws before any worker is started or tile enqueued: no execution
takes a step. Otherwise, for a call that finds the global queues empty and
the `...Done` flags unset, with `height ≤ 0`, or with `width ≤ 0`, a positive
tile size and `height + tileSize ≤ INT_MAX`, `process` returns normally
(whatever the pool size, a completed execution exists), and in no execution
is a tile enqueued, a pixel stored to the output buffer or the process
killed. -/
theorem process_degenerate_sizes (cfg : Config) (globals : Globals)
    (outputImage : List Pixel) :
    (wrapInt (cfg.width * cfg.height) < 0 →
      ∀ sched, runProcess cfg globals outputImage sched = none) ∧
    (0 ≤ wrapInt (cfg.width * cfg.height) → globals = freshGlobals →
      (cfg.height ≤ 0 ∨
        (cfg.width ≤ 0 ∧ 0 < cfg.tileSize ∧ cfg.height + cfg.tileSize ≤ INT_MAX)) →
      (∃ sched s, runProcess cfg globals outputImage sched = some s ∧
        s.orch = OrchPc.done) ∧
      (∀ sched s, runProcess cfg globals outputImage sched = some s →
        s.blurQueue.pending = [] ∧ s.inversionQueue.pending = [] ∧
        s.outputImage = { data := outputImage, writes := [] } ∧ s.killed = false)) := by
  refine ⟨?_, ?_⟩
  · intro hneg sched
    simp [runProcess, initPipeline, allocPixels, hneg]
  · intro h0 hfresh hdeg
    subst hfresh
    have hinit := initPipeline_fresh_of_nonneg cfg outputImage h0
    have hnw0 : NoWork cfg outputImage
        ⟨OrchPc.outerTest 0, List.replicate cfg.numThreads WorkerPc.waiting,
          List.replicate cfg.numThreads WorkerPc.waiting, ⟨[], false⟩, ⟨[], false⟩,
          ⟨List.replicate (wrapInt (cfg.width * cfg.height)).toNat default, []⟩,
          ⟨outputImage, []⟩, false⟩ :=
      { alive := rfl
        noRow := by
          intro y h
          simp only [OrchPc.outerTest.injEq] at h
          rw [← h]
          rcases hdeg with h1 | h1
          · exact Or.inl h1
          · exact Or.inr h1.1
        noTile := by intro y x h; simp at h
        blurQ := rfl
        invQ := rfl
        blurW := fun pc hpc => Or.inl (List.eq_of_mem_replicate hpc)
        invW := fun pc hpc => Or.inl (List.eq_of_mem_replicate hpc)
        output := rfl }
    have hsafe : NoTrap cfg := by
      intro x y him
      simp only [InImage] at him
      rcases hdeg with h1 | h1
      · omega
      · omega
    refine ⟨?_, ?_⟩
    · have hreach : ∃ sched pend1, run cfg
          ⟨OrchPc.outerTest 0, List.replicate cfg.numThreads WorkerPc.waiting,
            List.replicate cfg.numThreads WorkerPc.waiting, ⟨[], false⟩, ⟨[], false⟩,
            ⟨List.replicate (wrapInt (cfg.width * cfg.height)).toNat default, []⟩,
            ⟨outputImage, []⟩, false⟩ sched =
          some ⟨OrchPc.closeBlur, List.replicate cfg.numThreads WorkerPc.waiting,
            List.replicate cfg.numThreads WorkerPc.waiting, ⟨pend1, false⟩, ⟨[], false⟩,
            ⟨List.replicate (wrapInt (cfg.width * cfg.height)).toNat default, []⟩,
            ⟨outputImage, []⟩, false⟩ := by
        by_cases hh : cfg.height ≤ 0
        · refine ⟨[Thread.orchestrator], [], run_one cfg ?_⟩
          simp [step, stepOrchestrator, not_lt.2 hh]
        · rcases hdeg with h1 | ⟨hw, hT, hHT⟩
          · exact absurd h1 hh
          · have hHT2 : cfg.height + cfg.tileSize ≤ 2147483647 := hHT
            exact orch_rows_any cfg hT (by omega) hHT2 _ _ false ⟨[], false⟩ _ _
              (cfg.height - 0).toNat 0 [] (le_refl _) (le_refl _)
      obtain ⟨sched1, pend1, hs1⟩ := hreach
      have hnw1 := nowork_run cfg outputImage sched1 _ _ hnw0 hs1
      have hp1 : pend1 = [] := hnw1.blurQ
      subst hp1
      obtain ⟨sched2, s1, hs2, hd⟩ := complete_from_closeBlur cfg hsafe
        (List.replicate cfg.numThreads WorkerPc.waiting)
        (List.replicate cfg.numThreads WorkerPc.waiting) [] [] false false
        ⟨List.replicate (wrapInt (cfg.width * cfg.height)).toNat default, []⟩
        ⟨outputImage, []⟩
        (by intro h; exact absurd (List.eq_of_mem_replicate h) (by simp))
        (by intro h; exact absurd (List.eq_of_mem_replicate h) (by simp))
        (by intro pc hpc; rw [List.eq_of_mem_replicate hpc]; trivial)
        (by intro t ht; simp at ht)
      refine ⟨sched1 ++ sched2, s1, ?_, hd⟩
      unfold runProcess
      rw [hinit]
      exact run_append cfg hs1 hs2
    · intro sched s hrun
      unfold runProcess at hrun
      rw [hinit] at hrun
      have hnw := nowork_run cfg outputImage sched _ s hnw0 hrun
      exact ⟨hnw.blurQ, hnw.invQ, hnw.output, hnw.alive⟩

/-- Witness of the amended C7: a `-1 x 1` image fails in the allocation; a
`0 x 2` image and a `-65536 x 65536` image, whose `int` product is 0, return
normally with the output untouched. -/
theorem process_degenerate_sizes_witness :
    (∀ sched, runProcess ⟨[], -1, 1, 1, 1, 1⟩ freshGlobals [] sched = none) ∧
    ((∃ sched s, runProcess ⟨[], 0, 2, 1, 1, 1⟩ freshGlobals [] sched = some s ∧
        s.orch = OrchPc.done) ∧
      (∀ sched s, runProcess ⟨[], 0, 2, 1, 1, 1⟩ freshGlobals [] sched = some s →
        s.blurQueue.pending = [] ∧ s.inversionQueue.pending = [] ∧
        s.outputImage = { data := [], writes := [] } ∧ s.killed = false)) ∧
    wrapInt (-65536 * 65536) = 0 ∧
    (∃ sched s, runProcess ⟨[], -65536, 65536, 1, 1, 1⟩ freshGlobals [] sched = some s ∧
      s.orch = OrchPc.done) :=
  ⟨(process_degenerate_sizes ⟨[], -1, 1, 1, 1, 1⟩ freshGlobals []).1 (by decide),
    (process_degenerate_sizes ⟨[], 0, 2, 1, 1, 1⟩ freshGlobals []).2 (by decide) rfl
      (Or.inr ⟨by decide, by decide, by decide⟩),
    by decide,
    ((process_degenerate_sizes ⟨[], -65536, 65536, 1, 1, 1⟩ freshGlobals []).2 (by decide) rfl
      (Or.inr ⟨by decide, by decide, by decide⟩)).1⟩

/-- Counterexample to C7 as stated: on a `0 x 0` image and on a `0 x 2` image
the first call of `process` reports no error; it spawns its workers, enqueues
no tile and returns normally with the output buffer untouched. -/
theorem process_degenerate_returns_normally :
    runProcess ⟨[], 0, 0, 1, 1, 1⟩ freshGlobals []
        [Thread.orchestrator, Thread.orchestrator, Thread.blur 0, Thread.orchestrator,
         Thread.orchestrator, Thread.inversion 0, Thread.orchestrator] = some
      { orch := OrchPc.done, blurWorkers := [WorkerPc.exited],
        inversionWorkers := [WorkerPc.exited],
        blurQueue := { pending := [], closed := true },
        inversionQueue := { pending := [], closed := true },
        blurredImage := { data := [], writes := [] },
        outputImage := { data := [], writes := [] },
        killed := false } ∧
    runProcess ⟨[], 0, 2, 1, 1, 1⟩ freshGlobals []
        (List.replicate 6 Thread.orchestrator ++ [Thread.blur 0, Thread.orchestrator,
         Thread.orchestrator, Thread.inversion 0, Thread.orchestrator]) = some
      { orch := OrchPc.done, blurWorkers := [WorkerPc.exited],
        inversionWorkers := [WorkerPc.exited],
        blurQueue := { pending := [], closed := true },
        inversionQueue := { pending := [], closed := true },
        blurredImage := { data := [], writes := [] },
        outputImage := { data := [], writes := [] },
        killed := false } := by
  decide

end ImageProcessor
